import Mathlib

/-!
# webpdeep: PNG metadata reader, scanner, endpoints, codec adapter, monitor and setup

A shallow embedding of `pkg/imagex/pngx/meta.go`, of the directory walk of
`internal/component/scanner.go`, of the endpoints and the reference-counted writer of
`internal/iox`, of `pkg/zipx/util.go`, of `Job.do`, of the monitor's loop, of
`WebP.Convert`, of `IsImageEqual`, of `NewGlobMatcher` and of `setupConfig`, followed by
the properties proved about them.

Conventions.
* A byte is a natural number below 256; a Go `[]byte` or `string` is a `List Byte`.
* The underlying `io.Reader` of the PNG reader is the list of bytes it has not
  delivered yet; a `Read` on it returns as many bytes as asked for while any remain
  and `io.EOF` afterwards.
* Go library readers (`io.MultiReader`, `io.TeeReader`, `io.LimitReader`,
  `bufio.Reader`, `bytes.Buffer`) are modelled by their effect on those lists.
* The DEFLATE decoder behind `zlib.NewReader` is a parameter `flate`.
* Calls into the file system and into the WebP library are parameters: flags that
  tell whether a call fails, or records of functions.
* `path.Match` and `utf8.DecodeRuneInString` are modelled after the Go library.
-/

namespace Webpdeep

/-! ## Bytes and big-endian words -/

abbrev Byte := Nat

/-- The value of `binary.BigEndian.Uint32` on a four-byte slice. -/
def be32 (bs : List Byte) : Nat :=
  bs.foldl (fun acc b => acc * 256 + b % 256) 0

/-- The four bytes `binary.BigEndian.PutUint32` writes for `v`. -/
def putBe32 (v : Nat) : List Byte :=
  [v / 16777216 % 256, v / 65536 % 256, v / 256 % 256, v % 256]

/-! ## CRC-32 (IEEE), as computed by Go's `hash/crc32` -/

def crcPoly : Nat := 0xEDB88320

/-- One bit of the reflected CRC-32 shift register. -/
def crcShift (c : Nat) : Nat :=
  if c % 2 = 1 then (c / 2) ^^^ crcPoly else c / 2

/-- Feed one byte into the shift register. -/
def crcByte (c : Nat) (b : Byte) : Nat :=
  crcShift (crcShift (crcShift (crcShift (crcShift (crcShift (crcShift (crcShift
    (c ^^^ (b % 256)))))))))

/-- The register after a run of bytes (`simpleUpdate` without the two inversions). -/
def crcFeed (c : Nat) (bs : List Byte) : Nat :=
  bs.foldl crcByte c

/-- The digest after `Write(p)` on a digest whose current sum is `crc`:
`update(crc, tab, p) = ^simpleUpdate(^crc, tab, p)`. -/
def crcWrite (crc : Nat) (p : List Byte) : Nat :=
  crcFeed (crc ^^^ 0xFFFFFFFF) p ^^^ 0xFFFFFFFF

/-- The value of `crc32.ChecksumIEEE`. -/
def crc32 (bs : List Byte) : Nat :=
  crcWrite 0 bs

/-! ## Errors -/

/-- The ways a call of the PNG reader can end other than with success. -/
inductive Err
  /-- Go value `io.EOF`. -/
  | eof
  /-- Go value `io.ErrUnexpectedEOF`. -/
  | unexpectedEOF
  /-- Go value `png.FormatError("not a PNG file")`. -/
  | formatNotPNG
  /-- Go value `png.FormatError("invalid checksum")`. -/
  | formatChecksum
  /-- Go value `png.FormatError("unknown compression method")`. -/
  | formatCompression
  /-- Go value `zlib.ErrHeader`. -/
  | zlibHeader
  /-- Any error of the DEFLATE decoder or of the zlib trailer check. -/
  | zlibData
  /-- A run-time panic: slice bounds out of range. -/
  | panicBounds
  /-- The call never returns (a loop whose state does not change). -/
  | hang
  /-- The loop bound of the embedding was used up (never reached from `Read`). -/
  | fuel
  deriving DecidableEq, Repr

/-- The error is a `png.FormatError`. -/
def Err.isFormat : Err → Bool
  | .formatNotPNG => true
  | .formatChecksum => true
  | .formatCompression => true
  | _ => false

/-! ## The PNG metadata reader (`pkg/imagex/pngx/meta.go`) -/

/-- The constant `pngMagic`, `"\x89PNG\r\n\x1a\n"`. -/
def pngMagic : List Byte := [0x89, 0x50, 0x4E, 0x47, 0x0D, 0x0A, 0x1A, 0x0A]

def fourccICCP : List Byte := [105, 67, 67, 80]
def fourccEXIF : List Byte := [101, 88, 73, 102]
def fourccITXT : List Byte := [105, 84, 88, 116]

/-- The string `"XML:com.adobe.xmp"`. -/
def xmpKeyword : List Byte :=
  [88, 77, 76, 58, 99, 111, 109, 46, 97, 100, 111, 98, 101, 46, 120, 109, 112]

/-- The keys of the `tags` map that the reader ever writes. -/
inductive Tag
  | ICCP
  | EXIF
  | XMP
  deriving DecidableEq, Repr

/-- The struct `MetaReader`. `inp` is what the underlying reader `in` has not
delivered yet, `tmp` the unread content of the `bytes.Buffer`, `crc` the current
sum of the `hash.Hash32`; the `tags` map is one field per key, a `nil` (absent)
entry being the empty list: the reader stores only values of non-zero length. -/
structure MetaReader where
  inp : List Byte
  reaming : Int
  tmp : List Byte
  crc : Nat
  iccp : List Byte
  exif : List Byte
  xmp : List Byte
  deriving DecidableEq, Repr

/-- The constructor `NewMetaReader`: `io.ReadFull` of the eight signature bytes and
their comparison with `pngMagic`. -/
def NewMetaReader (reader : List Byte) : Except Err MetaReader :=
  let magick := reader.take 8
  if magick.length = 0 then .error .eof
  else if magick.length < 8 then .error .unexpectedEOF
  else if magick ≠ pngMagic then .error .formatNotPNG
  else .ok { inp := reader.drop 8, tmp := magick, crc := 0, reaming := 8,
             iccp := [], exif := [], xmp := [] }

/-- The method `Get`. -/
def MetaReader.Get (mr : MetaReader) : Tag → List Byte
  | .ICCP => mr.iccp
  | .EXIF => mr.exif
  | .XMP => mr.xmp

/-- The method `Empty`. -/
def MetaReader.Empty (mr : MetaReader) : Bool :=
  mr.iccp.isEmpty && mr.exif.isEmpty && mr.xmp.isEmpty

/-- The assignment `mr.tags[tagName] = tagData`. -/
def MetaReader.setTag (mr : MetaReader) (t : Tag) (v : List Byte) : MetaReader :=
  match t with
  | .ICCP => { mr with iccp := v }
  | .EXIF => { mr with exif := v }
  | .XMP => { mr with xmp := v }

/-- The two readers `prepareChunkReader` returns, with the reader they share.
`chunk` is `mem` followed, when `viaIn`, by `io.TeeReader(mr.in, mr.tmp)`;
`body` is `bufio.NewReader(io.TeeReader(io.LimitReader(chunk, limit), mr.crc))`
and `buffered` is what that `bufio.Reader` has read from below and not handed on. -/
structure Body where
  mr : MetaReader
  mem : List Byte
  viaIn : Bool
  limit : Nat
  buffered : List Byte
  deriving DecidableEq, Repr

/-- One `Read` with a buffer of `want > 0` bytes on
`io.TeeReader(io.LimitReader(chunk, limit), mr.crc)`; the empty list is `io.EOF`.
An `io.MultiReader` returns after the first reader that gave any byte. -/
def Body.rdRead (want : Nat) (b : Body) : List Byte × Body :=
  let n := min want b.limit
  if b.limit = 0 then ([], b)
  else if b.mem ≠ [] then
    let got := b.mem.take n
    (got, { b with mem := b.mem.drop n, limit := b.limit - got.length,
                   mr := { b.mr with crc := crcWrite b.mr.crc got } })
  else if b.viaIn then
    let got := b.mr.inp.take n
    (got, { b with limit := b.limit - got.length,
                   mr := { b.mr with inp := b.mr.inp.drop n, tmp := b.mr.tmp ++ got,
                                     crc := crcWrite b.mr.crc got } })
  else ([], b)

/-- The refill of the empty 4096-byte buffer of the `bufio.Reader`. -/
def Body.fill (b : Body) : Body :=
  let r := b.rdRead 4096
  { r.2 with buffered := r.1 }

/-- The method `bufio.Reader.ReadByte`; `none` is `io.EOF`. -/
def Body.ReadByte (b : Body) : Option Byte × Body :=
  match b.buffered with
  | c :: rest => (some c, { b with buffered := rest })
  | [] =>
    let b1 := b.fill
    match b1.buffered with
    | c :: rest => (some c, { b1 with buffered := rest })
    | [] => (none, b1)

/-- The method `bufio.Reader.Discard(n)`; `false` is the error `io.EOF`. The call refills
the buffer only when it is empty and bytes are still to be skipped, as `ReadByte`
does. -/
def Body.Discard : Nat → Body → Bool × Body
  | 0, b => (true, b)
  | n + 1, b =>
    match b.ReadByte with
    | (some _, b1) => Body.Discard n b1
    | (none, b1) => (false, b1)

/-- Reading `body` to `io.EOF` (`ioutil.ReadAll`, `bytes.Buffer.ReadFrom`): what is
buffered, then the rest of `mem`, then the rest of `in`, up to the limit. -/
def Body.ReadAll (b : Body) : List Byte × Body :=
  let r1 := { b with buffered := [] }.rdRead b.limit
  let r2 := r1.2.rdRead r1.2.limit
  (b.buffered ++ r1.1 ++ r2.1, r2.2)

/-- The bytes a reader of `body` can still obtain. -/
def Body.avail (b : Body) : List Byte :=
  b.buffered ++ (b.mem ++ if b.viaIn then b.mr.inp else []).take b.limit

/-- The check `zlib.NewReader` makes on the two header bytes (RFC 1950, 2.2). -/
def zlibHeaderOk (cmf flg : Byte) : Bool :=
  cmf % 16 == 8 && cmf / 16 ≤ 7 && (cmf * 256 + flg) % 31 == 0

/-- The call `zlib.NewReader(body)` followed by reading the result to its end. The
two header bytes are checked here; the decoder `flate` is given the bytes `body`
can still deliver, header included, and answers the inflated bytes (`none` for
an error) and how many bytes it took from `body`, one `ReadByte` at a time. -/
def Body.zlibReadAll (flate : List Byte → Option (List Byte) × Nat) (b : Body) :
    Except Err (List Byte) × Body :=
  match b.avail with
  | [] => (.error .unexpectedEOF, b)
  | [_] => (.error .unexpectedEOF, (b.Discard 1).2)
  | cmf :: flg :: _ =>
    if zlibHeaderOk cmf flg then
      let r := flate b.avail
      let b1 := (b.Discard r.2).2
      match r.1 with
      | some v => (.ok v, b1)
      | none => (.error .zlibData, b1)
    else (.error .zlibHeader, (b.Discard 2).2)

/-- The value `math.MinInt32`. -/
def minInt32 : Int := -2147483648

/-- The loop of `readCStr`, `k` iterations left (`for n := 0; n < lim; n++`). -/
def readCStrLoop : Nat → Body → List Byte → Option (List Byte) × Body
  | 0, r, str => (some str, r)
  | k + 1, r, str =>
    match r.ReadByte with
    | (none, r1) => (none, r1)
    | (some c, r1) => if c = 0 then (some str, r1) else readCStrLoop k r1 (str ++ [c])

/-- The function `readCStr`; `none` is the error of `ReadByte`, `io.EOF`. -/
def readCStr (r : Body) (lim : Int) : Option (List Byte) × Body :=
  let lim := if lim ≤ 0 then minInt32 else lim
  readCStrLoop lim.toNat r []

/-- The method `parseZTXt`: keyword and inflated value. -/
def parseZTXt (flate : List Byte → Option (List Byte) × Nat) (body : Body) :
    Except Err (List Byte × List Byte) × Body :=
  match readCStr body 79 with
  | (none, b1) => (.error .eof, b1)
  | (some key, b1) =>
    match b1.ReadByte with
    | (none, b2) => (.error .eof, b2)
    | (some m, b2) =>
      if m ≠ 0 then (.error .formatCompression, b2)
      else
        match b2.zlibReadAll flate with
        | (.error e, b3) => (.error e, b3)
        | (.ok value, b3) => (.ok (key, value), b3)

/-- The struct `iTXtChunk`. -/
structure iTXtChunk where
  key : List Byte
  languageTag : List Byte
  translatedKeyword : List Byte
  text : List Byte
  deriving DecidableEq, Repr

/-- The block `if com == 1 { ... }` of `parseITXt`: the method byte is read, and
checked, only for a compressed chunk. -/
def readMethod (com : Byte) (body : Body) : Option Err × Body :=
  if com = 1 then
    match body.ReadByte with
    | (none, b) => (some .eof, b)
    | (some m, b) => if m ≠ 0 then (some .formatCompression, b) else (none, b)
  else (none, body)

/-- The method `parseITXt`. -/
def parseITXt (flate : List Byte → Option (List Byte) × Nat) (body : Body) :
    Except Err iTXtChunk × Body :=
  match readCStr body 79 with
  | (none, b1) => (.error .eof, b1)
  | (some key, b1) =>
    match b1.ReadByte with
    | (none, b2) => (.error .eof, b2)
    | (some com, b2) =>
      match readMethod com b2 with
      | (some e, b3) => (.error e, b3)
      | (none, b3) =>
        match readCStr b3 (-1) with
        | (none, b4) => (.error .eof, b4)
        | (some languageTag, b4) =>
          match readCStr b4 (-1) with
          | (none, b5) => (.error .eof, b5)
          | (some translatedKeyword, b5) =>
            if com = 1 then
              match b5.zlibReadAll flate with
              | (.error e, b6) => (.error e, b6)
              | (.ok text, b6) => (.ok ⟨key, languageTag, translatedKeyword, text⟩, b6)
            else
              let r := b5.ReadAll
              (.ok ⟨key, languageTag, translatedKeyword, r.1⟩, r.2)

/-- The method `prepareChunkReader`, called after `mr.reaming` was lowered by the size
of the chunk; `none` is the panic of a slice expression out of range. -/
def prepareChunkReader (mr : MetaReader) (pos dataLen : Nat) (read : List Byte) :
    Option Body :=
  let limit := (dataLen + 4) % 4294967296
  if mr.reaming < 0 then
    if pos + 4 ≤ read.length then
      some { mr := { mr with crc := 0 }, mem := read.drop (pos + 4), viaIn := true,
             limit := limit, buffered := [] }
    else none
  else
    let hi := pos + (dataLen + 8 + 4) % 4294967296
    if pos + 4 ≤ hi ∧ hi ≤ read.length then
      some { mr := { mr with crc := 0 }, mem := (read.take hi).drop (pos + 4),
             viaIn := false, limit := limit, buffered := [] }
    else none

/-- A read of `n` bytes from `chunk` itself (not through the limit or the checksum):
`io.ReadFull(chunk, buf)`, the bytes obtained. -/
def Body.chunkReadFull (n : Nat) (b : Body) : List Byte × Body :=
  let fromMem := b.mem.take n
  if b.viaIn then
    let need := n - fromMem.length
    let fromIn := b.mr.inp.take need
    (fromMem ++ fromIn,
      { b with mem := b.mem.drop n,
               mr := { b.mr with inp := b.mr.inp.drop need, tmp := b.mr.tmp ++ fromIn } })
  else (fromMem, { b with mem := b.mem.drop n })

/-- The method `verifyChecksum`, reading the stored sum from `chunk`. -/
def verifyChecksum (b : Body) : Except Err Bool × Body :=
  let r := b.chunkReadFull 4
  if r.1.length = 0 then (.error .eof, r.2)
  else if r.1.length < 4 then (.error .unexpectedEOF, r.2)
  else (.ok (be32 r.1 == r.2.mr.crc), r.2)

/-- The three recognised kinds of chunk in `parseChunk`. -/
inductive Kind
  | iCCP
  | eXIf
  | iTXt
  deriving DecidableEq, Repr

/-- The branch `parseChunk` takes on the four-character code and the tags held. -/
def classify (mr : MetaReader) (fourcc : List Byte) : Option Kind :=
  if fourcc = fourccICCP ∧ mr.iccp = [] then some .iCCP
  else if fourcc = fourccEXIF ∧ mr.exif = [] then some .eXIf
  else if fourcc = fourccITXT then some .iTXt
  else none

/-- The variable `tagName` of `parseChunk`. -/
def Kind.tagName : Kind → Tag
  | .iCCP => .ICCP
  | .eXIf => .EXIF
  | .iTXt => .XMP

/-- The closure `bodyParse` of `parseChunk`. -/
def bodyParse (flate : List Byte → Option (List Byte) × Nat) (k : Kind) (body : Body) :
    Except Err (List Byte) × Body :=
  match k with
  | .iCCP =>
    match parseZTXt flate body with
    | (.error e, b) => (.error e, b)
    | (.ok kv, b) => (.ok kv.2, b)
  | .eXIf =>
    let r := body.ReadAll
    (.ok r.1, r.2)
  | .iTXt =>
    match parseITXt flate body with
    | (.error e, b) => (.error e, b)
    | (.ok c, b) => if c.key ≠ xmpKeyword then (.ok [], b) else (.ok c.text, b)

/-- The eight header bytes of the chunk at `pos`, as `parseChunk` obtains them: from
`read` alone when `mr.reaming >= 8`, else by `io.ReadFull` on
`io.MultiReader(bytes.NewBuffer(read[pos:]), io.TeeReader(mr.in, mr.tmp))`. -/
def readHeader (mr : MetaReader) (pos : Nat) (read : List Byte) :
    Except Err (List Byte) × MetaReader :=
  if mr.reaming < 8 then
    if pos ≤ read.length then
      let fromMem := (read.drop pos).take 8
      let need := 8 - fromMem.length
      let fromIn := mr.inp.take need
      let mr1 := { mr with inp := mr.inp.drop need, tmp := mr.tmp ++ fromIn }
      let buf := fromMem ++ fromIn
      if buf.length = 0 then (.error .eof, mr1)
      else if buf.length < 8 then (.error .unexpectedEOF, mr1)
      else (.ok buf, mr1)
    else (.error .panicBounds, mr)
  else if pos + 8 ≤ read.length then (.ok ((read.drop pos).take 8), mr)
  else (.error .panicBounds, mr)

/-- A recognised chunk in `parseChunk`, from `prepareChunkReader` to the store into
`mr.tags`; the reader afterwards, with the error if any. -/
def parseRecognised (flate : List Byte → Option (List Byte) × Nat) (k : Kind)
    (mr : MetaReader) (pos dataLen : Nat) (read : List Byte) : Option Err × MetaReader :=
  match prepareChunkReader mr pos dataLen read with
  | none => (some .panicBounds, mr)
  | some body0 =>
    match body0.Discard 4 with
    | (false, b1) => (some .eof, b1.mr)
    | (true, b1) =>
      match bodyParse flate k b1 with
      | (.error e, b2) => (some e, b2.mr)
      | (.ok tagData, b2) =>
        match verifyChecksum b2 with
        | (.error e, b3) => (some e, b3.mr)
        | (.ok false, b3) => (some .formatChecksum, b3.mr)
        | (.ok true, b3) =>
          if tagData.length ≠ 0 then (none, b3.mr.setTag k.tagName tagData)
          else (none, b3.mr)

/-- The loop of `parseChunk` (`for pos := 0; mr.reaming > 0;`), with a bound on the
number of iterations. An unrecognised chunk whose size field makes `delta` zero
while the header lies in `read` leaves `pos` and `mr.reaming` as they were: the
loop spins for ever, recorded as `Err.hang`. -/
def parseChunkLoop (flate : List Byte → Option (List Byte) × Nat) :
    Nat → MetaReader → Nat → List Byte → Option Err × MetaReader
  | 0, mr, _, _ => (some .fuel, mr)
  | fuel + 1, mr, pos, read =>
    if mr.reaming ≤ 0 then (none, { mr with reaming := -mr.reaming })
    else
      match readHeader mr pos read with
      | (.error e, mr1) => (some e, mr1)
      | (.ok buf, mr1) =>
        let dataLen := be32 (buf.take 4)
        let fourcc := buf.drop 4
        let delta := (dataLen + 8 + 4) % 4294967296
        let mr2 := { mr1 with reaming := mr1.reaming - (delta : Int) }
        match classify mr2 fourcc with
        | none =>
          if delta = 0 ∧ 8 ≤ mr.reaming then (some .hang, mr2)
          else parseChunkLoop flate fuel mr2 (pos + delta) read
        | some k =>
          match parseRecognised flate k mr2 pos dataLen read with
          | (some e, mr3) => (some e, mr3)
          | (none, mr3) => parseChunkLoop flate fuel mr3 (pos + delta) read

/-- The method `parseChunk`: `mr.tmp.Reset()` and the loop. -/
def parseChunk (flate : List Byte → Option (List Byte) × Nat) (mr : MetaReader)
    (read : List Byte) : Option Err × MetaReader :=
  parseChunkLoop flate (mr.reaming.toNat + mr.inp.length + 1) { mr with tmp := [] } 0 read

/-- What a call of `Read` hands back: the bytes put into `p`, the error, and the
reader afterwards. -/
structure ReadResult where
  data : List Byte
  err : Option Err
  mr : MetaReader
  deriving DecidableEq, Repr

/-- The method `Read` with a buffer `p` of `n` bytes. The loop over
`io.MultiReader(mr.tmp, mr.in)` fills `p` from `tmp`, then from `in`, and stops
short only at `io.EOF`. -/
def Read (flate : List Byte → Option (List Byte) × Nat) (mr : MetaReader) (n : Nat) :
    ReadResult :=
  let p := (mr.tmp ++ mr.inp).take n
  let read := p.length
  let err := if read < n then some Err.eof else none
  let mr1 := { mr with tmp := mr.tmp.drop n, inp := mr.inp.drop (n - mr.tmp.length),
                       reaming := mr.reaming - (read : Int) }
  if 0 ≤ mr1.reaming then ⟨p, err, mr1⟩
  else
    let mr2 := { mr1 with reaming := -mr1.reaming }
    if mr2.reaming ≤ (read : Int) then
      let r := parseChunk flate mr2 (p.drop (read - mr2.reaming.toNat))
      ⟨p, if r.1.isSome then r.1 else err, r.2⟩
    else ⟨p, some .panicBounds, mr2⟩

/-- A consumer that calls `Read` with buffers of the given sizes, one after the
other, and stops at the first call that returns an error (`io.EOF` included):
the bytes it was handed, the error that stopped it, and the reader. -/
def consume (flate : List Byte → Option (List Byte) × Nat) :
    List Nat → MetaReader → List Byte × Option Err × MetaReader
  | [], mr => ([], none, mr)
  | n :: sizes, mr =>
    let r := Read flate mr n
    match r.err with
    | some e => (r.data, some e, r.mr)
    | none =>
      let rest := consume flate sizes r.mr
      (r.data ++ rest.1, rest.2.1, rest.2.2)

/-- Open a stream with `NewMetaReader` and consume it with buffers of the given
sizes. -/
def readStream (flate : List Byte → Option (List Byte) × Nat) (stream : List Byte)
    (sizes : List Nat) : Except Err (List Byte × Option Err × MetaReader) :=
  match NewMetaReader stream with
  | .error e => .error e
  | .ok mr => .ok (consume flate sizes mr)

/-- The bytes of one chunk: length, four-character code, data, stored checksum. -/
def encodeChunk (fourcc data : List Byte) (crc : Nat) : List Byte :=
  putBe32 data.length ++ fourcc ++ data ++ putBe32 crc

/-- A chunk whose stored checksum is the CRC-32 of code and data. -/
def goodChunk (fourcc data : List Byte) : List Byte :=
  encodeChunk fourcc data (crc32 (fourcc ++ data))

/-- What a consumer observes of a whole run: the bytes it was handed, the error that
ended the run, and the three tags afterwards; `none` when `NewMetaReader` fails. -/
structure Outcome where
  delivered : List Byte
  err : Option Err
  iccp : List Byte
  exif : List Byte
  xmp : List Byte
  deriving DecidableEq, Repr

/-- The outcome of opening `stream` and reading it with buffers of the given sizes. -/
def outcome (flate : List Byte → Option (List Byte) × Nat) (stream : List Byte)
    (sizes : List Nat) : Option Outcome :=
  match NewMetaReader stream with
  | .error _ => none
  | .ok mr =>
    let r := consume flate sizes mr
    some ⟨r.1, r.2.1, r.2.2.Get .ICCP, r.2.2.Get .EXIF, r.2.2.Get .XMP⟩

/-! ## ZIP entry names (`pkg/zipx/util.go`) -/

/-- A Go slice: the bytes of its backing array from its first element on, and its
length; the capacity is the length of `arr`. -/
structure Slice where
  arr : List Byte
  len : Nat
  deriving DecidableEq, Repr

/-- The elements of a slice. -/
def Slice.bytes (s : Slice) : List Byte := s.arr.take s.len

/-- The slice expression `s[lo:hi]`; `none` is the panic when `lo ≤ hi ≤ cap(s)` fails. -/
def Slice.slice (s : Slice) (lo hi : Nat) : Option Slice :=
  if lo ≤ hi ∧ hi ≤ s.arr.length then some ⟨s.arr.drop lo, hi - lo⟩ else none

/-- The slice expression `s[lo:]`, that is `s[lo:len(s)]`. -/
def Slice.sliceFrom (s : Slice) (lo : Nat) : Option Slice :=
  s.slice lo s.len

/-- Little-endian value of a byte list (`binary.LittleEndian.Uint16`, `Uint32`). -/
def le (bs : List Byte) : Nat :=
  bs.foldr (fun b acc => b % 256 + 256 * acc) 0

/-- The fields of `zip.FileHeader` that `DetectZipUTF8Path` reads. -/
structure FileHeader where
  Name : List Byte
  NonUTF8 : Bool
  Extra : Slice
  deriving DecidableEq, Repr

/-- The loop of `DetectZipUTF8Path`, with a bound on the iterations: each one moves `pos`
forward by at least four. `none` is a slice-bounds panic. -/
def detectLoop (fh : FileHeader) : Nat → Nat → Option (List Byte × Bool)
  | 0, _ => some (fh.Name, true)
  | fuel + 1, pos =>
    if pos < fh.Extra.len then
      match fh.Extra.slice pos (pos + 2) with
      | none => none
      | some t =>
        let tag := le t.bytes
        let pos := pos + 2
        match fh.Extra.slice pos (pos + 2) with
        | none => none
        | some z =>
          let size := le z.bytes
          let pos := pos + 2
          if tag = 0x7075 then
            match fh.Extra.slice pos (pos + size) with
            | none => none
            | some data =>
              match data.slice 1 5 with
              | none => none
              | some c =>
                if le c.bytes = crc32 fh.Name then
                  match data.sliceFrom 5 with
                  | none => none
                  | some nm => some (nm.bytes, false)
                else detectLoop fh fuel (pos + size)
          else detectLoop fh fuel (pos + size)
    else some (fh.Name, true)

/-- The function `DetectZipUTF8Path`. -/
def DetectZipUTF8Path (fh : FileHeader) : Option (List Byte × Bool) :=
  if !fh.NonUTF8 then some (fh.Name, false)
  else detectLoop fh (fh.Extra.len + 1) 0

/-! ## The shared ZIP writer (`internal/iox/zip.go`) -/

/-- The value of an `int32` computation. -/
def wrapInt32 (x : Int) : Int :=
  (x + 2147483648) % 4294967296 - 2147483648

/-- The struct `SafeZipWriter`: the counter, and how often `Close` was called on the
archive writer and on the backing file `f`. -/
structure SafeZipWriter where
  ref : Int
  writerCloses : Nat
  fileCloses : Nat
  deriving DecidableEq, Repr

/-- The constructor `NewZipWriter`. -/
def NewZipWriter (ref : Int) : SafeZipWriter :=
  { ref := ref, writerCloses := 0, fileCloses := 0 }

/-- The method `UnRef`. `writerFails` and `fileFails` tell whether `zw.Writer.Close()`
and `zw.f.Close()` return an error if this call makes them; the result is whether
`UnRef` returns an error, and the writer afterwards. -/
def SafeZipWriter.UnRef (zw : SafeZipWriter) (writerFails fileFails : Bool) :
    Bool × SafeZipWriter :=
  let zw1 := { zw with ref := wrapInt32 (zw.ref - 1) }
  if zw1.ref ≠ 0 then (false, zw1)
  else
    let zw2 := { zw1 with writerCloses := zw1.writerCloses + 1 }
    if writerFails then (true, zw2)
    else
      let zw3 := { zw2 with fileCloses := zw2.fileCloses + 1 }
      if fileFails then (true, zw3)
      else (false, zw3)

/-- A sequence of `UnRef` calls, each with the outcome its two `Close` calls would
have; the errors returned, in order, and the writer afterwards. -/
def unRefs : List (Bool × Bool) → SafeZipWriter → List Bool × SafeZipWriter
  | [], zw => ([], zw)
  | f :: rest, zw =>
    let r := zw.UnRef f.1 f.2
    let rs := unRefs rest r.2
    (r.1 :: rs.1, rs.2)

/-! ## The scanner (`internal/component/scanner.go`) -/

abbrev Path := List Byte

/-- The string `".webp"`. -/
def dotWebp : Path := [46, 119, 101, 98, 112]

/-- The constant `iox.NestSeparator`, `"|"`. -/
def NestSeparator : Path := [124]

/-- The scan of `filepath.Ext` and `path.Ext` from the end of the path: `rev` is what
is left to scan, last byte first, `acc` what was scanned. -/
def extScan (isSep : Byte → Bool) : List Byte → List Byte → List Byte
  | [], _ => []
  | c :: rev, acc =>
    if isSep c then []
    else if c = 46 then c :: acc
    else extScan isSep rev (c :: acc)

/-- The function `filepath.Ext` for the path separators of the platform (`path.Ext`
when `isSep` accepts `/` alone). -/
def Ext (isSep : Byte → Bool) (p : Path) : Path :=
  extScan isSep p.reverse []

/-- The separator test of `path.Ext`. -/
def isSlash (c : Byte) : Bool := c == 47

/-- The expression `p[:len(p)-len(Ext(p))] + ".webp"`. -/
def withWebpExt (isSep : Byte → Bool) (p : Path) : Path :=
  p.take (p.length - (Ext isSep p).length) ++ dotWebp

/-- The value of `strings.LastIndex(p, "|")`. -/
def lastIndexSep (p : Path) : Int :=
  match p.reverse.indexOf? 124 with
  | none => -1
  | some i => (p.length : Int) - 1 - i

/-- The struct `Config`, without the worker count, the encoder options and the queue. -/
structure Config where
  Src : Path
  Dest : Path
  Recursively : Bool
  ConvertMatch : Path → Bool → Bool
  CopyMatch : Option (Path → Bool → Bool)
  ArchiveMatch : Path → Bool → Bool
  CopyFileMeta : Bool
  CopyImageMeta : Bool
  CheckImage : Bool
  LogPath : Path

/-- The two implementations of `coder.Codec`. -/
inductive Codec
  | WebP (CopyMeta CheckImage : Bool)
  | Copy
  deriving DecidableEq, Repr

/-- The inputs `iox.NewFileInput` and `iox.NewZipInput` build. -/
inductive Input
  | file (path : Path)
  | zip (path : Path) (entrySepIdx : Int)
  deriving DecidableEq, Repr

/-- The outputs `iox.NewFileOutput` and `iox.NewZipOutput` build; `zw` names the archive
whose shared writer `SetZipWriter` attached. -/
inductive Output
  | file (path : Path)
  | zip (path : Path) (entrySepIdx : Int) (zw : Option Path)
  deriving DecidableEq, Repr

/-- The struct `Job` as the scanner fills it. -/
structure Job where
  In : Input
  Out : Output
  Codec : Codec
  CopyMeta : Bool
  deriving DecidableEq, Repr

/-- An entry of `reader.File`: its header and whether `entry.Mode().IsDir()`. -/
structure ZipEntry where
  header : FileHeader
  isDir : Bool
  deriving DecidableEq, Repr

/-- The file system and path library as the scanner sees them: whether `os.MkdirAll`
and `os.Create` succeed, what `zip.OpenReader` finds, whether `CreateHeader`
succeeds for a directory name, and the functions `filepath.Rel`, `filepath.Join` and
`os.IsPathSeparator`. -/
structure Env where
  mkdirAll : Path → Bool
  openZip : Path → Option (List ZipEntry)
  create : Path → Bool
  createHeader : Path → Bool
  rel : Path → Path → Path
  join : Path → Path → Path
  isPathSeparator : Byte → Bool

/-- The struct `scannerResult`, with the jobs sent to the queue, in order, and the
shared writers created (archive path and reference count). -/
structure ScanState where
  pp : List (Path × Path)
  jobCount : Nat
  errCount : Nat
  sent : List Job
  writers : List (Path × Int)
  deriving DecidableEq, Repr

/-- The method `handleError`. -/
def ScanState.handleError (st : ScanState) : ScanState :=
  { st with errCount := st.errCount + 1 }

/-- The method `sendJob`. -/
def ScanState.sendJob (st : ScanState) (job : Job) : ScanState :=
  { st with jobCount := st.jobCount + 1, sent := st.sent ++ [job] }

/-- The loop of `walkZip` over `reader.File`: the jobs collected and the names of the
directory headers; `none` is a panic inside `DetectZipUTF8Path`. -/
def walkZipEntries (conf : Config) (pathname outPathname : Path) :
    List ZipEntry → List Job → List Path → Option (List Job × List Path)
  | [], jobs, dirs => some (jobs, dirs)
  | entry :: rest, jobs, dirs =>
    match DetectZipUTF8Path entry.header with
    | none => none
    | some (outName, _) =>
      if entry.isDir then walkZipEntries conf pathname outPathname rest jobs (dirs ++ [outName])
      else
        let inPath := pathname ++ NestSeparator ++ entry.header.Name
        if conf.ConvertMatch entry.header.Name false then
          let outName := withWebpExt isSlash outName
          let outPath := outPathname ++ NestSeparator ++ outName
          let job : Job :=
            { In := .zip inPath (lastIndexSep inPath),
              Out := .zip outPath (lastIndexSep outPath) none,
              Codec := .WebP conf.CopyImageMeta conf.CheckImage,
              CopyMeta := conf.CopyFileMeta }
          walkZipEntries conf pathname outPathname rest (jobs ++ [job]) dirs
        else if (match conf.CopyMatch with
                 | some m => m entry.header.Name false
                 | none => false) then
          let outPath := outPathname ++ NestSeparator ++ outName
          let job : Job :=
            { In := .zip inPath (lastIndexSep inPath),
              Out := .zip outPath (lastIndexSep outPath) none,
              Codec := .Copy,
              CopyMeta := true }
          walkZipEntries conf pathname outPathname rest (jobs ++ [job]) dirs
        else walkZipEntries conf pathname outPathname rest jobs dirs

/-- The call `job.Out.(*iox.ZipOutput).SetZipWriter(zw)`. -/
def Job.setZipWriter (job : Job) (archive : Path) : Job :=
  match job.Out with
  | .zip p i _ => { job with Out := .zip p i (some archive) }
  | .file _ => job

/-- The method `walkZip`; `none` is a panic. -/
def walkZip (env : Env) (conf : Config) (st : ScanState) (pathname outPathname : Path) :
    Option ScanState :=
  match env.openZip pathname with
  | none => some st.handleError
  | some files =>
    match walkZipEntries conf pathname outPathname files [] [] with
    | none => none
    | some (jobs, dirs) =>
      if jobs.length = 0 then some st
      else if !env.create outPathname then some st.handleError
      else
        let st1 := { st with writers := st.writers ++ [(outPathname, wrapInt32 jobs.length)] }
        let st2 := dirs.foldl
          (fun s dir => if env.createHeader dir then s else s.handleError) st1
        let st3 := jobs.foldl (fun s job => s.sendJob (job.setZipWriter outPathname)) st2
        if conf.CopyFileMeta then some { st3 with pp := st3.pp ++ [(pathname, outPathname)] }
        else some st3

/-- What `walkDir` returns to `godirwalk`. -/
inductive WalkRet
  /-- The value `nil`. -/
  | nil
  /-- The value `godirwalk.SkipThis`. -/
  | skipThis
  /-- The call did not return: a panic. -/
  | panic
  deriving DecidableEq, Repr

/-- The method `walkDir` for the node `pathname`, a directory when `isDir`. -/
def walkDir (env : Env) (conf : Config) (st : ScanState) (pathname : Path) (isDir : Bool) :
    WalkRet × ScanState :=
  if conf.Src = pathname then
    if !env.mkdirAll conf.Dest then (.skipThis, st.handleError)
    else (.nil, st)
  else if conf.Dest = pathname ∨ conf.LogPath = pathname then (.skipThis, st)
  else
    let rel := env.rel conf.Src pathname
    let outPathname := env.join conf.Dest rel
    if isDir then
      if conf.Recursively then
        if !env.mkdirAll outPathname then (.skipThis, st.handleError)
        else if conf.CopyFileMeta then
          (.nil, { st with pp := st.pp ++ [(pathname, outPathname)] })
        else (.nil, st)
      else (.skipThis, st)
    else if conf.ArchiveMatch pathname true then
      if conf.Recursively then
        match walkZip env conf st pathname outPathname with
        | none => (.panic, st)
        | some st1 => (.nil, st1)
      else (.nil, st)
    else if conf.ConvertMatch pathname true then
      let outPathname := withWebpExt env.isPathSeparator outPathname
      (.nil, st.sendJob
        { In := .file pathname, Out := .file outPathname,
          Codec := .WebP conf.CopyImageMeta conf.CheckImage, CopyMeta := conf.CopyFileMeta })
    else if (match conf.CopyMatch with
             | some m => m pathname true
             | none => false) then
      (.nil, st.sendJob
        { In := .file pathname, Out := .file outPathname, Codec := .Copy, CopyMeta := true })
    else (.nil, st)

/-! ## Concrete streams and configurations used below -/

/-- The `IHDR` chunk of a 1x1 greyscale image. -/
def ihdrChunk : List Byte :=
  goodChunk [73, 72, 68, 82] [0, 0, 0, 1, 0, 0, 0, 1, 8, 0, 0, 0, 0]

/-- The `IEND` chunk. -/
def iendChunk : List Byte := goodChunk [73, 69, 78, 68] []

/-- The zlib stream of the three bytes `"icc"`. -/
def zIcc : List Byte := [120, 156, 203, 76, 78, 6, 0, 2, 103, 1, 48]

/-- The bytes `"Exif\0\0II"`. -/
def exifData : List Byte := [69, 120, 105, 102, 0, 0, 73, 73]

/-- An `iTXt` chunk with keyword `XML:com.adobe.xmp`, compression flag 0, method 0,
empty language tag and translated keyword, and the given text. -/
def xmpChunk (text : List Byte) : List Byte :=
  goodChunk fourccITXT (xmpKeyword ++ [0, 0, 0, 0, 0] ++ text)

/-- A PNG whose `eXIf` chunk stores the checksum 0 instead of the right one. -/
def badCrcStream : List Byte :=
  pngMagic ++ ihdrChunk ++ encodeChunk fourccEXIF exifData 0 ++ iendChunk

/-- A PNG whose `iCCP` chunk has a profile name of exactly 79 bytes. -/
def longNameStream : List Byte :=
  pngMagic ++ ihdrChunk ++ goodChunk fourccICCP (List.replicate 79 65 ++ [0, 0] ++ zIcc)
    ++ iendChunk

/-- A PNG with one uncompressed XMP `iTXt` chunk whose text is `<x/>`. -/
def xmpStream : List Byte :=
  pngMagic ++ ihdrChunk ++ xmpChunk [60, 120, 47, 62] ++ iendChunk

/-- A PNG with two XMP `iTXt` chunks, of text `<a/>` and then `<b/>`. -/
def twoXmpStream : List Byte :=
  pngMagic ++ ihdrChunk ++ xmpChunk [60, 97, 47, 62] ++ xmpChunk [60, 98, 47, 62] ++ iendChunk

/-- A PNG with a well-formed `iCCP` chunk: name `icc`, method 0, the stream `zIcc`. -/
def iccStream : List Byte :=
  pngMagic ++ ihdrChunk ++ goodChunk fourccICCP ([105, 99, 99, 0, 0] ++ zIcc) ++ iendChunk

/-- The stream `iccStream` with the first byte of the zlib stream changed from 120 to
121 and the stored checksum left as it was. -/
def iccFlippedStream : List Byte :=
  pngMagic ++ ihdrChunk
    ++ encodeChunk fourccICCP ([105, 99, 99, 0, 0] ++ (121 :: zIcc.tail))
        (crc32 (fourccICCP ++ ([105, 99, 99, 0, 0] ++ zIcc)))
    ++ iendChunk

/-- A PNG with one well-formed `eXIf` chunk. -/
def exifStream : List Byte :=
  pngMagic ++ ihdrChunk ++ goodChunk fourccEXIF exifData ++ iendChunk

/-- A PNG with an `iTXt` chunk whose keyword field starts with 80 bytes `A`. -/
def longKeywordStream : List Byte :=
  pngMagic ++ ihdrChunk
    ++ goodChunk fourccITXT (List.replicate 80 65 ++ [0, 0, 0, 0, 0] ++ [60, 120, 47, 62])
    ++ iendChunk

/-- A `body` over 100 in-memory bytes `A` with no zero byte among them. -/
def longKeywordBody : Body :=
  { mr := { inp := [], reaming := 0, tmp := [], crc := 0, iccp := [], exif := [], xmp := [] },
    mem := List.replicate 100 65, viaIn := false, limit := 100, buffered := [] }

/-- The signature followed by the header of an `IDAT` chunk whose length field is
`0xFFFFFFF4`, and four more bytes. -/
def wrapLengthStream : List Byte :=
  pngMagic ++ [255, 255, 255, 244] ++ [73, 68, 65, 84] ++ [0, 0, 0, 0]

/-- A decoder that fails on every input without taking a byte. -/
def noFlate : List Byte → Option (List Byte) × Nat := fun _ => (none, 0)

/-- A path matcher that accepts the paths whose extension is `ext`, as the matcher of
the single pattern `*` followed by `ext` does. -/
def matchExt (ext : Path) : Path → Bool → Bool :=
  fun p _ => Ext isSlash p == ext

/-- The string `".zip"`. -/
def dotZip : Path := [46, 122, 105, 112]

/-- The string `".png"`. -/
def dotPng : Path := [46, 112, 110, 103]

/-- The path `in`. -/
def dirIn : Path := [105, 110]

/-- The path `out`. -/
def dirOut : Path := [111, 117, 116]

/-- The path `in/x.zip`. -/
def inXZip : Path := [105, 110, 47, 120, 46, 122, 105, 112]

/-- An archive entry that is a file with the given name, flagged as UTF-8. -/
def fileEntry (name : Path) : ZipEntry :=
  { header := { Name := name, NonUTF8 := false, Extra := ⟨[], 0⟩ }, isDir := false }

/-- A file system on which every operation succeeds and every archive holds the two
entries `a.png` and `b.png`; paths are joined with `/` and a relative path is what
follows the base and one separator. -/
def easyEnv : Env :=
  { mkdirAll := fun _ => true
    openZip := fun _ => some [fileEntry [97, 46, 112, 110, 103], fileEntry [98, 46, 112, 110, 103]]
    create := fun _ => true
    createHeader := fun _ => true
    rel := fun base p => p.drop (base.length + 1)
    join := fun a b => a ++ [47] ++ b
    isPathSeparator := isSlash }

/-- A recursive run from `in` to `out` that converts `*.png` and opens `*.zip`. -/
def recursiveConf : Config :=
  { Src := dirIn, Dest := dirOut, Recursively := true
    ConvertMatch := matchExt dotPng, CopyMatch := none, ArchiveMatch := matchExt dotZip
    CopyFileMeta := false, CopyImageMeta := false, CheckImage := false
    LogPath := [108, 111, 103] }

/-- A flat run from `in` to `out` whose convert pattern `*` accepts every path and
whose archive pattern is `*.zip`. -/
def convertAllConf : Config :=
  { Src := dirIn, Dest := dirOut, Recursively := false
    ConvertMatch := fun _ _ => true, CopyMatch := none, ArchiveMatch := matchExt dotZip
    CopyFileMeta := false, CopyImageMeta := false, CheckImage := false
    LogPath := [108, 111, 103] }

/-- The scanner state before the walk. -/
def emptyScan : ScanState :=
  { pp := [], jobCount := 0, errCount := 0, sent := [], writers := [] }

/-- The job of the amended claim C8 for one entry of the archive `pathname`, written
to the archive `outPathname`: none for a directory entry; for a file entry whose
name matches the convert pattern the WebP job, or else, when a copy matcher is
present and matches, the Copy job; it reads `pathname|name` and writes
`outPathname|outName` through the shared writer of `outPathname`, where `outName`
is the name `DetectZipUTF8Path` gives, with the extension `.webp` for a WebP job. -/
def entryJob (conf : Config) (pathname outPathname : Path) (entry : ZipEntry) : Option Job :=
  if entry.isDir then none
  else
    match DetectZipUTF8Path entry.header with
    | none => none
    | some (outName, _) =>
      if conf.ConvertMatch entry.header.Name false then
        some { In := .zip (pathname ++ NestSeparator ++ entry.header.Name)
                 (lastIndexSep (pathname ++ NestSeparator ++ entry.header.Name)),
               Out := .zip (outPathname ++ NestSeparator ++ withWebpExt isSlash outName)
                 (lastIndexSep (outPathname ++ NestSeparator ++ withWebpExt isSlash outName))
                 (some outPathname),
               Codec := .WebP conf.CopyImageMeta conf.CheckImage,
               CopyMeta := conf.CopyFileMeta }
      else if (match conf.CopyMatch with
               | some m => m entry.header.Name false
               | none => false) then
        some { In := .zip (pathname ++ NestSeparator ++ entry.header.Name)
                 (lastIndexSep (pathname ++ NestSeparator ++ entry.header.Name)),
               Out := .zip (outPathname ++ NestSeparator ++ outName)
                 (lastIndexSep (outPathname ++ NestSeparator ++ outName)) (some outPathname),
               Codec := .Copy,
               CopyMeta := true }
      else none

/-- The jobs of the amended claim C8 for an archive: one for each entry that has one, in
the order of the entries. -/
def entryJobs (conf : Config) (pathname outPathname : Path) (files : List ZipEntry) : List Job :=
  files.filterMap (entryJob conf pathname outPathname)

/-- The errors that are not values a Go call returns: a panic, a call that never
returns, and the loop bound of the embedding. -/
def Err.isFault : Err → Bool
  | .panicBounds => true
  | .hang => true
  | .fuel => true
  | _ => false

/-- The bytes that passed the limit reader so far, counted against those still held
in memory: a quantity no read through `body` changes. -/
def Body.phi (b : Body) : Int :=
  (b.mr.tmp.length : Int) + (b.limit : Int) - (b.mem.length : Int)

/-- What reading from `body` or `chunk` may change of a `Body`, and what it keeps. -/
structure Body.Evolves (b b' : Body) : Prop where
  viaIn : b'.viaIn = b.viaIn
  reaming : b'.mr.reaming = b.mr.reaming
  iccp : b'.mr.iccp = b.mr.iccp
  exif : b'.mr.exif = b.mr.exif
  xmp : b'.mr.xmp = b.mr.xmp
  stream : b'.mr.tmp ++ b'.mr.inp = b.mr.tmp ++ b.mr.inp
  fixed : b.viaIn = false → b'.mr.tmp = b.mr.tmp ∧ b'.mr.inp = b.mr.inp
  phi : b'.phi = b.phi
  mem : ∃ k, b'.mem = b.mem.drop k
  held : b'.mem ≠ [] → b'.mr.tmp = b.mr.tmp

/-- A chunk of a PNG stream: four-character code, data, and the four bytes stored as
its checksum. -/
structure Chunk where
  fourcc : List Byte
  data : List Byte
  crc : List Byte
  deriving DecidableEq, Repr

/-- The bytes of a chunk in the stream. -/
def Chunk.encode (c : Chunk) : List Byte :=
  putBe32 c.data.length ++ c.fourcc ++ c.data ++ c.crc

/-- The code and the stored checksum have four bytes and the length fits the
arithmetic of `parseChunk`: `dataLen + 8 + 4` does not wrap around. -/
def Chunk.wellFormed (c : Chunk) : Prop :=
  c.fourcc.length = 4 ∧ c.crc.length = 4 ∧ c.data.length + 12 < 4294967296

instance (c : Chunk) : Decidable c.wellFormed :=
  inferInstanceAs (Decidable (c.fourcc.length = 4 ∧ c.crc.length = 4 ∧
    c.data.length + 12 < 4294967296))

/-- The bytes of a sequence of chunks. -/
def encodeChunks : List Chunk → List Byte
  | [] => []
  | c :: cs => c.encode ++ encodeChunks cs

/-- The code is one of the three `parseChunk` looks for. -/
def isMetaCode (fourcc : List Byte) : Bool :=
  fourcc == fourccICCP || fourcc == fourccEXIF || fourcc == fourccITXT

/-- The kind of chunk a four-character code stands for in `parseChunk`. -/
def codeKind (fourcc : List Byte) : Option Kind :=
  if fourcc = fourccICCP then some .iCCP
  else if fourcc = fourccEXIF then some .eXIf
  else if fourcc = fourccITXT then some .iTXt
  else none

/-- A reader `body` whose remaining bytes are the data of the chunk, held in memory. -/
def Chunk.body (c : Chunk) : Body :=
  { mr := { inp := [], reaming := 0, tmp := [], crc := 0, iccp := [], exif := [], xmp := [] },
    mem := c.data, viaIn := false, limit := c.data.length, buffered := [] }

/-- An `iCCP`, `eXIf` or `iTXt` chunk that `parseChunk` accepts: the stored checksum is the
CRC-32 of code and data, and `bodyParse`, given the data, returns a value and has read
the data to the last byte. -/
def Chunk.parses (flate : List Byte → Option (List Byte) × Nat) (c : Chunk) : Bool :=
  match codeKind c.fourcc with
  | none => false
  | some k =>
    be32 c.crc == crc32 (c.fourcc ++ c.data) && (bodyParse flate k c.body).1.isOk &&
      (bodyParse flate k c.body).2.avail.isEmpty

/-- The offsets at which the headers of the `iCCP`, `eXIf` and `iTXt` chunks start, for
chunks laid out from offset `off`. -/
def metaHeaderStarts : Nat → List Chunk → List Nat
  | _, [] => []
  | off, c :: cs =>
    (if isMetaCode c.fourcc then [off] else []) ++ metaHeaderStarts (off + c.encode.length) cs

/-- The stream offsets at which the buffers of the successive `Read` calls end when
each call fills its buffer, the first one starting at `pos`. -/
def readEnds : Nat → List Nat → List Nat
  | _, [] => []
  | pos, n :: sizes => (pos + n) :: readEnds (pos + n) sizes

/-- No buffer ends strictly inside the eight header bytes of an `iCCP`, `eXIf` or `iTXt`
chunk. -/
def headersUnsplit (cs : List Chunk) (sizes : List Nat) : Prop :=
  ∀ s ∈ metaHeaderStarts 8 cs, ∀ e ∈ readEnds 0 sizes, ¬ (s < e ∧ e < s + 8)

instance (cs : List Chunk) (sizes : List Nat) : Decidable (headersUnsplit cs sizes) :=
  inferInstanceAs (Decidable (∀ s ∈ metaHeaderStarts 8 cs, ∀ e ∈ readEnds 0 sizes,
    ¬ (s < e ∧ e < s + 8)))

/-- What `parseChunk` guarantees when it starts at a chunk boundary of a well-formed
chunk sequence `cs` with `mr.reaming` bytes of it in `read`: no panic or endless
loop; the byte stream `tmp ++ in` is kept; on success the new `reaming` is the
distance from the end of `read` to a later chunk boundary and `tmp` holds no more
than that; and nothing fails when every `iCCP`, `eXIf` and `iTXt` chunk parses. -/
def LoopPost (flate : List Byte → Option (List Byte) × Nat) (cs : List Chunk) (mr : MetaReader)
    (r : Option Err × MetaReader) : Prop :=
  (∀ e, r.1 = some e → e.isFault = false) ∧
  r.2.tmp ++ r.2.inp = mr.tmp ++ mr.inp ∧
  (r.1 = none → 0 ≤ r.2.reaming ∧ (r.2.tmp.length : Int) ≤ r.2.reaming ∧
    ∃ pre post, cs = pre ++ post ∧
      r.2.reaming + mr.reaming = ((encodeChunks pre).length : Int)) ∧
  ((∀ c ∈ cs, isMetaCode c.fourcc = true → c.parses flate = true) → r.1 = none)

/-- The stream made of the signature and a sequence of chunks. -/
def pngStream (cs : List Chunk) : List Byte :=
  pngMagic ++ encodeChunks cs

/-- The reader is in step with the stream after `d` bytes were handed out: `tmp`
and `in` hold the rest of the stream, `tmp` ends before the next chunk boundary the
reader counts down to, and that boundary is one of the stream. -/
def Synced (cs : List Chunk) (d : Nat) (mr : MetaReader) : Prop :=
  mr.tmp ++ mr.inp = (pngStream cs).drop d ∧ 0 ≤ mr.reaming ∧
  (mr.tmp.length : Int) ≤ mr.reaming ∧
  ∃ pre post, cs = pre ++ post ∧
    (d : Int) + mr.reaming = 8 + ((encodeChunks pre).length : Int)

/-- A small PNG as a chunk list: `IHDR`, an `eXIf` chunk with the right checksum, `IEND`. -/
def smallPng : List Chunk :=
  [⟨[73, 72, 68, 82], [0, 0, 0, 1, 0, 0, 0, 1, 8, 0, 0, 0, 0],
      putBe32 (crc32 ([73, 72, 68, 82] ++ [0, 0, 0, 1, 0, 0, 0, 1, 8, 0, 0, 0, 0]))⟩,
   ⟨fourccEXIF, exifData, putBe32 (crc32 (fourccEXIF ++ exifData))⟩,
   ⟨[73, 69, 78, 68], [], putBe32 (crc32 [73, 69, 78, 68])⟩]

/-- A small PNG as a chunk list: `IHDR`, an `iCCP` chunk with the name `icc`, method 0, the
stream `zIcc` and the right checksum, `IEND`. -/
def iccPng : List Chunk :=
  [⟨[73, 72, 68, 82], [0, 0, 0, 1, 0, 0, 0, 1, 8, 0, 0, 0, 0],
      putBe32 (crc32 ([73, 72, 68, 82] ++ [0, 0, 0, 1, 0, 0, 0, 1, 8, 0, 0, 0, 0]))⟩,
   ⟨fourccICCP, [105, 99, 99, 0, 0] ++ zIcc,
      putBe32 (crc32 (fourccICCP ++ ([105, 99, 99, 0, 0] ++ zIcc)))⟩,
   ⟨[73, 69, 78, 68], [], putBe32 (crc32 [73, 69, 78, 68])⟩]

/-- A decoder that knows one stream: given the eleven bytes of `zIcc` it answers the
three bytes `icc` they inflate to and takes all eleven; it fails on any other input
without taking a byte. -/
def tableFlate : List Byte → Option (List Byte) × Nat :=
  fun bs => if bs = zIcc then (some [105, 99, 99], 11) else (none, 0)

/-- What `chunk` can still deliver: the rest of `mem`, then `in` when `viaIn`. -/
def Body.under (b : Body) : List Byte :=
  b.mem ++ (if b.viaIn then b.mr.inp else [])

/-- The limit reader and the checksum keep track of a chunk: of the bytes `F` that the
limit lets through, those already read are summed in `crc` and the others are
still to come; after them `chunk` continues with `U`. -/
def Body.Tracks (F U : List Byte) (b : Body) : Prop :=
  b.limit ≤ b.under.length ∧ b.under.drop b.limit = U ∧
    ∃ pulled, F = pulled ++ b.under.take b.limit ∧ b.mr.crc = crcWrite 0 pulled

/-- Two readers `body` that keep track of their chunks and can still deliver the same
bytes. -/
def Body.Sim (F U F' U' : List Byte) (b b' : Body) : Prop :=
  b.Tracks F U ∧ b'.Tracks F' U' ∧ b.avail = b'.avail

/-- No tag is stored yet and the chunk boundary the reader counts down to lies among
the chunks `pre`. -/
def Ahead (pre : List Chunk) (d : Nat) (mr : MetaReader) : Prop :=
  mr.iccp = [] ∧ mr.exif = [] ∧ mr.xmp = [] ∧
  ∃ p1 p2, pre = p1 ++ p2 ∧ (d : Int) + mr.reaming = 8 + ((encodeChunks p1).length : Int)

/-- The `eXIf` chunk of `smallPng` with the second data byte changed from 120 to 121 and
the stored checksum left as it was. -/
def flippedExif : Chunk :=
  ⟨fourccEXIF, [69, 121, 105, 102, 0, 0, 73, 73], putBe32 (crc32 (fourccEXIF ++ exifData))⟩

/-! ## Endpoints (`internal/iox/file.go`, `internal/iox/zip.go`) -/

/-- What a field of type `*os.File` (or `*zip.ReadCloser`, which wraps one) holds: `nil`,
an open file, or a file on which `Close` was called. -/
inductive FileHandle
  | nil
  | opened
  | closed
  deriving DecidableEq, Repr

/-- The method `(*os.File).Close`: whether it returns an error, and the file afterwards.
A `nil` receiver gives `os.ErrInvalid`, a closed file `os.ErrClosed`; `fails` is the
outcome of the system call on an open file, which is closed either way. -/
def FileHandle.Close (f : FileHandle) (fails : Bool) : Bool × FileHandle :=
  match f with
  | .nil => (true, .nil)
  | .opened => (fails, .closed)
  | .closed => (true, .closed)

/-- The part of `os.FileInfo` the outputs use. -/
structure FileInfo where
  mode : Nat
  modTime : Nat
  deriving DecidableEq, Repr

/-- The struct `FileInput`. -/
structure FileInput where
  File : FileHandle
  path : Path
  info : Option FileInfo
  deriving DecidableEq, Repr

/-- The method `Close` of `FileInput`, promoted from the embedded `*os.File`. -/
def FileInput.Close (fi : FileInput) (fails : Bool) : Bool × FileInput :=
  let r := fi.File.Close fails
  (r.1, { fi with File := r.2 })

/-- The struct `ZipInput`; `entry` is the name of the entry found by `Open`. -/
structure ZipInput where
  zip : FileHandle
  entry : Option Path
  path : Path
  entrySepIdx : Int
  deriving DecidableEq, Repr

/-- The method `ZipInput.Close`. -/
def ZipInput.Close (zi : ZipInput) (fails : Bool) : Bool × ZipInput :=
  if zi.zip ≠ .nil then
    let r := zi.zip.Close fails
    if r.1 then (true, { zi with zip := r.2 })
    else (false, { zi with zip := .nil, entry := none })
  else (false, { zi with zip := .nil, entry := none })

/-- The struct `FileOutput`. -/
structure FileOutput where
  File : FileHandle
  path : Path
  info : Option FileInfo
  deriving DecidableEq, Repr

/-- The calls `FileOutput.Close` makes on the file system after closing the file. -/
inductive FsCall
  | chmod (p : Path) (mode : Nat)
  | chtimes (p : Path) (modTime : Nat)
  deriving DecidableEq, Repr

/-- The method `FileOutput.Close`: whether it returns an error, the output afterwards
and the calls made; the three flags are the outcomes of `File.Close`, `os.Chmod`
and `os.Chtimes`. -/
def FileOutput.Close (fo : FileOutput) (closeFails chmodFails chtimesFails : Bool) :
    Bool × FileOutput × List FsCall :=
  let step1 : Option FileOutput :=
    if fo.File ≠ .nil then
      let r := fo.File.Close closeFails
      if r.1 then none else some { fo with File := .nil }
    else some fo
  match step1 with
  | none => (true, { fo with File := (fo.File.Close closeFails).2 }, [])
  | some fo1 =>
    match fo1.info with
    | none => (false, fo1, [])
    | some i =>
      if chmodFails then (true, fo1, [.chmod fo1.path i.mode])
      else if chtimesFails then
        (true, fo1, [.chmod fo1.path i.mode, .chtimes fo1.path i.modTime])
      else
        (false, { fo1 with info := none }, [.chmod fo1.path i.mode, .chtimes fo1.path i.modTime])

/-- The struct `ZipOutput`: `fh` is the name of the header `Open` made (`none` for a nil
`fh`), `buf` the content of the buffer behind `Writer`. -/
structure ZipOutput where
  fh : Option Path
  buf : List Byte
  path : Path
  entrySepIdx : Int
  deriving DecidableEq, Repr

/-- The shared archive behind a `ZipOutput`: the reference-counted writer, the
entries written so far (name and content), and the address of the `*FileHeader` of
the last entry of the writer's directory (`w.dir[len(w.dir)-1].FileHeader`), `none`
while the directory is empty. -/
structure Archive where
  zw : SafeZipWriter
  entries : List (Path × List Byte)
  last : Option Nat
  deriving DecidableEq, Repr

/-- The method `ZipOutput.Close` on an output whose shared writer is set: whether it
returns an error, the output and the archive afterwards. `hdr` is the address of the
header `zo.fh` points to (`Open` allocates one at each call; no other method
assigns `zo.fh`). `CreateHeader` of `archive/zip` returns the error
`invalid duplicate FileHeader` when the last entry of the directory has that
very header, and otherwise appends the header to the directory; `createFails` is
the outcome of its writes in the other case. The remaining flags are the
outcomes of `io.Copy` and of the two `Close` calls inside `UnRef`. `io.Copy` drains
the buffer; how much of it reaches the archive when the copy fails is not
modelled (the entry is recorded with the whole content). -/
def ZipOutput.Close (zo : ZipOutput) (ar : Archive) (hdr : Nat)
    (createFails copyFails writerFails fileFails : Bool) : Bool × ZipOutput × Archive :=
  let w : Bool × ZipOutput × Archive :=
    match zo.fh with
    | some name =>
      if ar.last = some hdr then (true, zo, ar)
      else if createFails then (true, zo, ar)
      else (copyFails, { zo with buf := [] },
        { ar with entries := ar.entries ++ [(name, zo.buf)], last := some hdr })
    | none => (false, zo, ar)
  let r := w.2.2.zw.UnRef writerFails fileFails
  if r.1 then (true, w.2.1, { w.2.2 with zw := r.2 })
  else (w.1, w.2.1, { w.2.2 with zw := r.2 })

/-- An output for the entry `a` of the archive `z`, opened, with three bytes written. -/
def entryOut : ZipOutput :=
  ⟨some [97], [1, 2, 3], [122, 124, 97], 1⟩

/-- A shared archive that two jobs hold, with nothing written yet. -/
def sharedByTwo : Archive :=
  ⟨NewZipWriter 2, [], none⟩

/-! ## Extra-field records (for `DetectZipUTF8Path`) -/

/-- A record of a ZIP extra field: its tag and its data. -/
structure ExtraRecord where
  tag : Nat
  data : List Byte
  deriving DecidableEq, Repr

/-- The bytes of a record: tag and data size as little-endian 16-bit values, then the
data. -/
def ExtraRecord.encode (r : ExtraRecord) : List Byte :=
  [r.tag % 256, r.tag / 256 % 256, r.data.length % 256, r.data.length / 256 % 256] ++ r.data

/-- Tag and size fit their 16-bit fields, and an Info-ZIP Unicode Path record holds at
least the version byte and the four bytes of `NameCRC32`. -/
def ExtraRecord.wellFormed (r : ExtraRecord) : Prop :=
  r.tag < 65536 ∧ r.data.length < 65536 ∧ (r.tag = 0x7075 → 5 ≤ r.data.length)

instance (r : ExtraRecord) : Decidable r.wellFormed :=
  inferInstanceAs (Decidable (r.tag < 65536 ∧ r.data.length < 65536 ∧
    (r.tag = 0x7075 → 5 ≤ r.data.length)))

/-- The bytes of an extra field made of the given records. -/
def encodeRecords : List ExtraRecord → List Byte
  | [] => []
  | r :: rs => r.encode ++ encodeRecords rs

/-- The record is an Info-ZIP Unicode Path record whose `NameCRC32` (bytes 1 to 4 of the
data, little-endian) is the CRC-32 of `name`. -/
def ExtraRecord.isUnicodePathFor (name : List Byte) (r : ExtraRecord) : Bool :=
  r.tag == 0x7075 && le ((r.data.drop 1).take 4) == crc32 name

/-- The result the claim describes for a header with the given raw name, flag and
records. -/
def detectByRecords (name : List Byte) (nonUTF8 : Bool) (rs : List ExtraRecord) :
    List Byte × Bool :=
  if !nonUTF8 then (name, false)
  else
    match rs.find? (ExtraRecord.isUnicodePathFor name) with
    | some r => (r.data.drop 5, false)
    | none => (name, true)

/-- A header for the raw name `[0xC4]` with a Unix record, a Unicode Path record with a
wrong checksum and one with the right checksum. -/
def upRecords : List ExtraRecord :=
  [⟨0x7875, [1, 4, 0, 0, 0, 0]⟩, ⟨0x7075, [1, 0, 0, 0, 0, 120]⟩,
   ⟨0x7075, 1 :: (putBe32 (crc32 [196])).reverse ++ [195, 132]⟩]

/-! ## Nested ZIP paths (`internal/iox/zip.go`) -/

/-- The constructor `NewZipInput`; `none` is the error `invalid zip path`. -/
def NewZipInput (path : Path) : Option ZipInput :=
  if lastIndexSep path = -1 then none
  else some { zip := .nil, entry := none, path := path, entrySepIdx := lastIndexSep path }

/-- The constructor `NewZipOutput`; `none` is the error `invalid zip path`. -/
def NewZipOutput (path : Path) : Option ZipOutput :=
  if lastIndexSep path = -1 then none
  else some { fh := none, buf := [], path := path, entrySepIdx := lastIndexSep path }

/-- The expression `zi.path[:zi.entrySepIdx]`, the archive `Open` opens. -/
def ZipInput.archivePath (zi : ZipInput) : Path :=
  zi.path.take zi.entrySepIdx.toNat

/-- The expression `zi.path[zi.entrySepIdx+1:]`, the name `Open` looks for. -/
def ZipInput.entryName (zi : ZipInput) : Path :=
  zi.path.drop (zi.entrySepIdx + 1).toNat

/-- The method `ZipInput.Open`: whether it returns an error, and the input afterwards.
`entryOpenFails` is the outcome of `entry.Open()` when the entry is found. -/
def ZipInput.Open (env : Env) (zi : ZipInput) (entryOpenFails : Bool) : Bool × ZipInput :=
  match env.openZip zi.archivePath with
  | none => (true, { zi with zip := .nil })
  | some files =>
    let zi1 := { zi with zip := .opened }
    match files.find? (fun e => zi.entryName == e.header.Name) with
    | some e => (entryOpenFails, { zi1 with entry := some e.header.Name })
    | none => if zi1.entry = none then (true, zi1) else (false, zi1)

/-- The method `ZipOutput.Open`, which returns no error: a fresh buffer and a header
named `zo.path[zo.entrySepIdx+1:]` (its mode and time, taken from `info` or the
clock, are not part of the model). -/
def ZipOutput.Open (zo : ZipOutput) (_info : Option FileInfo) : ZipOutput :=
  { zo with buf := [], fh := some (zo.path.drop (zo.entrySepIdx + 1).toNat) }

/-- An environment in which the archive `z` holds the entries `x` and `y`, and the
archive `z|x` does not exist. -/
def twoEntryEnv : Env :=
  { easyEnv with
    openZip := fun p =>
      if p = [122] then some [⟨⟨[120], false, ⟨[], 0⟩⟩, false⟩, ⟨⟨[121], false, ⟨[], 0⟩⟩, false⟩]
      else none }

/-! ## Running a job (`internal/component/transfer.go`) -/

/-- An error value. -/
abbrev ErrorVal := Nat

/-- The calls `Job.do` makes on the endpoints and the codec; `outOpen` records whether
the `info` it passes is non-nil. -/
inductive Op
  | inOpen
  | inInfo
  | outOpen (withInfo : Bool)
  | convert
  | inClose
  | outClose
  deriving DecidableEq, Repr

/-- What each call returns if `Job.do` makes it: the error of `in.Open`, `in.Info`,
`out.Open`, the error and the warnings of `Codec.Convert`, the error of `in.Close` and
of `out.Close` (`none` for `nil`). -/
structure Outcomes where
  inOpen : Option ErrorVal
  info : Option ErrorVal
  outOpen : Option ErrorVal
  codec : Option ErrorVal
  codecWarnings : List ErrorVal
  inClose : Option ErrorVal
  outClose : Option ErrorVal
  deriving DecidableEq, Repr

/-- A job after `do`: the calls made, in order, and the fields `Err` and `Warnings`. -/
structure JobRun where
  ops : List Op
  Err : Option ErrorVal
  Warnings : List ErrorVal
  deriving DecidableEq, Repr

/-- The deferred function of `Job.do`: close the input, then the output; an error of
`Close` is stored only when `job.Err` is nil. -/
def closeBoth (o : Outcomes) (r : JobRun) : JobRun :=
  let err1 := match o.inClose with
    | some e => if r.Err = none then some e else r.Err
    | none => r.Err
  let err2 := match o.outClose with
    | some e => if err1 = none then some e else err1
    | none => err1
  { ops := r.ops ++ [.inClose, .outClose], Err := err2, Warnings := r.Warnings }

/-- The method `Job.do` for a job whose `Err` is nil and whose `Warnings` are empty, as
the scanner makes it. -/
def Job.do (job : Job) (o : Outcomes) : JobRun :=
  match o.inOpen with
  | some e => closeBoth o { ops := [.inOpen], Err := some e, Warnings := [] }
  | none =>
    let r1 : JobRun × Bool :=
      if job.CopyMeta then
        match o.info with
        | some e => ({ ops := [.inOpen, .inInfo], Err := none, Warnings := [e] }, false)
        | none => ({ ops := [.inOpen, .inInfo], Err := none, Warnings := [] }, true)
      else ({ ops := [.inOpen], Err := none, Warnings := [] }, false)
    match o.outOpen with
    | some e => closeBoth o { r1.1 with ops := r1.1.ops ++ [.outOpen r1.2], Err := some e }
    | none =>
      closeBoth o
        { ops := r1.1.ops ++ [.outOpen r1.2, .convert], Err := o.codec,
          Warnings := r1.1.Warnings ++ o.codecWarnings }

/-- The first of the given results that is an error. -/
def firstError : List (Option ErrorVal) → Option ErrorVal
  | [] => none
  | some e :: _ => some e
  | none :: rest => firstError rest

/-- A job that copies a file to a file, with file metadata. -/
def copyJob : Job :=
  { In := .file [97], Out := .file [98], Codec := .Copy, CopyMeta := true }

/-! ## The monitor (`internal/component/monitor.go`) -/

/-- The struct `counter`. -/
structure Counter where
  v : Nat
  t : Nat
  deriving DecidableEq, Repr

/-- The counters of the struct `Monitor`. -/
structure Monitor where
  Convert : Counter
  Copy : Counter
  Errs : Nat
  Warnings : Nat
  jobCount : Counter
  scannerErr : Nat
  deriving DecidableEq, Repr

/-- The monitor `NewMonitor` returns: every counter is zero. -/
def NewMonitor : Monitor :=
  ⟨⟨0, 0⟩, ⟨0, 0⟩, 0, 0, ⟨0, 0⟩, 0⟩

/-- The fields of `scannerResult` the monitor reads. -/
structure ScannerResult where
  jobCount : Nat
  errCount : Nat
  deriving DecidableEq, Repr

/-- What the monitor reads of the job in an event: its codec, `Err` and `Warnings`. -/
structure JobReport where
  Codec : Codec
  Err : Option ErrorVal
  Warnings : List ErrorVal
  deriving DecidableEq, Repr

/-- A message of one of the five topics the monitor subscribes to. The data of
`scanner.done` is `none` when it is not a `*scannerResult`. -/
inductive Msg
  | scannerNewJob (job : JobReport)
  | scannerError
  | scannerDone (sc : Option ScannerResult)
  | transferJobDone (job : JobReport)
  | transferDone
  deriving DecidableEq, Repr

/-- The method `precessEvent`, without the log and console output. -/
def Monitor.precessEvent (mo : Monitor) : Msg → Monitor
  | .scannerNewJob job =>
    let mo1 := match job.Codec with
      | .Copy => { mo with Copy := { mo.Copy with t := mo.Copy.t + 1 } }
      | .WebP _ _ => { mo with Convert := { mo.Convert with t := mo.Convert.t + 1 } }
    { mo1 with jobCount := { mo1.jobCount with v := mo1.jobCount.v + 1 } }
  | .transferJobDone job =>
    let mo1 := { mo with jobCount := { mo.jobCount with t := mo.jobCount.t + 1 } }
    let mo2 :=
      if job.Err ≠ none then { mo1 with Errs := mo1.Errs + 1 }
      else match job.Codec with
        | .Copy => { mo1 with Copy := { mo1.Copy with v := mo1.Copy.v + 1 } }
        | .WebP _ _ => { mo1 with Convert := { mo1.Convert with v := mo1.Convert.v + 1 } }
    { mo2 with Warnings := mo2.Warnings + job.Warnings.length }
  | .scannerError => { mo with scannerErr := mo.scannerErr + 1, Errs := mo.Errs + 1 }
  | .scannerDone _ => mo
  | .transferDone => mo

/-- The variables of the loop in `Monitor.Start`. -/
structure LoopState where
  mo : Monitor
  transferDone : Bool
  sc : Option ScannerResult
  deriving DecidableEq, Repr

/-- The branch of the `select` statement one iteration takes, the context not being
cancelled: a message from the subscription, one of the two tickers, or `default`. -/
inductive Choice
  | msg (m : Msg)
  | tick1s
  | tick30s
  | default
  deriving DecidableEq, Repr

/-- The condition under which the `default` branch leaves the loop. -/
def LoopState.mayExit (s : LoopState) : Bool :=
  match s.sc with
  | none => false
  | some sc =>
    s.transferDone && s.mo.jobCount.v == sc.jobCount && s.mo.jobCount.t == sc.jobCount
      && s.mo.scannerErr == sc.errCount

/-- One iteration of the loop: the state afterwards and whether the loop was left. -/
def LoopState.step (s : LoopState) : Choice → LoopState × Bool
  | .msg .transferDone => ({ s with transferDone := true }, false)
  | .msg (.scannerDone sc) => ({ s with sc := sc }, false)
  | .msg m => ({ s with mo := s.mo.precessEvent m }, false)
  | .tick1s => (s, false)
  | .tick30s => (s, false)
  | .default => (s, s.mayExit)

/-- The loop under a sequence of choices: the state at which the loop was left or the
choices ran out, and whether it was left. -/
def LoopState.run (s : LoopState) : List Choice → LoopState × Bool
  | [] => (s, false)
  | c :: cs =>
    let r := s.step c
    if r.2 then r else r.1.run cs

/-- The state at the start of the loop. -/
def LoopState.init : LoopState :=
  ⟨NewMonitor, false, none⟩

/-- The four conditions of the claim: `transfer.done` was received, the scanner result
was received, and the counts of finished jobs and of scanner errors are those of
the scanner. -/
def LoopState.fourConditions (s : LoopState) : Prop :=
  s.transferDone = true ∧ ∃ sc, s.sc = some sc ∧ s.mo.jobCount.t = sc.jobCount ∧
    s.mo.scannerErr = sc.errCount

/-- A finished WebP job without error or warning. -/
def doneJob : JobReport :=
  ⟨.WebP false false, none, []⟩

/-! ## Image comparison (`pkg/imagex/compare.go`) -/

/-- The struct `image.Rectangle`. -/
structure Rectangle where
  minX : Int
  minY : Int
  maxX : Int
  maxY : Int
  deriving DecidableEq, Repr

/-- The method `Rectangle.Dx`. -/
def Rectangle.Dx (r : Rectangle) : Int := r.maxX - r.minX

/-- The method `Rectangle.Dy`. -/
def Rectangle.Dy (r : Rectangle) : Int := r.maxY - r.minY

/-- The test `Point{x, y}.In(r)`. -/
def Rectangle.has (r : Rectangle) (x y : Int) : Bool :=
  decide (r.minX ≤ x) && decide (x < r.maxX) && decide (r.minY ≤ y) && decide (y < r.maxY)

/-- The struct `color.NRGBA`: non-premultiplied 8-bit red, green, blue, alpha. -/
structure NRGBAColor where
  R : Byte
  G : Byte
  B : Byte
  A : Byte
  deriving DecidableEq, Repr

/-- The struct `image.NRGBA`. -/
structure NRGBA where
  Pix : List Byte
  Stride : Int
  Rect : Rectangle
  deriving DecidableEq, Repr

/-- The method `NRGBA.PixOffset`. -/
def NRGBA.PixOffset (p : NRGBA) (x y : Int) : Int :=
  (y - p.Rect.minY) * p.Stride + (x - p.Rect.minX) * 4

/-- The method `NRGBA.At`; `none` is an index out of range. -/
def NRGBA.At (p : NRGBA) (x y : Int) : Option NRGBAColor :=
  if !p.Rect.has x y then some ⟨0, 0, 0, 0⟩
  else
    let i := p.PixOffset x y
    if 0 ≤ i ∧ i.toNat + 4 ≤ p.Pix.length then
      some ⟨p.Pix.getD i.toNat 0, p.Pix.getD (i.toNat + 1) 0, p.Pix.getD (i.toNat + 2) 0,
        p.Pix.getD (i.toNat + 3) 0⟩
    else none

/-- The method `NRGBA.SubImage` for a rectangle `r` inside `p.Rect` that is not empty: the
pixel buffer from the first pixel of `r` on, with the stride of `p`. -/
def NRGBA.SubImage (p : NRGBA) (r : Rectangle) : NRGBA :=
  { Pix := p.Pix.drop (p.PixOffset r.minX r.minY).toNat, Stride := p.Stride, Rect := r }

/-- An `image.Image`: a `*image.NRGBA`, or a value of another type, given by its bounds and
by `color.NRGBAModel.Convert(img.At(x, y))` for every point. -/
inductive Image
  | nrgba (p : NRGBA)
  | other (bounds : Rectangle) (colorAt : Int → Int → NRGBAColor)

/-- The method `Bounds`. -/
def Image.Bounds : Image → Rectangle
  | .nrgba p => p.Rect
  | .other b _ => b

/-- The expression `model.Convert(img.At(x, y)).(color.NRGBA)`; `none` is a panic. -/
def Image.colorAt : Image → Int → Int → Option NRGBAColor
  | .nrgba p, x, y => p.At x y
  | .other _ f, x, y => some (f x y)

/-- The loop over `rgba1.Pix` in `IsImageEqual`: `none` is the index out of range when
`rgba2.Pix` is the shorter. -/
def comparePix : List Byte → List Byte → Option Bool
  | [], _ => some true
  | _ :: _, [] => none
  | a :: as, b :: bs => if a ≠ b then some false else comparePix as bs

/-- The inner loop of `IsImageEqual` over `x`, for the columns `xs` of the row `y`: `some
false` when a pixel differs, `some true` when the row is done. -/
def compareRow (img1 img2 : Image) (offX offY y : Int) : List Nat → Option Bool
  | [] => some true
  | x :: xs =>
    match img1.colorAt (offX + x) (offY + y), img2.colorAt (offX + x) (offY + y) with
    | some c1, some c2 => if c1 ≠ c2 then some false else compareRow img1 img2 offX offY y xs
    | _, _ => none

/-- The outer loop of `IsImageEqual` over the rows `ys`. -/
def compareRows (img1 img2 : Image) (offX offY : Int) (w : Nat) : List Nat → Option Bool
  | [] => some true
  | y :: ys =>
    match compareRow img1 img2 offX offY y (List.range w) with
    | some true => compareRows img1 img2 offX offY w ys
    | r => r

/-- The function `IsImageEqual`; `none` is a panic. -/
def IsImageEqual (img1 img2 : Image) : Option Bool :=
  if img1.Bounds ≠ img2.Bounds then some false
  else
    match img1, img2 with
    | .nrgba rgba1, .nrgba rgba2 => comparePix rgba1.Pix rgba2.Pix
    | _, _ =>
      let rect1 := img1.Bounds
      compareRows img1 img2 rect1.minX rect1.minY rect1.Dx.toNat (List.range rect1.Dy.toNat)

/-- An image of two pixels in a row, `(1,2,3,4)` and `(9,9,9,9)`. -/
def twoPixels : NRGBA :=
  ⟨[1, 2, 3, 4, 9, 9, 9, 9], 8, ⟨0, 0, 2, 1⟩⟩

/-- An image of the one pixel `(1,2,3,4)`. -/
def onePixel : NRGBA :=
  ⟨[1, 2, 3, 4], 4, ⟨0, 0, 1, 1⟩⟩

/-- An image of two pixels in a row, `(1,2,3,4)` and `(7,7,7,7)`. -/
def twoPixelsB : NRGBA :=
  ⟨[1, 2, 3, 4, 7, 7, 7, 7], 8, ⟨0, 0, 2, 1⟩⟩

/-! ## The WebP codec adapter (`internal/coder/webp.go`) -/

/-- Modelled from the spec: the four-character codes `webp.ICCP`, `webp.EXIF` and `webp.XMP`
of the WebP library, `ICCP`, `EXIF` and `XMP ` with its trailing space. -/
def webpICCP : List Byte := [73, 67, 67, 80]

/-- Modelled from the spec: the code `webp.EXIF`. -/
def webpEXIF : List Byte := [69, 88, 73, 70]

/-- Modelled from the spec: the code `webp.XMP`, with its trailing space. -/
def webpXMP : List Byte := [88, 77, 80, 32]

/-- The call `strings.TrimRight(s, " ")`. -/
def trimRightSpaces (s : List Byte) : List Byte :=
  (s.reverse.dropWhile (fun c => c == 32)).reverse

/-- An implementation of the interface `imagex.MetaChunks`: `Get` (`none` for `nil`) and
`Empty`. -/
structure MetaChunks where
  Get : List Byte → Option (List Byte)
  Empty : Bool

/-- The type `imagex.EmptyMetaChunks`. -/
def EmptyMetaChunks : MetaChunks :=
  { Get := fun _ => none, Empty := true }

/-- The functions `Convert` calls outside this file: `imagex.Decode` on the input (image
and metadata), `webp.EncodeSlice`, `webp.DecodeSlice`, `webp.SetMetadata`, and
`out.Write` (`none` for no error). -/
structure WebPLib where
  decode : List Byte → Except ErrorVal (Image × MetaChunks)
  encodeSlice : Image → Except ErrorVal (List Byte)
  decodeSlice : List Byte → Except ErrorVal Image
  setMetadata : List Byte → List Byte → List Byte → Except ErrorVal (List Byte)
  write : List Byte → Option ErrorVal

/-- The warnings `Convert` makes. -/
inductive Warning
  /-- Failure of `webp.DecodeSlice` in the lossless check. -/
  | decodeFailed (e : ErrorVal)
  /-- The decoded image differs from the source. -/
  | notEqual
  /-- Failure of `webp.SetMetadata` for the given code. -/
  | setFailed (cc : List Byte) (e : ErrorVal)
  deriving DecidableEq, Repr

/-- The error `Convert` returns, by the call that failed. -/
inductive ConvertError
  | decode (e : ErrorVal)
  | encode (e : ErrorVal)
  | write (e : ErrorVal)
  deriving DecidableEq, Repr

/-- What `Convert` returns, and the bytes it passed to `out.Write`, if it got there. -/
structure ConvertResult where
  err : Option ConvertError
  warnings : List Warning
  written : Option (List Byte)
  deriving DecidableEq, Repr

/-- The body of the loop over the three codes in `Convert`, on the buffer `webpData` and
the warnings so far. -/
def spliceStep (lib : WebPLib) (meta : MetaChunks) (st : List Byte × List Warning)
    (cc : List Byte) : List Byte × List Warning :=
  match meta.Get (trimRightSpaces (cc.take 4)) with
  | none => st
  | some chunk =>
    match lib.setMetadata st.1 cc chunk with
    | .error e => (st.1, st.2 ++ [.setFailed cc e])
    | .ok tmp => (tmp, st.2)

/-- The lossless check of `Convert`: the warnings it adds; `none` is a panic inside
`IsImageEqual`. -/
def losslessCheck (lib : WebPLib) (lossless checkImage : Bool) (img : Image)
    (webpData : List Byte) : Option (List Warning) :=
  if lossless && checkImage then
    match lib.decodeSlice webpData with
    | .error e => some [.decodeFailed e]
    | .ok webpImg =>
      match IsImageEqual img webpImg with
      | none => none
      | some true => some []
      | some false => some [.notEqual]
  else some []

/-- The method `WebP.Convert` for the options `Lossless`, `CopyMeta` and `CheckImage`, on
the content of `in`; `none` is a panic. -/
def WebPConvert (lib : WebPLib) (lossless copyMeta checkImage : Bool) (input : List Byte) :
    Option ConvertResult :=
  match lib.decode input with
  | .error e => some ⟨some (.decode e), [], none⟩
  | .ok (img, meta) =>
    match lib.encodeSlice img with
    | .error e => some ⟨some (.encode e), [], none⟩
    | .ok webpData =>
      match losslessCheck lib lossless checkImage img webpData with
      | none => none
      | some warnings =>
        let st : List Byte × List Warning :=
          if copyMeta && !meta.Empty then
            [webpICCP, webpEXIF, webpXMP].foldl (spliceStep lib meta) (webpData, warnings)
          else (webpData, warnings)
        match lib.write st.1 with
        | some e => some ⟨some (.write e), st.2, some st.1⟩
        | none => some ⟨none, st.2, some st.1⟩

/-- The buffer after one code, as the claim describes it: the chunk stored under `key`
is spliced in with `SetMetadata`; an absent chunk or a failing `SetMetadata` leaves the
buffer as it was. -/
def spliceTag (lib : WebPLib) (meta : MetaChunks) (buf : List Byte) (cc key : List Byte) :
    List Byte :=
  match meta.Get key with
  | none => buf
  | some chunk =>
    match lib.setMetadata buf cc chunk with
    | .ok b => b
    | .error _ => buf

/-- The bytes the claim describes: the encoder output folded through `SetMetadata` for
`ICCP`, `EXIF` and `XMP`, in that order, with the chunks stored under the keys `ICCP`,
`EXIF` and `XMP`. -/
def splicedByClaim (lib : WebPLib) (meta : MetaChunks) (encoded : List Byte) : List Byte :=
  spliceTag lib meta
    (spliceTag lib meta (spliceTag lib meta encoded webpICCP [73, 67, 67, 80])
      webpEXIF [69, 88, 73, 70])
    webpXMP [88, 77, 80]

/-- The warnings of the splice the claim describes, one for every failing `SetMetadata`. -/
def spliceWarning (lib : WebPLib) (meta : MetaChunks) (buf : List Byte) (cc key : List Byte) :
    List Warning :=
  match meta.Get key with
  | none => []
  | some chunk =>
    match lib.setMetadata buf cc chunk with
    | .ok _ => []
    | .error e => [.setFailed cc e]

/-- A library whose `SetMetadata` appends the chunk to the buffer and fails for `EXIF`, and
whose decoder finds an ICC profile and an EXIF chunk. -/
def appendLib : WebPLib :=
  { decode := fun _ =>
      .ok (.nrgba onePixel,
        { Get := fun k =>
            if k = [73, 67, 67, 80] then some [1]
            else if k = [69, 88, 73, 70] then some [2] else none,
          Empty := false })
    encodeSlice := fun _ => .ok [0]
    decodeSlice := fun _ => .ok (.nrgba onePixel)
    setMetadata := fun buf cc chunk => if cc = webpEXIF then .error 5 else .ok (buf ++ chunk)
    write := fun _ => none }

/-! ## Glob matching (`path.Match`) and the matcher (`internal/component/config.go`) -/

/-- The value `utf8.RuneError`. -/
def RuneError : Nat := 0xFFFD

/-- The part of `utf8.DecodeRuneInString` for a first byte `s0` that starts a sequence of
`sz` bytes whose second byte must lie between `lo` and `hi`. -/
def decodeMulti (s0 sz lo hi : Nat) (rest : List Byte) : Nat × Nat :=
  if rest.length + 1 < sz then (RuneError, 1)
  else
    match rest with
    | [] => (RuneError, 1)
    | s1 :: rest1 =>
      if s1 < lo ∨ hi < s1 then (RuneError, 1)
      else if sz ≤ 2 then ((s0 % 32) * 64 + s1 % 64, 2)
      else
        match rest1 with
        | [] => (RuneError, 1)
        | s2 :: rest2 =>
          if s2 < 0x80 ∨ 0xBF < s2 then (RuneError, 1)
          else if sz ≤ 3 then ((s0 % 16) * 4096 + (s1 % 64) * 64 + s2 % 64, 3)
          else
            match rest2 with
            | [] => (RuneError, 1)
            | s3 :: _ =>
              if s3 < 0x80 ∨ 0xBF < s3 then (RuneError, 1)
              else ((s0 % 8) * 262144 + (s1 % 64) * 4096 + (s2 % 64) * 64 + s3 % 64, 4)

/-- The function `utf8.DecodeRuneInString`: the rune and its width in bytes. -/
def decodeRune : List Byte → Nat × Nat
  | [] => (RuneError, 0)
  | s0 :: rest =>
    if s0 < 0x80 then (s0, 1)
    else if s0 < 0xC2 ∨ 0xF4 < s0 then (RuneError, 1)
    else
      decodeMulti s0 (if s0 < 0xE0 then 2 else if s0 < 0xF0 then 3 else 4)
        (if s0 = 0xE0 then 0xA0 else if s0 = 0xF0 then 0x90 else 0x80)
        (if s0 = 0xED then 0x9F else if s0 = 0xF4 then 0x8F else 0xBF) rest

/-- How `path.Match` and its helpers can fail: `path.ErrBadPattern`, or the bound on the
iterations of the model ran out (which the theorems below exclude). -/
inductive MatchErr
  | badPattern
  | fuel
  deriving DecidableEq, Repr

/-- The function `getEsc` of package `path`: the rune and the rest of the chunk. -/
def getEsc (chunk : List Byte) : Except MatchErr (Nat × List Byte) :=
  match chunk with
  | [] => .error .badPattern
  | c :: rest =>
    if c = 45 ∨ c = 93 then .error .badPattern
    else if c = 92 ∧ rest = [] then .error .badPattern
    else
      let chunk1 := if c = 92 then rest else chunk
      let rn := decodeRune chunk1
      let nchunk := chunk1.drop rn.2
      if rn.1 = RuneError ∧ rn.2 = 1 then .error .badPattern
      else if nchunk = [] then .error .badPattern
      else .ok (rn.1, nchunk)

/-- The loop of `matchChunk` that parses the ranges of a character class for the rune
`r`: whether a range held `r`, and the chunk after the closing bracket. -/
def classLoop : Nat → Nat → List Byte → Bool → Nat → Except MatchErr (Bool × List Byte)
  | 0, _, _, _, _ => .error .fuel
  | fuel + 1, r, chunk, found, nrange =>
    if chunk.head? = some 93 ∧ 0 < nrange then .ok (found, chunk.tail)
    else
      match getEsc chunk with
      | .error e => .error e
      | .ok (lo, chunk1) =>
        if chunk1.head? = some 45 then
          match getEsc chunk1.tail with
          | .error e => .error e
          | .ok (hi, chunk2) =>
            classLoop fuel r chunk2 (found || (decide (lo ≤ r) && decide (r ≤ hi))) (nrange + 1)
        else classLoop fuel r chunk1 (found || (decide (lo ≤ r) && decide (r ≤ lo))) (nrange + 1)

/-- The loop of `matchChunk`: the rest of `s` and whether the chunk matched. -/
def matchChunkLoop : Nat → List Byte → List Byte → Bool → Except MatchErr (List Byte × Bool)
  | 0, _, _, _ => .error .fuel
  | fuel + 1, chunk, s, failed =>
    match chunk with
    | [] => if failed then .ok ([], false) else .ok (s, true)
    | c :: rest =>
      let failed := failed || s.isEmpty
      if c = 91 then
        let r := if failed then 0 else (decodeRune s).1
        let s1 := if failed then s else s.drop (decodeRune s).2
        let negated := decide (rest.head? = some 94)
        let chunk1 := if negated then rest.tail else rest
        match classLoop fuel r chunk1 false 0 with
        | .error e => .error e
        | .ok (found, chunk2) =>
          matchChunkLoop fuel chunk2 s1 (failed || (found == negated))
      else if c = 63 then
        let failed1 := failed || decide (s.head? = some 47)
        let s1 := if failed then s else s.drop (decodeRune s).2
        matchChunkLoop fuel rest s1 failed1
      else if c = 92 ∧ rest = [] then .error .badPattern
      else
        let chunk1 := if c = 92 then rest else chunk
        let failed1 := failed || decide (chunk1.head? ≠ s.head?)
        let s1 := if failed then s else s.tail
        matchChunkLoop fuel chunk1.tail s1 failed1

/-- The function `matchChunk` of package `path`. -/
def matchChunk (chunk s : List Byte) : Except MatchErr (List Byte × Bool) :=
  matchChunkLoop (chunk.length + 1) chunk s false

/-- The scan loop of `scanChunk`: the length of the chunk, up to the first `*` outside a
character class. -/
def scanLen : List Byte → Bool → Nat
  | [], _ => 0
  | [c], inrange => if c = 42 ∧ !inrange then 0 else 1
  | c :: d :: rest, inrange =>
    if c = 92 then 2 + scanLen rest inrange
    else if c = 91 then 1 + scanLen (d :: rest) true
    else if c = 93 then 1 + scanLen (d :: rest) false
    else if c = 42 then (if !inrange then 0 else 1 + scanLen (d :: rest) inrange)
    else 1 + scanLen (d :: rest) inrange

/-- The function `scanChunk` of package `path`: whether stars lead, the chunk, the rest. -/
def scanChunk (pattern : List Byte) : Bool × List Byte × List Byte :=
  let p := pattern.dropWhile (fun c => c == 42)
  let star := decide (pattern.head? = some 42)
  let i := scanLen p false
  (star, p.take i, p.drop i)

/-- The loop of `Match` that tries the chunk after skipping `i + 1` bytes of the name, for
a chunk after stars: `some (some t)` is a match that leaves `t`, `some none` no
match. -/
def starSearch (chunk rest : List Byte) : List Byte → Except MatchErr (Option (List Byte))
  | [] => .ok none
  | c :: tail =>
    if c = 47 then .ok none
    else
      match matchChunk chunk tail with
      | .error e => .error e
      | .ok (t, true) => if rest = [] ∧ t ≠ [] then starSearch chunk rest tail else .ok (some t)
      | .ok (_, false) => starSearch chunk rest tail

/-- The last loop of `Match`: the rest of the pattern is checked for syntax errors before
`false` is returned. -/
def validateRest : Nat → List Byte → Except MatchErr Bool
  | 0, _ => .error .fuel
  | fuel + 1, pattern =>
    if pattern = [] then .ok false
    else
      let sc := scanChunk pattern
      match matchChunk sc.2.1 [] with
      | .error e => .error e
      | .ok _ => validateRest fuel sc.2.2

/-- The main loop of `path.Match`. -/
def matchLoop : Nat → List Byte → List Byte → Except MatchErr Bool
  | 0, _, _ => .error .fuel
  | fuel + 1, pattern, name =>
    if pattern = [] then .ok name.isEmpty
    else
      let sc := scanChunk pattern
      if sc.1 ∧ sc.2.1 = [] then .ok (!name.contains 47)
      else
        match matchChunk sc.2.1 name with
        | .error e => .error e
        | .ok (t, ok) =>
          if ok ∧ (t = [] ∨ sc.2.2 ≠ []) then matchLoop fuel sc.2.2 t
          else if sc.1 then
            match starSearch sc.2.1 sc.2.2 name with
            | .error e => .error e
            | .ok (some t1) => matchLoop fuel sc.2.2 t1
            | .ok none => validateRest (sc.2.2.length + 1) sc.2.2
          else validateRest (sc.2.2.length + 1) sc.2.2

/-- The function `path.Match`. -/
def pathMatch (pattern name : List Byte) : Except MatchErr Bool :=
  matchLoop (pattern.length + 1) pattern name

/-- The call `strings.Split(s, "|")`. -/
def splitBar : List Byte → List (List Byte)
  | [] => [[]]
  | c :: rest =>
    if c = 124 then [] :: splitBar rest
    else
      match splitBar rest with
      | h :: t => (c :: h) :: t
      | [] => [[c]]

/-- The first result of `path.Match` as the matcher reads it (`ok, _ = path.Match(...)`):
`false` when there is an error. -/
def matched (r : Except MatchErr Bool) : Bool :=
  match r with
  | .ok b => b
  | .error _ => false

/-- The string `"foobar"`. -/
def foobar : List Byte := [102, 111, 111, 98, 97, 114]

/-- The function `NewGlobMatcher`, for the separator test `os.IsPathSeparator` of the
platform. -/
def NewGlobMatcher (isPathSeparator : Byte → Bool) (pattern : List Byte) :
    Except MatchErr (Path → Bool → Bool) :=
  let patterns := splitBar pattern
  match patterns.find? (fun s => !(pathMatch s foobar).isOk) with
  | some s => .error (match pathMatch s foobar with
      | .error e => e
      | .ok _ => .badPattern)
  | none =>
    .ok (fun pathname depPlatform =>
      let name := if depPlatform then Ext isPathSeparator pathname else Ext isSlash pathname
      patterns.any (fun s => matched (pathMatch s name)))

/-- What the matcher built from `pattern` returns for a path; `none` when `NewGlobMatcher`
returns an error. -/
def globMatches (isPathSeparator : Byte → Bool) (pattern : List Byte) (pathname : Path)
    (depPlatform : Bool) : Option Bool :=
  match NewGlobMatcher isPathSeparator pattern with
  | .ok m => some (m pathname depPlatform)
  | .error _ => none

/-- The default of `--pattern`, `*.png|*.jpg|*.bmp|*.tiff`. -/
def defaultConvertPattern : List Byte :=
  [42, 46, 112, 110, 103, 124, 42, 46, 106, 112, 103, 124, 42, 46, 98, 109, 112, 124,
   42, 46, 116, 105, 102, 102]

/-- The default of `--archive`, `*.zip|*.cbz`. -/
def defaultArchivePattern : List Byte :=
  [42, 46, 122, 105, 112, 124, 42, 46, 99, 98, 122]

/-- The path `README`. -/
def readmePath : Path := [82, 69, 65, 68, 77, 69]

/-! ## Setting up the configuration (`cmd/webpdeep/main.go`) -/

/-- The command line as `setupConfig` reads it: the three pattern flags, the first
positional argument, and whether `--output` and `--log` were given. -/
structure SetupFlags where
  convertPattern : List Byte
  copyPattern : List Byte
  archivePattern : List Byte
  arg0 : Path
  outputChanged : Bool
  logChanged : Bool

/-- The library and the file system as `setupConfig` sees them: `filepath.Clean`,
`filepath.Dir`, `os.Stat` (`none` for an error, else whether the path is a directory)
and `os.IsPathSeparator`. -/
structure SetupEnv where
  clean : Path → Path
  dir : Path → Path
  stat : Path → Option Bool
  isPathSeparator : Byte → Bool

/-- The errors of `setupConfig`. -/
inductive SetupError
  | invalidConvertPattern
  | invalidCopyPattern
  | invalidArchivePattern
  | inputNotSpecify
  | outputNotSpecify
  deriving DecidableEq, Repr

/-- The function `setupConfig`, without the worker count: `conf` holds the values of the
flags bound to its fields (`Dest` that of `--output`, `LogPath` that of `--log`). -/
def setupConfig (env : SetupEnv) (flags : SetupFlags) (conf : Config) :
    Except SetupError Config :=
  match NewGlobMatcher env.isPathSeparator flags.convertPattern with
  | .error _ => .error .invalidConvertPattern
  | .ok convertMatch =>
    let copy : Except SetupError (Option (Path → Bool → Bool)) :=
      if flags.copyPattern ≠ [] then
        match NewGlobMatcher env.isPathSeparator flags.copyPattern with
        | .error _ => .error .invalidCopyPattern
        | .ok m => .ok (some m)
      else .ok conf.CopyMatch
    match copy with
    | .error e => .error e
    | .ok copyMatch =>
      match NewGlobMatcher env.isPathSeparator flags.archivePattern with
      | .error _ => .error .invalidArchivePattern
      | .ok archiveMatch =>
        if flags.arg0 = [] then .error .inputNotSpecify
        else
          let src := env.clean flags.arg0
          let stat := env.stat src
          let dest : Except SetupError Path :=
            if !flags.outputChanged then
              if stat = some false then .ok (withWebpExt env.isPathSeparator src)
              else .error .outputNotSpecify
            else .ok conf.Dest
          match dest with
          | .error e => .error e
          | .ok dest =>
            let dest := env.clean dest
            let logPath :=
              if stat.isSome ∧ !flags.logChanged then
                (if stat = some true then dest else env.dir dest)
              else conf.LogPath
            .ok { conf with
              ConvertMatch := convertMatch, CopyMatch := copyMatch,
              ArchiveMatch := archiveMatch, Src := src, Dest := dest,
              LogPath := env.clean logPath }

/-- The end of `PathScanner.Scan`, for a source that is not a directory: `none` is a panic
inside `walkZip`. `dir` is `filepath.Dir`. -/
def scanFile (env : Env) (dir : Path → Path) (conf : Config) (st : ScanState) :
    Option ScanState :=
  if !env.mkdirAll (dir conf.Dest) then some st.handleError
  else if conf.ArchiveMatch conf.Src true then walkZip env conf st conf.Src conf.Dest
  else
    some (st.sendJob
      { In := .file conf.Src, Out := .file conf.Dest,
        Codec := .WebP conf.CopyImageMeta conf.CheckImage, CopyMeta := conf.CopyFileMeta })

/-- The path `c.zip`. -/
def cZip : Path := [99, 46, 122, 105, 112]

/-- The path `c.webp`. -/
def cWebp : Path := [99, 46, 119, 101, 98, 112]

/-- The path `.`. -/
def dotDir : Path := [46]

/-- An environment in which `c.zip` is a regular file and nothing else exists. -/
def zipFileEnv : SetupEnv :=
  { clean := fun p => p, dir := fun _ => dotDir,
    stat := fun p => if p = cZip then some false else none, isPathSeparator := isSlash }

/-- The command line `webpdeep c.zip`: the default patterns, no `--output`, no `--log`. -/
def zipOnlyFlags : SetupFlags :=
  { convertPattern := defaultConvertPattern, copyPattern := [],
    archivePattern := defaultArchivePattern, arg0 := cZip,
    outputChanged := false, logChanged := false }

/-- The configuration before `setupConfig`, every flag at its default. -/
def initialConf : Config :=
  { Src := [], Dest := [], Recursively := false, ConvertMatch := fun _ _ => false,
    CopyMatch := none, ArchiveMatch := fun _ _ => false, CopyFileMeta := false,
    CopyImageMeta := false, CheckImage := false, LogPath := [] }

/-- What a run observes of `setupConfig` followed by the scan of a source that is not a
directory: source, destination, whether the source matches the archive pattern,
and the shared writers the scan created (`none` for a panic). -/
structure SetupScan where
  src : Path
  dest : Path
  isArchive : Bool
  writers : Option (List (Path × Int))
  deriving DecidableEq, Repr

/-- The function `setupConfig` followed by the end of `Scan`; `none` when setup fails. -/
def setupAndScan (senv : SetupEnv) (env : Env) (flags : SetupFlags) : Option SetupScan :=
  match setupConfig senv flags initialConf with
  | .ok conf =>
    some ⟨conf.Src, conf.Dest, conf.ArchiveMatch conf.Src true,
      (scanFile env senv.dir conf emptyScan).map (fun st => st.writers)⟩
  | .error _ => none

/-! ## Inputs for the lifecycle and the monitor -/

/-- A run in which `in.Open` fails with error 1 and both `Close` calls fail, with errors 2
and 3. -/
def openAndCloseFail : Outcomes :=
  { inOpen := some 1, info := none, outOpen := none, codec := none, codecWarnings := [],
    inClose := some 2, outClose := some 3 }

/-- A run in which the codec fails with error 1 and gives the warning 7, and `out.Close`
fails with error 3. -/
def codecAndCloseFail : Outcomes :=
  { inOpen := none, info := none, outOpen := none, codec := some 1, codecWarnings := [7],
    inClose := none, outClose := some 3 }

/-- The sum of `len(job.Warnings)` over the `transfer.job-done` messages. -/
def doneWarnings : List Msg → Nat
  | [] => 0
  | .transferJobDone job :: rest => job.Warnings.length + doneWarnings rest
  | _ :: rest => doneWarnings rest

/-- The monitor after the given messages were processed, in order, from zeroed
counters. -/
def Monitor.after (msgs : List Msg) : Monitor :=
  msgs.foldl Monitor.precessEvent NewMonitor

/-! ## Theorems -/

/-! ### The decoder is consulted only on the zlib paths -/

theorem zlibReadAll_noFlate (flate : List Byte → Option (List Byte) × Nat) (b : Body) :
    b.zlibReadAll flate = b.zlibReadAll noFlate ∨
      (b.zlibReadAll noFlate).1 = .error .zlibData := by
  unfold Body.zlibReadAll
  split
  · left; rfl
  · left; rfl
  · split
    · right; simp [noFlate]
    · left; rfl

theorem parseZTXt_noFlate (flate : List Byte → Option (List Byte) × Nat) (b : Body) :
    parseZTXt flate b = parseZTXt noFlate b ∨ (parseZTXt noFlate b).1 = .error .zlibData := by
  unfold parseZTXt
  rcases readCStr b 79 with ⟨_ | key, b1⟩ <;> dsimp only
  · left; trivial
  · rcases b1.ReadByte with ⟨_ | m, b2⟩ <;> dsimp only
    · left; trivial
    · by_cases hm : m ≠ 0
      · left; rw [if_pos hm, if_pos hm]
      · rw [if_neg hm, if_neg hm]
        rcases zlibReadAll_noFlate flate b2 with h | h
        · left; rw [h]
        · right
          rcases hz : b2.zlibReadAll noFlate with ⟨r, b3⟩
          rw [hz] at h
          simp only at h
          subst h
          rfl

theorem parseITXt_noFlate (flate : List Byte → Option (List Byte) × Nat) (b : Body) :
    parseITXt flate b = parseITXt noFlate b ∨ (parseITXt noFlate b).1 = .error .zlibData := by
  unfold parseITXt
  rcases readCStr b 79 with ⟨_ | key, b1⟩ <;> dsimp only
  · left; trivial
  · rcases b1.ReadByte with ⟨_ | com, b2⟩ <;> dsimp only
    · left; trivial
    · rcases readMethod com b2 with ⟨_ | _, b3⟩ <;> dsimp only
      · rcases readCStr b3 (-1) with ⟨_ | lang, b4⟩ <;> dsimp only
        · left; trivial
        · rcases readCStr b4 (-1) with ⟨_ | tk, b5⟩  <;> dsimp only
          · left; trivial
          · by_cases hc : com = 1
            · rw [if_pos hc, if_pos hc]
              rcases zlibReadAll_noFlate flate b5 with h | h
              · left; rw [h]
              · right
                rcases hz : b5.zlibReadAll noFlate with ⟨r, b6⟩
                rw [hz] at h
                simp only at h
                subst h
                rfl
            · left; rw [if_neg hc, if_neg hc]
      · left; trivial

theorem bodyParse_noFlate (flate : List Byte → Option (List Byte) × Nat) (k : Kind) (b : Body) :
    bodyParse flate k b = bodyParse noFlate k b ∨
      (bodyParse noFlate k b).1 = .error .zlibData := by
  cases k with
  | iCCP =>
    unfold bodyParse
    dsimp only
    rcases parseZTXt_noFlate flate b with h | h
    · left; rw [h]
    · right
      rcases hz : parseZTXt noFlate b with ⟨r, b1⟩
      rw [hz] at h
      simp only at h
      subst h
      rfl
  | eXIf => left; rfl
  | iTXt =>
    unfold bodyParse
    dsimp only
    rcases parseITXt_noFlate flate b with h | h
    · left; rw [h]
    · right
      rcases hz : parseITXt noFlate b with ⟨r, b1⟩
      rw [hz] at h
      simp only at h
      subst h
      rfl

theorem parseRecognised_noFlate (flate : List Byte → Option (List Byte) × Nat) (k : Kind)
    (mr : MetaReader) (pos dataLen : Nat) (read : List Byte) :
    parseRecognised flate k mr pos dataLen read = parseRecognised noFlate k mr pos dataLen read ∨
      (parseRecognised noFlate k mr pos dataLen read).1 = some .zlibData := by
  unfold parseRecognised
  rcases prepareChunkReader mr pos dataLen read with _ | body0 <;> dsimp only
  · left; trivial
  · rcases body0.Discard 4 with ⟨_ | _, b1⟩ <;> dsimp only
    · left; trivial
    · rcases bodyParse_noFlate flate k b1 with h | h
      · left; rw [h]
      · right
        rcases hz : bodyParse noFlate k b1 with ⟨r, b2⟩
        rw [hz] at h
        simp only at h
        subst h
        rfl

theorem parseChunkLoop_noFlate (flate : List Byte → Option (List Byte) × Nat) (fuel : Nat) :
    ∀ (mr : MetaReader) (pos : Nat) (read : List Byte),
      parseChunkLoop flate fuel mr pos read = parseChunkLoop noFlate fuel mr pos read ∨
        (parseChunkLoop noFlate fuel mr pos read).1 = some .zlibData := by
  induction fuel with
  | zero => intro mr pos read; left; rfl
  | succ fuel ih =>
    intro mr pos read
    unfold parseChunkLoop
    by_cases h0 : mr.reaming ≤ 0
    · left; rw [if_pos h0, if_pos h0]
    · rw [if_neg h0, if_neg h0]
      rcases readHeader mr pos read with ⟨_ | buf, mr1⟩ <;> dsimp only
      · left; trivial
      · rcases classify _ _ with _ | k <;> dsimp only
        · split
          · left; trivial
          · exact ih _ _ _
        · rcases parseRecognised_noFlate flate k
            { mr1 with reaming := mr1.reaming - (((be32 (buf.take 4) + 8 + 4) % 4294967296 : Nat) : Int) }
            pos (be32 (buf.take 4)) read with h | h
          · rw [h]
            rcases parseRecognised noFlate k _ pos (be32 (buf.take 4)) read with ⟨_ | e, mr3⟩
              <;> dsimp only
            · exact ih _ _ _
            · left; trivial
          · right
            rcases hz : parseRecognised noFlate k _ pos (be32 (buf.take 4)) read with ⟨r, mr3⟩
            rw [hz] at h
            simp only at h
            subst h
            rfl

theorem Read_noFlate (flate : List Byte → Option (List Byte) × Nat) (mr : MetaReader) (n : Nat) :
    Read flate mr n = Read noFlate mr n ∨ (Read noFlate mr n).err = some .zlibData := by
  unfold Read parseChunk
  dsimp only
  split
  · left; rfl
  · split
    · rcases parseChunkLoop_noFlate flate _ _ 0 _ with h | h
      · left; rw [h]
      · right; rw [h]; rfl
    · left; rfl

theorem consume_noFlate (flate : List Byte → Option (List Byte) × Nat) (sizes : List Nat) :
    ∀ mr, consume flate sizes mr = consume noFlate sizes mr ∨
      (consume noFlate sizes mr).2.1 = some .zlibData := by
  induction sizes with
  | nil => intro mr; left; rfl
  | cons n sizes ih =>
    intro mr
    unfold consume
    dsimp only
    rcases Read_noFlate flate mr n with h | h
    · rw [h]
      rcases he : (Read noFlate mr n).err with _ | e <;> dsimp only
      · rcases ih (Read noFlate mr n).mr with h2 | h2
        · left; rw [h2]
        · right; exact h2
      · left; trivial
    · right; rw [h]

/-- A run whose outcome with the failing decoder `noFlate` is not a decoder error never
consults the decoder: every decoder gives that outcome. -/
theorem outcome_of_noFlate {stream : List Byte} {sizes : List Nat} {o : Outcome}
    (h : outcome noFlate stream sizes = some o) (he : o.err ≠ some .zlibData)
    (flate : List Byte → Option (List Byte) × Nat) : outcome flate stream sizes = some o := by
  unfold outcome at h ⊢
  revert h
  rcases NewMetaReader stream with e | mr <;> dsimp only
  · exact id
  · intro h
    rcases consume_noFlate flate sizes mr with h2 | h2
    · rw [h2]; exact h
    · exfalso
      apply he
      rw [← h2]
      injection h with h
      rw [← h]

/-! ### Runs on concrete streams -/

/-- C1, counterexample: a stream that begins with the PNG signature and whose `eXIf`
chunk stores a wrong checksum. A consumer reading 8, 8, 13, 4 and 8 bytes is
handed 41 of the 65 bytes; the fifth `Read`, which parses the chunk, returns
the format error and the consumer never sees the rest. -/
theorem passthrough_stops_at_bad_checksum :
    badCrcStream.take 8 = pngMagic ∧ badCrcStream.length = 65 ∧
      ∀ flate, outcome flate badCrcStream [8, 8, 13, 4, 8, 4096]
        = some ⟨badCrcStream.take 41, some .formatChecksum, [], [], []⟩ :=
  ⟨by decide!, by decide!, fun flate => outcome_of_noFlate (by decide!) (by decide) flate⟩

/-- A length field of `0xFFFFFFF4` makes `dataLen + 8 + 4` wrap around to 0: with the
header of the chunk in `read`, the loop of `parseChunk` changes neither `pos` nor
`mr.reaming` and never ends. Such a chunk is not well-formed in the sense of
`Chunk.wellFormed`. -/
theorem length_field_wrap_hangs :
    ∀ flate, outcome flate wrapLengthStream [8, 8]
      = some ⟨wrapLengthStream.take 16, some .hang, [], [], []⟩ :=
  fun flate => outcome_of_noFlate (by decide!) (by decide) flate

/-- C2, the code at the failing input: the `iCCP` chunk of `longNameStream` has a
79-byte name, the terminator, method 0, a zlib stream and the right checksum.
`readCStr` stops after the 79 bytes without taking the terminator, the
terminator is read as the method byte, zlib is started on the method byte and
`Read` returns `zlib.ErrHeader`; no `ICCP` entry is stored. -/
theorem iccp_name_of_79_bytes_fails :
    longNameStream = pngMagic ++ ihdrChunk
        ++ goodChunk fourccICCP (List.replicate 79 65 ++ [0] ++ [0] ++ zIcc) ++ iendChunk ∧
      ∀ flate, outcome flate longNameStream [4096]
        = some ⟨longNameStream, some .zlibHeader, [], [], []⟩ :=
  ⟨by decide!, fun flate => outcome_of_noFlate (by decide!) (by decide) flate⟩

/-- C3, the code at the failing input: an uncompressed `iTXt` chunk with keyword
`XML:com.adobe.xmp`, empty language tag and translated keyword and the text
`<x/>`. The value stored under `XMP` is not the text field: it starts with the
method byte and the two terminators, which `parseITXt` never consumes. -/
theorem xmp_value_keeps_three_header_bytes :
    xmpStream = pngMagic ++ ihdrChunk
        ++ goodChunk fourccITXT (xmpKeyword ++ [0] ++ [0, 0] ++ [0] ++ [0] ++ [60, 120, 47, 62])
        ++ iendChunk ∧
      ∀ flate, outcome flate xmpStream [4096]
        = some ⟨xmpStream, some .eof, [], [], [0, 0, 0, 60, 120, 47, 62]⟩ :=
  ⟨by decide!, fun flate => outcome_of_noFlate (by decide!) (by decide) flate⟩

/-- C4, the code at the failing input: a PNG with two XMP `iTXt` chunks. After the
first chunk the `XMP` entry is the value of the first chunk; after the whole
stream it is the value of the second one. -/
theorem second_xmp_chunk_replaces_first :
    (∀ flate, outcome flate twoXmpStream [71]
        = some ⟨twoXmpStream.take 71, none, [], [], [0, 0, 0, 60, 97, 47, 62]⟩) ∧
      ∀ flate, outcome flate twoXmpStream [4096]
        = some ⟨twoXmpStream, some .eof, [], [], [0, 0, 0, 60, 98, 47, 62]⟩ :=
  ⟨fun flate => outcome_of_noFlate (by decide!) (by decide) flate,
   fun flate => outcome_of_noFlate (by decide!) (by decide) flate⟩

/-- C5, counterexample: `iccStream` holds an `iCCP` chunk with the right checksum;
`iccFlippedStream` differs from it in one byte of the chunk data (offset 46, the
first byte of the zlib stream). The `Read` that parses the chunk fails with
`zlib.ErrHeader`, which is not a PNG format error. -/
theorem flipped_byte_gives_zlib_error :
    iccFlippedStream = iccStream.set 46 121 ∧ Err.isFormat .zlibHeader = false ∧
      ∀ flate, outcome flate iccFlippedStream [4096]
        = some ⟨iccFlippedStream, some .zlibHeader, [], [], []⟩ :=
  ⟨by decide!, rfl, fun flate => outcome_of_noFlate (by decide!) (by decide) flate⟩

/-- C6, the code at the failing input: the same well-formed PNG read with three
sequences of buffer sizes. One buffer for the whole stream stores the `EXIF`
value; a first buffer that ends two bytes into the header of the `eXIf` chunk
makes `prepareChunkReader` panic; one that ends five bytes into it makes the
checksum test fail. -/
theorem outcome_depends_on_read_sizes :
    (∀ flate, outcome flate exifStream [4096]
        = some ⟨exifStream, some .eof, [], exifData, []⟩) ∧
      (∀ flate, outcome flate exifStream [35, 4096]
        = some ⟨exifStream.take 35, some .panicBounds, [], [], []⟩) ∧
      ∀ flate, outcome flate exifStream [38, 4096]
        = some ⟨exifStream.take 38, some .formatChecksum, [], [], []⟩ :=
  ⟨fun flate => outcome_of_noFlate (by decide!) (by decide) flate,
   fun flate => outcome_of_noFlate (by decide!) (by decide) flate,
   fun flate => outcome_of_noFlate (by decide!) (by decide) flate⟩

/-- C7, the code at the failing input: on a keyword field with no zero byte among
its first 79 bytes `readCStr` with limit 79 returns the 79 bytes and no error,
and a PNG whose `iTXt` chunk starts with 80 bytes `A` is read to its end without
any error. -/
theorem keyword_cap_is_not_an_error :
    (readCStr longKeywordBody 79).1 = some (List.replicate 79 65) ∧
      ∀ flate, outcome flate longKeywordStream [4096]
        = some ⟨longKeywordStream, some .eof, [], [], []⟩ :=
  ⟨by decide!, fun flate => outcome_of_noFlate (by decide!) (by decide) flate⟩

/-- C8, counterexample: in a recursive run the non-directory path `in/x.zip` matches
the archive pattern and `walkDir` emits two jobs for it, both WebP jobs: one for
each entry of the archive. -/
theorem archive_path_emits_entry_jobs :
    recursiveConf.ArchiveMatch inXZip true = true ∧
      ((walkDir easyEnv recursiveConf emptyScan inXZip false).2.sent.map (fun j => j.Codec))
        = [Codec.WebP false false, Codec.WebP false false] :=
  ⟨by decide!, by decide!⟩

/-- C9, counterexample: with the convert pattern `*` and the archive pattern `*.zip`
the file `in/x.zip` matches the convert pattern, and `walkDir` emits no job
for it. -/
theorem convert_match_without_job :
    convertAllConf.ConvertMatch inXZip true = true ∧
      (walkDir easyEnv convertAllConf emptyScan inXZip false).2.sent = [] :=
  ⟨rfl, by decide!⟩

/-- C10, the code at the failing input: a writer created with `ref = 1` whose archive
writer fails to close. The one `UnRef` call brings the count to zero, returns
the error and leaves the backing file open. -/
theorem unref_leaves_file_open :
    (NewZipWriter 1).UnRef true false
      = (true, { ref := 0, writerCloses := 1, fileCloses := 0 }) := by
  decide!

/-! ### The directory walk -/

theorem sent_foldl_createHeader (env : Env) (dirs : List Path) :
    ∀ st : ScanState,
      (dirs.foldl (fun s dir => if env.createHeader dir then s else s.handleError) st).sent
        = st.sent := by
  induction dirs with
  | nil => intro st; rfl
  | cons d dirs ih =>
    intro st
    rw [List.foldl_cons, ih]
    split <;> rfl

theorem sent_foldl_sendJob (f : Job → Job) (jobs : List Job) :
    ∀ st : ScanState,
      (jobs.foldl (fun s job => s.sendJob (f job)) st).sent = st.sent ++ jobs.map f := by
  induction jobs with
  | nil => intro st; simp
  | cons j jobs ih =>
    intro st
    rw [List.foldl_cons, ih]
    simp [ScanState.sendJob]

theorem walkZipEntries_entryJobs (conf : Config) (pathname outPathname : Path)
    (entries : List ZipEntry) :
    ∀ (jobs : List Job) (dirs : List Path) (r : List Job × List Path),
      walkZipEntries conf pathname outPathname entries jobs dirs = some r →
      r.1.map (fun job => job.setZipWriter outPathname)
        = jobs.map (fun job => job.setZipWriter outPathname)
          ++ entryJobs conf pathname outPathname entries := by
  induction entries with
  | nil =>
    intro jobs dirs r h
    simp only [walkZipEntries, Option.some.injEq] at h
    subst h
    simp [entryJobs]
  | cons e entries ih =>
    intro jobs dirs r h
    unfold walkZipEntries at h
    rcases hdz : DetectZipUTF8Path e.header with _ | ⟨outName, nu⟩
    · rw [hdz] at h
      simp at h
    · rw [hdz] at h
      dsimp only at h
      have hcons : entryJobs conf pathname outPathname (e :: entries)
          = (entryJob conf pathname outPathname e).toList
            ++ entryJobs conf pathname outPathname entries := by
        unfold entryJobs
        rw [List.filterMap_cons]
        cases entryJob conf pathname outPathname e <;> rfl
      rw [hcons]
      by_cases hdir : e.isDir = true
      · rw [if_pos hdir] at h
        rw [ih _ _ _ h]
        simp [entryJob, hdir]
      · rw [if_neg hdir] at h
        by_cases hc : conf.ConvertMatch e.header.Name false = true
        · rw [if_pos hc] at h
          rw [ih _ _ _ h]
          simp [entryJob, hdir, hdz, hc, Job.setZipWriter]
        · rw [if_neg hc] at h
          by_cases hm : (match conf.CopyMatch with
               | some m => m e.header.Name false
               | none => false) = true
          · rw [if_pos hm] at h
            rw [ih _ _ _ h]
            simp [entryJob, hdir, hdz, hc, hm, Job.setZipWriter]
          · rw [if_neg hm] at h
            rw [ih _ _ _ h]
            simp [entryJob, hdir, hdz, hc, hm]

theorem walkZipEntries_total (conf : Config) (pathname outPathname : Path)
    (entries : List ZipEntry)
    (hd : ∀ e ∈ entries, (DetectZipUTF8Path e.header).isSome = true) :
    ∀ (jobs : List Job) (dirs : List Path),
      ∃ r, walkZipEntries conf pathname outPathname entries jobs dirs = some r := by
  induction entries with
  | nil => intro jobs dirs; exact ⟨_, rfl⟩
  | cons e entries ih =>
    intro jobs dirs
    have he := hd e (List.mem_cons_self _ _)
    have ih2 := ih (fun x hx => hd x (List.mem_cons_of_mem _ hx))
    unfold walkZipEntries
    rcases hdz : DetectZipUTF8Path e.header with _ | ⟨outName, nu⟩
    · rw [hdz] at he
      simp at he
    · dsimp only
      split
      · exact ih2 _ _
      · split
        · exact ih2 _ _
        · split
          · exact ih2 _ _
          · exact ih2 _ _

theorem entryJobs_zip (conf : Config) (pathname outPathname : Path) (files : List ZipEntry) :
    ∀ j ∈ entryJobs conf pathname outPathname files, ∃ p i, j.In = Input.zip p i := by
  intro j hj
  unfold entryJobs at hj
  obtain ⟨e, -, he⟩ := List.mem_filterMap.mp hj
  unfold entryJob at he
  split at he
  · simp at he
  · split at he
    · simp at he
    · split at he
      · simp only [Option.some.injEq] at he
        subst he
        exact ⟨_, _, rfl⟩
      · split at he
        · simp only [Option.some.injEq] at he
          subst he
          exact ⟨_, _, rfl⟩
        · simp at he

/-- The jobs `walkZip` sends: none, or the jobs of the entries of the archive; the latter
when the archive opens, no entry makes `DetectZipUTF8Path` panic and the output
file is created. -/
theorem walkZip_jobs (env : Env) (conf : Config) (st : ScanState) (pathname outPathname : Path) :
    (walkZip env conf st pathname outPathname = none ∨
      ∃ st1 js, walkZip env conf st pathname outPathname = some st1 ∧
        st1.sent = st.sent ++ js ∧
        (js = [] ∨ ∃ files, env.openZip pathname = some files ∧
          js = entryJobs conf pathname outPathname files)) ∧
      ∀ files, env.openZip pathname = some files →
        (∀ e ∈ files, (DetectZipUTF8Path e.header).isSome = true) →
        env.create outPathname = true →
        ∃ st1, walkZip env conf st pathname outPathname = some st1 ∧
          st1.sent = st.sent ++ entryJobs conf pathname outPathname files := by
  have key : ∀ files, env.openZip pathname = some files →
      ∀ jobs dirs, walkZipEntries conf pathname outPathname files [] [] = some (jobs, dirs) →
      ∃ st1, walkZip env conf st pathname outPathname = some st1 ∧
        ((st1.sent = st.sent ∧ (jobs.length = 0 ∨ env.create outPathname = false)) ∨
          st1.sent = st.sent ++ entryJobs conf pathname outPathname files) := by
    intro files hf jobs dirs hw
    have hj := walkZipEntries_entryJobs conf pathname outPathname files [] [] _ hw
    simp only [List.map_nil, List.nil_append] at hj
    unfold walkZip
    rw [hf]
    dsimp only
    rw [hw]
    dsimp only
    by_cases h0 : jobs.length = 0
    · rw [if_pos h0]
      exact ⟨_, rfl, Or.inl ⟨rfl, Or.inl h0⟩⟩
    · rw [if_neg h0]
      by_cases hc : env.create outPathname = true
      · rw [if_neg (by simp [hc])]
        split
        · refine ⟨_, rfl, Or.inr ?_⟩
          simp only [sent_foldl_sendJob, sent_foldl_createHeader, hj]
        · refine ⟨_, rfl, Or.inr ?_⟩
          simp only [sent_foldl_sendJob, sent_foldl_createHeader, hj]
      · rw [if_pos (by simp [hc])]
        exact ⟨_, rfl, Or.inl ⟨by simp [ScanState.handleError], Or.inr (by simpa using hc)⟩⟩
  constructor
  · rcases hf : env.openZip pathname with _ | files
    · right
      refine ⟨st.handleError, [], ?_, by simp [ScanState.handleError], Or.inl rfl⟩
      unfold walkZip
      rw [hf]
    · rcases hw : walkZipEntries conf pathname outPathname files [] [] with _ | ⟨jobs, dirs⟩
      · left
        unfold walkZip
        rw [hf]
        dsimp only
        rw [hw]
      · right
        obtain ⟨st1, h1, h2⟩ := key files hf jobs dirs hw
        rcases h2 with ⟨h2, -⟩ | h2
        · exact ⟨st1, [], h1, by simp [h2], Or.inl rfl⟩
        · exact ⟨st1, _, h1, h2, Or.inr ⟨files, rfl, rfl⟩⟩
  · intro files hf hd hc
    obtain ⟨⟨jobs, dirs⟩, hw⟩ := walkZipEntries_total conf pathname outPathname files hd [] []
    obtain ⟨st1, h1, h2⟩ := key files hf jobs dirs hw
    refine ⟨st1, h1, ?_⟩
    rcases h2 with ⟨h2, h3⟩ | h2
    · rcases h3 with h3 | h3
      · have hj := walkZipEntries_entryJobs conf pathname outPathname files [] [] _ hw
        simp only [List.map_nil, List.nil_append] at hj
        have : jobs = [] := List.length_eq_zero.mp h3
        subst this
        simp only [List.map_nil] at hj
        rw [← hj, h2]
        simp
      · rw [hc] at h3
        simp at h3
    · exact h2

/-- C8, amended: the jobs `walkDir` emits for a non-directory path. If the path matches
the archive pattern there is no job for the file itself: outside recursive mode
there is no job at all, and in recursive mode the jobs are none or the jobs of
the entries of the archive (`entryJobs`: one per file entry that matches the
convert pattern, a WebP job, or else the copy pattern, a Copy job; all with a ZIP
input); they are the jobs of the entries whenever the path is none of `Src`,
`Dest` and `LogPath`, the archive opens, no entry name makes `DetectZipUTF8Path`
panic and the output archive is created. If the path does not match the archive
pattern there is at most one job, it reads that file, it is the WebP job
whenever the convert pattern matches, and it is a Copy job only when the convert
pattern does not match and a copy matcher is present and matches. -/
theorem walkDir_match_precedence (env : Env) (conf : Config) (st : ScanState) (pathname : Path) :
    ∃ js, (walkDir env conf st pathname false).2.sent = st.sent ++ js ∧
      (conf.ArchiveMatch pathname true = true →
        (∀ j ∈ js, ∃ p i, j.In = Input.zip p i) ∧ (conf.Recursively = false → js = []) ∧
        (js = [] ∨ ∃ files, env.openZip pathname = some files ∧
          js = entryJobs conf pathname (env.join conf.Dest (env.rel conf.Src pathname)) files) ∧
        (∀ files, conf.Recursively = true → conf.Src ≠ pathname → conf.Dest ≠ pathname →
          conf.LogPath ≠ pathname → env.openZip pathname = some files →
          (∀ e ∈ files, (DetectZipUTF8Path e.header).isSome = true) →
          env.create (env.join conf.Dest (env.rel conf.Src pathname)) = true →
          js = entryJobs conf pathname (env.join conf.Dest (env.rel conf.Src pathname)) files)) ∧
      (conf.ArchiveMatch pathname true = false →
        js.length ≤ 1 ∧ ∀ j ∈ js, j.In = Input.file pathname ∧
          (conf.ConvertMatch pathname true = true →
            j.Codec = Codec.WebP conf.CopyImageMeta conf.CheckImage) ∧
          (j.Codec = Codec.Copy → conf.ConvertMatch pathname true = false ∧
            ∃ m, conf.CopyMatch = some m ∧ m pathname true = true)) := by
  unfold walkDir
  by_cases hs : conf.Src = pathname
  · rw [if_pos hs]
    refine ⟨[], ?_, fun _ => ⟨by simp, fun _ => rfl, Or.inl rfl, ?_⟩, by simp⟩
    · split <;> simp [ScanState.handleError]
    · intro files _ h
      exact absurd hs h
  · rw [if_neg hs]
    by_cases hd : conf.Dest = pathname ∨ conf.LogPath = pathname
    · rw [if_pos hd]
      refine ⟨[], by simp, fun _ => ⟨by simp, fun _ => rfl, Or.inl rfl, ?_⟩, by simp⟩
      intro files _ _ h1 h2
      rcases hd with hd | hd
      · exact absurd hd h1
      · exact absurd hd h2
    · rw [if_neg hd]
      dsimp only
      rw [if_neg (by simp : ¬ (false = true))]
      by_cases ha : conf.ArchiveMatch pathname true = true
      · rw [if_pos ha]
        by_cases hr : conf.Recursively = true
        · rw [if_pos hr]
          obtain ⟨hA, hB⟩ := walkZip_jobs env conf st pathname
            (env.join conf.Dest (env.rel conf.Src pathname))
          rcases hA with hw | ⟨st1, js, hw, hjs, hor⟩
          · rw [hw]
            refine ⟨[], by simp, fun _ => ⟨by simp, fun _ => rfl, Or.inl rfl, ?_⟩, by simp [ha]⟩
            intro files _ _ _ _ hf hdz hc
            obtain ⟨st2, h2, -⟩ := hB files hf hdz hc
            rw [hw] at h2
            simp at h2
          · rw [hw]
            refine ⟨js, hjs, fun _ => ⟨?_, fun hf => ?_, hor, ?_⟩, by simp [ha]⟩
            · rcases hor with rfl | ⟨files, -, rfl⟩
              · simp
              · exact entryJobs_zip _ _ _ _
            · rw [hr] at hf
              exact absurd hf (by simp)
            · intro files _ _ _ _ hf hdz hc
              obtain ⟨st2, h2, h3⟩ := hB files hf hdz hc
              rw [hw] at h2
              simp only [Option.some.injEq] at h2
              subst h2
              rw [hjs] at h3
              exact List.append_cancel_left h3
        · rw [if_neg hr]
          refine ⟨[], by simp, fun _ => ⟨by simp, fun _ => rfl, Or.inl rfl, ?_⟩, by simp [ha]⟩
          intro files h
          exact absurd h hr
      · rw [if_neg ha]
        by_cases hc : conf.ConvertMatch pathname true = true
        · rw [if_pos hc]
          refine ⟨[_], rfl, fun h => absurd h ha, fun _ => ⟨by simp, ?_⟩⟩
          intro j hj
          simp only [List.mem_singleton] at hj
          subst hj
          exact ⟨rfl, fun _ => rfl, fun h => by simp at h⟩
        · rw [if_neg hc]
          split
          · rename_i hm
            refine ⟨[_], rfl, fun h => absurd h ha, fun _ => ⟨by simp, ?_⟩⟩
            intro j hj
            simp only [List.mem_singleton] at hj
            subst hj
            refine ⟨rfl, fun h => absurd h hc, fun _ => ⟨by simpa using hc, ?_⟩⟩
            rcases hcm : conf.CopyMatch with _ | m
            · rw [hcm] at hm
              simp at hm
            · rw [hcm] at hm
              exact ⟨m, rfl, hm⟩
          · exact ⟨[], by simp, fun h => absurd h ha, by simp⟩

/-- C8, witness: in the recursive run the archive `in/x.zip`, with the entries `a.png` and
`b.png`, matches the archive pattern, and the jobs sent for it are the two jobs of
its entries. -/
theorem walkDir_match_precedence_witness :
    recursiveConf.ArchiveMatch inXZip true = true ∧
    (∃ js, (walkDir easyEnv recursiveConf emptyScan inXZip false).2.sent = emptyScan.sent ++ js ∧
      js = entryJobs recursiveConf inXZip
        (easyEnv.join recursiveConf.Dest (easyEnv.rel recursiveConf.Src inXZip))
        [fileEntry [97, 46, 112, 110, 103], fileEntry [98, 46, 112, 110, 103]]) ∧
    (entryJobs recursiveConf inXZip
        (easyEnv.join recursiveConf.Dest (easyEnv.rel recursiveConf.Src inXZip))
        [fileEntry [97, 46, 112, 110, 103], fileEntry [98, 46, 112, 110, 103]]).length = 2 := by
  obtain ⟨js, h1, h2, _⟩ := walkDir_match_precedence easyEnv recursiveConf emptyScan inXZip
  exact ⟨by decide, ⟨js, h1, (h2 (by decide)).2.2.2 _ rfl (by decide) (by decide) (by decide)
    rfl (by decide) rfl⟩, by decide⟩

/-- C9, amended: a non-directory path visited by the walk that is none of `Src`, `Dest`
and `LogPath`, matches the convert pattern and does not match the archive
pattern makes `walkDir` send exactly one job: the WebP job that reads the file and
writes `Join(Dest, Rel(Src, path))` with its final extension replaced by `.webp`. -/
theorem walkDir_convert_job (env : Env) (conf : Config) (st : ScanState) (pathname : Path)
    (hs : conf.Src ≠ pathname) (hd : conf.Dest ≠ pathname) (hl : conf.LogPath ≠ pathname)
    (ha : conf.ArchiveMatch pathname true = false) (hc : conf.ConvertMatch pathname true = true) :
    (walkDir env conf st pathname false).1 = WalkRet.nil ∧
      (walkDir env conf st pathname false).2.sent = st.sent ++
        [{ In := Input.file pathname,
           Out := Output.file
             (withWebpExt env.isPathSeparator (env.join conf.Dest (env.rel conf.Src pathname))),
           Codec := Codec.WebP conf.CopyImageMeta conf.CheckImage,
           CopyMeta := conf.CopyFileMeta }] ∧
      (walkDir env conf st pathname false).2.jobCount = st.jobCount + 1 := by
  unfold walkDir
  rw [if_neg hs, if_neg (by simp [hd, hl])]
  dsimp only
  rw [if_neg (by simp : ¬ (false = true)), if_neg (by simp [ha]), if_pos hc]
  exact ⟨rfl, rfl, rfl⟩

/-- C9, witness: the file `in/x.png` in the recursive run from `in` to `out`. -/
theorem walkDir_convert_job_witness :
    (walkDir easyEnv recursiveConf emptyScan [105, 110, 47, 120, 46, 112, 110, 103] false).2.sent
      = [{ In := Input.file [105, 110, 47, 120, 46, 112, 110, 103],
           Out := Output.file [111, 117, 116, 47, 120, 46, 119, 101, 98, 112],
           Codec := Codec.WebP false false, CopyMeta := false }] :=
  (walkDir_convert_job easyEnv recursiveConf emptyScan [105, 110, 47, 120, 46, 112, 110, 103]
    (by decide) (by decide) (by decide) (by decide!) (by decide!)).2.1

/-! ### Pass-through -/

theorem Body.Evolves.refl (b : Body) : b.Evolves b :=
  ⟨rfl, rfl, rfl, rfl, rfl, rfl, fun _ => ⟨rfl, rfl⟩, rfl, ⟨0, rfl⟩, fun _ => rfl⟩

theorem Body.Evolves.trans {a b c : Body} (h1 : a.Evolves b) (h2 : b.Evolves c) : a.Evolves c := by
  refine ⟨h2.viaIn.trans h1.viaIn, h2.reaming.trans h1.reaming, h2.iccp.trans h1.iccp,
    h2.exif.trans h1.exif, h2.xmp.trans h1.xmp, h2.stream.trans h1.stream, ?_,
    h2.phi.trans h1.phi, ?_, ?_⟩
  · intro h
    have ha := h1.fixed h
    have hb := h2.fixed (h1.viaIn.trans h)
    exact ⟨hb.1.trans ha.1, hb.2.trans ha.2⟩
  · obtain ⟨k1, hk1⟩ := h1.mem
    obtain ⟨k2, hk2⟩ := h2.mem
    exact ⟨k1 + k2, by rw [hk2, hk1, List.drop_drop]⟩
  · intro h
    have hb : b.mem ≠ [] := by
      obtain ⟨k2, hk2⟩ := h2.mem
      intro hb
      rw [hb] at hk2
      simp at hk2
      exact h hk2
    exact (h2.held h).trans (h1.held hb)

/-- Changing what the `bufio.Reader` holds changes nothing else. -/
theorem Body.Evolves.buffered {a b : Body} (h : a.Evolves b) (l : List Byte) :
    a.Evolves { b with buffered := l } :=
  ⟨h.viaIn, h.reaming, h.iccp, h.exif, h.xmp, h.stream, h.fixed, h.phi, h.mem, h.held⟩

theorem Body.rdRead_evolves (want : Nat) (b : Body) : b.Evolves (b.rdRead want).2 := by
  unfold Body.rdRead
  dsimp only
  split
  · exact Body.Evolves.refl b
  · rename_i hl
    split
    · rename_i hm
      refine ⟨rfl, rfl, rfl, rfl, rfl, rfl, fun _ => ⟨rfl, rfl⟩, ?_, ⟨_, rfl⟩, fun _ => rfl⟩
      unfold Body.phi
      simp only [List.length_take, List.length_drop]
      omega
    · rename_i hm
      have hm : b.mem = [] := by simpa using hm
      split
      · rename_i hv
        refine ⟨rfl, rfl, rfl, rfl, rfl, ?_, ?_, ?_, ⟨0, rfl⟩, ?_⟩
        · simp
        · intro h
          rw [h] at hv
          simp at hv
        · unfold Body.phi
          simp only [List.length_take, List.length_append]
          omega
        · intro h
          exact absurd hm h
      · exact Body.Evolves.refl b

theorem Body.fill_evolves (b : Body) : b.Evolves b.fill :=
  (Body.rdRead_evolves 4096 b).buffered _

theorem Body.ReadByte_evolves (b : Body) : b.Evolves b.ReadByte.2 := by
  unfold Body.ReadByte
  split
  · exact (Body.Evolves.refl b).buffered _
  · dsimp only
    split
    · exact (Body.fill_evolves b).buffered _
    · exact Body.fill_evolves b

theorem Body.Discard_evolves (n : Nat) : ∀ b : Body, b.Evolves (b.Discard n).2 := by
  induction n with
  | zero => intro b; exact Body.Evolves.refl b
  | succ n ih =>
    intro b
    unfold Body.Discard
    have h := Body.ReadByte_evolves b
    rcases hrb : b.ReadByte with ⟨_ | c, b1⟩ <;> rw [hrb] at h <;> dsimp only at h ⊢
    · exact h
    · exact h.trans (ih b1)

theorem readCStrLoop_evolves (k : Nat) :
    ∀ (b : Body) (str : List Byte), b.Evolves (readCStrLoop k b str).2 := by
  induction k with
  | zero => intro b str; exact Body.Evolves.refl b
  | succ k ih =>
    intro b str
    unfold readCStrLoop
    have h := Body.ReadByte_evolves b
    rcases hrb : b.ReadByte with ⟨_ | c, b1⟩ <;> rw [hrb] at h <;> dsimp only at h ⊢
    · exact h
    · split
      · exact h
      · exact h.trans (ih b1 _)

theorem readCStr_evolves (b : Body) (lim : Int) : b.Evolves (readCStr b lim).2 :=
  readCStrLoop_evolves _ b []

theorem Body.ReadAll_evolves (b : Body) : b.Evolves b.ReadAll.2 := by
  unfold Body.ReadAll
  dsimp only
  exact (((Body.Evolves.refl b).buffered []).trans (Body.rdRead_evolves _ _)).trans
    (Body.rdRead_evolves _ _)

theorem Body.zlibReadAll_evolves (flate : List Byte → Option (List Byte) × Nat) (b : Body) :
    b.Evolves (b.zlibReadAll flate).2 := by
  unfold Body.zlibReadAll
  split
  · exact Body.Evolves.refl b
  · exact Body.Discard_evolves 1 b
  · split
    · dsimp only
      split <;> exact Body.Discard_evolves _ b
    · exact Body.Discard_evolves 2 b

theorem Body.zlibReadAll_error (flate : List Byte → Option (List Byte) × Nat) (b : Body) (e : Err)
    (h : (b.zlibReadAll flate).1 = .error e) : e.isFault = false := by
  unfold Body.zlibReadAll at h
  split at h
  · injection h with h; subst h; rfl
  · injection h with h; subst h; rfl
  · split at h
    · dsimp only at h
      split at h
      · simp at h
      · injection h with h; subst h; rfl
    · injection h with h; subst h; rfl

theorem parseZTXt_evolves (flate : List Byte → Option (List Byte) × Nat) (b : Body) :
    b.Evolves (parseZTXt flate b).2 ∧
      ∀ e, (parseZTXt flate b).1 = .error e → e.isFault = false := by
  unfold parseZTXt
  have h1 := readCStr_evolves b 79
  rcases hr1 : readCStr b 79 with ⟨_ | key, b1⟩ <;> rw [hr1] at h1 <;> dsimp only at h1 ⊢
  · exact ⟨h1, fun e h => by injection h with h; subst h; rfl⟩
  · have h2 := Body.ReadByte_evolves b1
    rcases hr2 : b1.ReadByte with ⟨_ | m, b2⟩ <;> rw [hr2] at h2 <;> dsimp only at h2 ⊢
    · exact ⟨h1.trans h2, fun e h => by injection h with h; subst h; rfl⟩
    · split
      · exact ⟨h1.trans h2, fun e h => by injection h with h; subst h; rfl⟩
      · have h3 := Body.zlibReadAll_evolves flate b2
        have h4 := Body.zlibReadAll_error flate b2
        rcases hr3 : b2.zlibReadAll flate with ⟨e | v, b3⟩ <;> rw [hr3] at h3 h4
          <;> dsimp only at h3 h4 ⊢
        · exact ⟨(h1.trans h2).trans h3, fun e h => by injection h with h; subst h; exact h4 _ rfl⟩
        · exact ⟨(h1.trans h2).trans h3, fun e h => by simp at h⟩

theorem readMethod_evolves (com : Byte) (b : Body) :
    b.Evolves (readMethod com b).2 ∧ ∀ e, (readMethod com b).1 = some e → e.isFault = false := by
  unfold readMethod
  split
  · have h3 := Body.ReadByte_evolves b
    rcases hr3 : b.ReadByte with ⟨_ | m, b3⟩ <;> rw [hr3] at h3 <;> dsimp only at h3 ⊢
    · exact ⟨h3, fun e h => by injection h with h; subst h; rfl⟩
    · split
      · exact ⟨h3, fun e h => by injection h with h; subst h; rfl⟩
      · exact ⟨h3, fun e h => by simp at h⟩
  · exact ⟨Body.Evolves.refl b, fun e h => by simp at h⟩

theorem parseITXt_evolves (flate : List Byte → Option (List Byte) × Nat) (b : Body) :
    b.Evolves (parseITXt flate b).2 ∧
      ∀ e, (parseITXt flate b).1 = .error e → e.isFault = false := by
  unfold parseITXt
  have h1 := readCStr_evolves b 79
  rcases hr1 : readCStr b 79 with ⟨_ | key, b1⟩ <;> rw [hr1] at h1 <;> dsimp only at h1 ⊢
  · exact ⟨h1, fun e h => by injection h with h; subst h; rfl⟩
  · have h2 := Body.ReadByte_evolves b1
    rcases hr2 : b1.ReadByte with ⟨_ | com, b2⟩ <;> rw [hr2] at h2 <;> dsimp only at h2 ⊢
    · exact ⟨h1.trans h2, fun e h => by injection h with h; subst h; rfl⟩
    · have h3 := readMethod_evolves com b2
      rcases hr3 : readMethod com b2 with ⟨_ | e, b3⟩ <;> rw [hr3] at h3 <;> dsimp only at h3 ⊢
      swap
      · exact ⟨(h1.trans h2).trans h3.1, fun e h => by injection h with h; subst h; exact h3.2 _ rfl⟩
      · have h4 := readCStr_evolves b3 (-1)
        rcases hr4 : readCStr b3 (-1) with ⟨_ | lang, b4⟩ <;> rw [hr4] at h4 <;> dsimp only at h4 ⊢
        · exact ⟨((h1.trans h2).trans h3.1).trans h4, fun e h => by injection h with h; subst h; rfl⟩
        · have h5 := readCStr_evolves b4 (-1)
          rcases hr5 : readCStr b4 (-1) with ⟨_ | tk, b5⟩ <;> rw [hr5] at h5 <;> dsimp only at h5 ⊢
          · exact ⟨(((h1.trans h2).trans h3.1).trans h4).trans h5,
              fun e h => by injection h with h; subst h; rfl⟩
          · have h05 := (((h1.trans h2).trans h3.1).trans h4).trans h5
            split
            · have h6 := Body.zlibReadAll_evolves flate b5
              have h7 := Body.zlibReadAll_error flate b5
              rcases hr6 : b5.zlibReadAll flate with ⟨e | v, b6⟩ <;> rw [hr6] at h6 h7
                <;> dsimp only at h6 h7 ⊢
              · exact ⟨h05.trans h6, fun e h => by injection h with h; subst h; exact h7 _ rfl⟩
              · exact ⟨h05.trans h6, fun e h => by simp at h⟩
            · exact ⟨h05.trans (Body.ReadAll_evolves b5), fun e h => by simp at h⟩

theorem bodyParse_evolves (flate : List Byte → Option (List Byte) × Nat) (k : Kind) (b : Body) :
    b.Evolves (bodyParse flate k b).2 ∧
      ∀ e, (bodyParse flate k b).1 = .error e → e.isFault = false := by
  cases k with
  | iCCP =>
    unfold bodyParse
    dsimp only
    have h := parseZTXt_evolves flate b
    rcases hr : parseZTXt flate b with ⟨e | v, b1⟩ <;> rw [hr] at h <;> dsimp only at h ⊢
    · exact ⟨h.1, fun e h2 => by injection h2 with h2; subst h2; exact h.2 _ rfl⟩
    · exact ⟨h.1, fun e h2 => by simp at h2⟩
  | eXIf =>
    exact ⟨Body.ReadAll_evolves b, fun e h => by simp [bodyParse] at h⟩
  | iTXt =>
    unfold bodyParse
    dsimp only
    have h := parseITXt_evolves flate b
    rcases hr : parseITXt flate b with ⟨e | v, b1⟩ <;> rw [hr] at h <;> dsimp only at h ⊢
    · exact ⟨h.1, fun e h2 => by injection h2 with h2; subst h2; exact h.2 _ rfl⟩
    · split
      · exact ⟨h.1, fun e h2 => by simp at h2⟩
      · exact ⟨h.1, fun e h2 => by simp at h2⟩

theorem verifyChecksum_spec (b : Body) :
    (verifyChecksum b).2.mr.reaming = b.mr.reaming ∧
    (verifyChecksum b).2.mr.tmp ++ (verifyChecksum b).2.mr.inp = b.mr.tmp ++ b.mr.inp ∧
    (b.viaIn = false →
      (verifyChecksum b).2.mr.tmp = b.mr.tmp ∧ (verifyChecksum b).2.mr.inp = b.mr.inp) ∧
    (verifyChecksum b).2.mr.tmp.length ≤ b.mr.tmp.length + (4 - min 4 b.mem.length) ∧
    (∀ e, (verifyChecksum b).1 = .error e → e.isFault = false) := by
  have hst : (b.chunkReadFull 4).2.mr.reaming = b.mr.reaming ∧
      (b.chunkReadFull 4).2.mr.tmp ++ (b.chunkReadFull 4).2.mr.inp = b.mr.tmp ++ b.mr.inp ∧
      (b.viaIn = false →
        (b.chunkReadFull 4).2.mr.tmp = b.mr.tmp ∧ (b.chunkReadFull 4).2.mr.inp = b.mr.inp) ∧
      (b.chunkReadFull 4).2.mr.tmp.length ≤ b.mr.tmp.length + (4 - min 4 b.mem.length) := by
    unfold Body.chunkReadFull
    dsimp only
    split
    · rename_i hv
      refine ⟨rfl, by simp, fun h => by rw [h] at hv; simp at hv, ?_⟩
      simp only [List.length_append, List.length_take]
      omega
    · exact ⟨rfl, rfl, fun _ => ⟨rfl, rfl⟩, Nat.le_add_right _ _⟩
  have hv : (verifyChecksum b).2 = (b.chunkReadFull 4).2 := by
    unfold verifyChecksum
    dsimp only
    split
    · rfl
    · split <;> rfl
  rw [hv]
  refine ⟨hst.1, hst.2.1, hst.2.2.1, hst.2.2.2, ?_⟩
  intro e h
  unfold verifyChecksum at h
  dsimp only at h
  split at h
  · injection h with h; subst h; rfl
  · split at h
    · injection h with h; subst h; rfl
    · simp at h

theorem setTag_fields (mr : MetaReader) (t : Tag) (v : List Byte) :
    (mr.setTag t v).reaming = mr.reaming ∧ (mr.setTag t v).tmp = mr.tmp ∧
      (mr.setTag t v).inp = mr.inp := by
  cases t <;> exact ⟨rfl, rfl, rfl⟩

/-- A recognised chunk whose header lies in `read`: the call returns (no panic), keeps
the byte stream `tmp ++ in`, reads nothing from `in` when the chunk ends inside `read`,
and otherwise leaves in `tmp` no more than the bytes up to the end of the chunk. -/
theorem parseRecognised_spec (flate : List Byte → Option (List Byte) × Nat) (k : Kind)
    (mr : MetaReader) (pos dataLen : Nat) (read : List Byte)
    (htmp : mr.tmp = []) (hpos : pos + 8 ≤ read.length) (hlen : dataLen + 12 < 4294967296)
    (hream : mr.reaming = (read.length : Int) - (pos : Int) - ((dataLen : Int) + 12)) :
    (∀ e, (parseRecognised flate k mr pos dataLen read).1 = some e → e.isFault = false) ∧
    (parseRecognised flate k mr pos dataLen read).2.reaming = mr.reaming ∧
    (parseRecognised flate k mr pos dataLen read).2.tmp ++
      (parseRecognised flate k mr pos dataLen read).2.inp = mr.inp ∧
    (0 ≤ mr.reaming → (parseRecognised flate k mr pos dataLen read).2.tmp = [] ∧
      (parseRecognised flate k mr pos dataLen read).2.inp = mr.inp) ∧
    ((parseRecognised flate k mr pos dataLen read).1 = none → mr.reaming < 0 →
      ((parseRecognised flate k mr pos dataLen read).2.tmp.length : Int) ≤ -mr.reaming) := by
  have hm1 : (dataLen + 4) % 4294967296 = dataLen + 4 := Nat.mod_eq_of_lt (by omega)
  have hm2 : (dataLen + 8 + 4) % 4294967296 = dataLen + 12 := Nat.mod_eq_of_lt (by omega)
  -- the reader `prepareChunkReader` builds
  obtain ⟨body0, hb0, hmr0, hvia, hphi, hmem0⟩ : ∃ body0 : Body,
      prepareChunkReader mr pos dataLen read = some body0 ∧
      body0.mr = { mr with crc := 0 } ∧ (body0.viaIn = true ↔ mr.reaming < 0) ∧
      (mr.reaming < 0 → body0.phi = -mr.reaming - 4) ∧
      (mr.reaming < 0 → body0.mem ≠ []) := by
    unfold prepareChunkReader
    dsimp only
    by_cases hneg : mr.reaming < 0
    · rw [if_pos hneg, if_pos (by omega)]
      refine ⟨_, rfl, rfl, by simp [hneg], ?_, ?_⟩
      · intro _
        unfold Body.phi
        simp only [htmp, List.length_drop, hm1, List.length_nil]
        omega
      · intro _ h
        have := congrArg List.length h
        simp only [List.length_drop, List.length_nil] at this
        omega
    · rw [if_neg hneg, hm2, if_pos (by omega)]
      exact ⟨_, rfl, rfl, by simp [hneg], fun h => absurd h hneg, fun h => absurd h hneg⟩
  unfold parseRecognised
  rw [hb0]
  dsimp only
  have hmr0t : body0.mr.tmp = [] := by rw [hmr0]; exact htmp
  have hmr0i : body0.mr.inp = mr.inp := by rw [hmr0]
  have hmr0r : body0.mr.reaming = mr.reaming := by rw [hmr0]
  have hfix0 : 0 ≤ mr.reaming → body0.viaIn = false := by
    intro h
    cases hv : body0.viaIn with
    | false => rfl
    | true => exact absurd (hvia.mp hv) (by omega)
  -- the facts every later state satisfies
  have key : ∀ b : Body, body0.Evolves b →
      b.mr.reaming = mr.reaming ∧ b.mr.tmp ++ b.mr.inp = mr.inp ∧
      (0 ≤ mr.reaming → b.mr.tmp = [] ∧ b.mr.inp = mr.inp) := by
    intro b hb
    refine ⟨hb.reaming.trans hmr0r, ?_, ?_⟩
    · rw [hb.stream, hmr0t, hmr0i]; rfl
    · intro h
      have := hb.fixed (hfix0 h)
      exact ⟨this.1.trans hmr0t, this.2.trans hmr0i⟩
  have h1 := Body.Discard_evolves 4 body0
  rcases hr1 : body0.Discard 4 with ⟨_ | _, b1⟩ <;> rw [hr1] at h1 <;> dsimp only at h1 ⊢
  · exact ⟨fun e h => by injection h with h; subst h; rfl, (key b1 h1).1, (key b1 h1).2.1,
      (key b1 h1).2.2, fun h => by simp at h⟩
  · have h2 := bodyParse_evolves flate k b1
    rcases hr2 : bodyParse flate k b1 with ⟨e | tagData, b2⟩ <;> rw [hr2] at h2
      <;> dsimp only at h2 ⊢
    · have h02 := h1.trans h2.1
      exact ⟨fun e h => by injection h with h; subst h; exact h2.2 _ rfl, (key b2 h02).1,
        (key b2 h02).2.1, (key b2 h02).2.2, fun h => by simp at h⟩
    · have h02 := h1.trans h2.1
      have hk := key b2 h02
      have hv := verifyChecksum_spec b2
      have hvia2 : b2.viaIn = body0.viaIn := h02.viaIn
      -- the state after the stored sum was read
      have fin : (verifyChecksum b2).2.mr.reaming = mr.reaming ∧
          (verifyChecksum b2).2.mr.tmp ++ (verifyChecksum b2).2.mr.inp = mr.inp ∧
          (0 ≤ mr.reaming → (verifyChecksum b2).2.mr.tmp = [] ∧
            (verifyChecksum b2).2.mr.inp = mr.inp) ∧
          (mr.reaming < 0 → ((verifyChecksum b2).2.mr.tmp.length : Int) ≤ -mr.reaming) := by
        refine ⟨hv.1.trans hk.1, hv.2.1.trans hk.2.1, ?_, ?_⟩
        · intro h
          have hf := hv.2.2.1 (hvia2.trans (hfix0 h))
          exact ⟨hf.1.trans (hk.2.2 h).1, hf.2.trans (hk.2.2 h).2⟩
        · intro hneg
          have hb := hv.2.2.2.1
          have hp : b2.phi = -mr.reaming - 4 := h02.phi.trans (hphi hneg)
          unfold Body.phi at hp
          by_cases hm : b2.mem = []
          · rw [hm] at hp hb
            simp only [List.length_nil] at hp hb
            omega
          · have ht : b2.mr.tmp = [] := (h02.held hm).trans hmr0t
            rw [ht] at hp hb
            simp only [List.length_nil] at hp hb
            omega
      rcases hr3 : verifyChecksum b2 with ⟨e | ok, b3⟩ <;> rw [hr3] at fin hv
        <;> dsimp only at fin hv ⊢
      · exact ⟨fun e h => by injection h with h; subst h; exact hv.2.2.2.2 _ rfl, fin.1, fin.2.1,
          fin.2.2.1, fun h => by simp at h⟩
      · cases ok <;> dsimp only
        · exact ⟨fun e h => by injection h with h; subst h; rfl, fin.1, fin.2.1,
            fin.2.2.1, fun h => by simp at h⟩
        · have hs := setTag_fields b3.mr k.tagName tagData
          split
          · dsimp only
            rw [hs.1, hs.2.1, hs.2.2]
            exact ⟨fun e h => by simp at h, fin.1, fin.2.1, fin.2.2.1, fun _ => fin.2.2.2⟩
          · exact ⟨fun e h => by simp at h, fin.1, fin.2.1, fin.2.2.1, fun _ => fin.2.2.2⟩

theorem putBe32_length (v : Nat) : (putBe32 v).length = 4 := rfl

theorem be32_putBe32 (v : Nat) (h : v < 4294967296) : be32 (putBe32 v) = v := by
  unfold be32 putBe32
  simp only [List.foldl_cons, List.foldl_nil]
  omega

theorem Chunk.encode_length (c : Chunk) (h : c.wellFormed) :
    c.encode.length = c.data.length + 12 := by
  unfold Chunk.encode
  simp only [List.length_append, putBe32_length, h.1, h.2.1]
  omega

theorem Chunk.encode_take8 (c : Chunk) (h : c.wellFormed) (rest : List Byte) :
    (c.encode ++ rest).take 8 = putBe32 c.data.length ++ c.fourcc := by
  unfold Chunk.encode
  have : (putBe32 c.data.length ++ c.fourcc).length = 8 := by
    simp [putBe32_length, h.1]
  rw [List.append_assoc, List.append_assoc]
  rw [List.take_append_of_le_length (by omega)]
  exact List.take_of_length_le (by omega)

theorem classify_some (mr : MetaReader) (f : List Byte) (k : Kind)
    (h : classify mr f = some k) : isMetaCode f = true := by
  unfold classify at h
  unfold isMetaCode
  split at h
  · rename_i h1; simp [h1.1]
  · split at h
    · rename_i h2; simp [h2.1]
    · split at h
      · rename_i h3; simp [h3]
      · simp at h

theorem metaHeaderStarts_shift (k : Nat) (cs : List Chunk) :
    ∀ off s, s ∈ metaHeaderStarts off cs → s + k ∈ metaHeaderStarts (off + k) cs := by
  induction cs with
  | nil => intro off s h; simp [metaHeaderStarts] at h
  | cons c cs ih =>
    intro off s h
    unfold metaHeaderStarts at h ⊢
    rcases List.mem_append.mp h with h | h
    · apply List.mem_append_left
      split at h
      · simp only [List.mem_singleton] at h
        subst h
        rename_i hm
        simp [hm]
      · simp at h
    · apply List.mem_append_right
      have := ih _ _ h
      rwa [Nat.add_right_comm] at this

theorem metaHeaderStarts_bound (cs : List Chunk) (hwf : ∀ c ∈ cs, c.wellFormed) :
    ∀ off s, s ∈ metaHeaderStarts off cs → off ≤ s ∧ s + 12 ≤ off + (encodeChunks cs).length := by
  induction cs with
  | nil => intro off s h; simp [metaHeaderStarts] at h
  | cons c cs ih =>
    intro off s h
    have hc := Chunk.encode_length c (hwf c (List.mem_cons_self _ _))
    unfold metaHeaderStarts at h
    simp only [encodeChunks, List.length_append]
    rcases List.mem_append.mp h with h | h
    · split at h
      · simp only [List.mem_singleton] at h
        omega
      · simp at h
    · have := ih (fun c' hc' => hwf c' (List.mem_cons_of_mem _ hc')) _ _ h
      omega

/-- The header of the chunk at `pos`, read from a stream that continues with the chunk
`c`: the eight bytes are those of `c`, and what was taken from `in` went to `tmp`. -/
theorem readHeader_spec (mr : MetaReader) (pos : Nat) (read : List Byte) (c : Chunk)
    (rest : List Byte) (hc : c.wellFormed) (htmp : mr.tmp = [])
    (hstream : read.drop pos ++ mr.inp = c.encode ++ rest)
    (hream : mr.reaming + (pos : Int) = (read.length : Int)) (hpos : 0 < mr.reaming) :
    ∃ mr1, readHeader mr pos read = (.ok (putBe32 c.data.length ++ c.fourcc), mr1) ∧
      mr1.reaming = mr.reaming ∧ mr1.tmp ++ mr1.inp = mr.inp ∧
      (8 ≤ mr.reaming → mr1 = mr) ∧
      (mr.reaming < 8 → (mr1.tmp.length : Int) = 8 - mr.reaming) := by
  have hlen := Chunk.encode_length c hc
  have hdl : (read.drop pos).length = read.length - pos := List.length_drop _ _
  have htot : (read.drop pos ++ mr.inp).length = c.data.length + 12 + rest.length := by
    rw [hstream, List.length_append, hlen]
  rw [List.length_append] at htot
  have h8 : (read.drop pos ++ mr.inp).take 8 = putBe32 c.data.length ++ c.fourcc := by
    rw [hstream]; exact Chunk.encode_take8 c hc rest
  unfold readHeader
  by_cases hlt : mr.reaming < 8
  · rw [if_pos hlt, if_pos (by omega)]
    dsimp only
    have hfm : (read.drop pos).take 8 = read.drop pos := List.take_of_length_le (by omega)
    have hbuf : (read.drop pos).take 8 ++ mr.inp.take (8 - ((read.drop pos).take 8).length)
        = putBe32 c.data.length ++ c.fourcc := by
      rw [← h8, List.take_append_eq_append_take, hfm]
    rw [hbuf]
    have hl8 : (putBe32 c.data.length ++ c.fourcc).length = 8 := by
      simp [putBe32_length, hc.1]
    rw [if_neg (by omega), if_neg (by omega)]
    refine ⟨_, rfl, rfl, ?_, fun h => absurd hlt (by omega), fun _ => ?_⟩
    · simp [htmp]
    · simp only [htmp, List.nil_append, List.length_take, hfm]
      omega
  · rw [if_neg hlt, if_pos (by omega)]
    refine ⟨mr, ?_, rfl, by simp [htmp], fun _ => rfl, fun h => absurd h hlt⟩
    rw [← h8, List.take_append_of_le_length (by omega)]

/-! ### Keeping track of a chunk -/

theorem crcWrite_append (c : Nat) (a b : List Byte) :
    crcWrite (crcWrite c a) b = crcWrite c (a ++ b) := by
  unfold crcWrite crcFeed
  rw [List.foldl_append, Nat.xor_assoc, Nat.xor_self, Nat.xor_zero]

/-- One read below the `bufio.Reader`, when `chunk` holds at least the bytes the limit
lets through: the next `k` bytes of `chunk` are handed over and summed. -/
theorem Body.rdRead_desc (want : Nat) (b : Body) (hle : b.limit ≤ b.under.length) :
    ∃ k, k ≤ b.limit ∧ (b.rdRead want).1 = b.under.take k ∧
      (b.rdRead want).2.under = b.under.drop k ∧ (b.rdRead want).2.limit = b.limit - k ∧
      (b.rdRead want).2.mr.crc = crcWrite b.mr.crc (b.under.take k) ∧
      (b.rdRead want).2.buffered = b.buffered ∧
      (b.rdRead want).1.length = k ∧
      (0 < want → 0 < b.limit → 0 < k) ∧
      (b.limit ≤ want → (b.rdRead want).2.mem = [] ∨ k = b.limit) ∧
      (b.mem = [] → b.limit ≤ want → k = b.limit) := by
  unfold Body.rdRead
  dsimp only
  by_cases hl : b.limit = 0
  · rw [if_pos hl]
    refine ⟨0, by omega, by simp, by simp, by simp, ?_, rfl, rfl, fun _ h => by omega,
      fun _ => Or.inr hl.symm, fun _ _ => hl.symm⟩
    simp [crcWrite, crcFeed, Nat.xor_assoc]
  · rw [if_neg hl]
    by_cases hm : b.mem ≠ []
    · rw [if_pos hm]
      have hml : 0 < b.mem.length := List.length_pos.mpr hm
      have hk : (b.mem.take (min want b.limit)).length = min (min want b.limit) b.mem.length :=
        List.length_take _ _
      have hmin : b.mem.take (min (min want b.limit) b.mem.length)
          = b.mem.take (min want b.limit) ∧
          b.mem.drop (min (min want b.limit) b.mem.length) = b.mem.drop (min want b.limit) := by
        by_cases hc : min want b.limit ≤ b.mem.length
        · rw [Nat.min_eq_left hc]
          exact ⟨rfl, rfl⟩
        · rw [Nat.min_eq_right (by omega), List.take_of_length_le (Nat.le_refl _),
            List.take_of_length_le (by omega), List.drop_of_length_le (Nat.le_refl _),
            List.drop_of_length_le (by omega)]
          exact ⟨rfl, rfl⟩
      have htk : b.under.take (min (min want b.limit) b.mem.length)
          = b.mem.take (min want b.limit) := by
        unfold Body.under
        rw [List.take_append_of_le_length (by omega), hmin.1]
      have hdk : b.under.drop (min (min want b.limit) b.mem.length)
          = b.mem.drop (min want b.limit) ++ (if b.viaIn then b.mr.inp else []) := by
        unfold Body.under
        rw [List.drop_append_of_le_length (by omega), hmin.2]
      refine ⟨min (min want b.limit) b.mem.length, by omega, htk.symm, ?_, ?_, ?_, rfl, hk,
        fun _ _ => by omega, ?_, fun h => absurd h hm⟩
      · rw [hdk]; rfl
      · show b.limit - (b.mem.take _).length = _
        rw [hk]
      · show crcWrite b.mr.crc _ = _
        rw [htk]
      · intro hw
        show b.mem.drop _ = [] ∨ _
        by_cases hc : b.mem.length ≤ b.limit
        · left
          apply List.drop_of_length_le
          omega
        · right
          omega
    · rw [if_neg hm]
      have hm : b.mem = [] := by simpa using hm
      by_cases hv : b.viaIn = true
      · rw [if_pos hv]
        have hund : b.under = b.mr.inp := by
          unfold Body.under
          rw [hm, hv]
          simp
        rw [hund] at hle ⊢
        have hk : (b.mr.inp.take (min want b.limit)).length = min want b.limit := by
          rw [List.length_take]; omega
        refine ⟨min want b.limit, by omega, rfl, ?_, ?_, rfl, rfl, hk, fun _ _ => by omega,
          fun _ => Or.inr (by omega), fun _ _ => by omega⟩
        · unfold Body.under
          dsimp only
          rw [hm, hv]
          simp
        · show b.limit - (b.mr.inp.take _).length = _
          rw [hk]
      · rw [if_neg hv]
        exfalso
        have : b.under = [] := by
          unfold Body.under
          rw [hm]
          simp [hv]
        rw [this] at hle
        simp only [List.length_nil] at hle
        omega

/-- A read below the `bufio.Reader` keeps track of the chunk. -/
theorem Body.rdRead_tracks (F U : List Byte) (want : Nat) (b : Body) (h : b.Tracks F U) :
    (b.rdRead want).2.Tracks F U := by
  obtain ⟨hle, hU, pulled, hF, hcrc⟩ := h
  obtain ⟨k, hk, _, hu, hlim, hc, _, _, _, _, _⟩ := Body.rdRead_desc want b hle
  refine ⟨?_, ?_, pulled ++ b.under.take k, ?_, ?_⟩
  · rw [hu, hlim, List.length_drop]; omega
  · rw [hu, hlim, ← hU, List.drop_drop]
    congr 1
    omega
  · rw [hu, hlim, hF, List.append_assoc]
    congr 1
    conv_lhs => rw [show b.limit = k + (b.limit - k) by omega]
    rw [List.take_add]
  · rw [hc, hcrc, crcWrite_append]

theorem Body.ReadByte_tracks (F U : List Byte) (b : Body) (h : b.Tracks F U) :
    b.ReadByte.2.Tracks F U ∧
    (0 < b.buffered.length + b.limit →
      b.ReadByte.1.isSome = true ∧
        b.ReadByte.2.buffered.length + b.ReadByte.2.limit + 1 = b.buffered.length + b.limit) := by
  unfold Body.ReadByte
  rcases hb : b.buffered with _ | ⟨c, rest⟩ <;> dsimp only
  · obtain ⟨k, hk, _, _, hlim, _, hbuf, hlen, hpos, _, _⟩ := Body.rdRead_desc 4096 b h.1
    have ht := Body.rdRead_tracks F U 4096 b h
    have hfb : b.fill.buffered = (b.rdRead 4096).1 := rfl
    have hfl : b.fill.limit = (b.rdRead 4096).2.limit := rfl
    have hft : b.fill.Tracks F U := ht
    rcases hfill : b.fill.buffered with _ | ⟨c, rest⟩ <;> dsimp only
    · refine ⟨hft, fun hp => ?_⟩
      exfalso
      simp only [List.length_nil, Nat.zero_add] at hp
      have := hpos (by omega) hp
      rw [hfb] at hfill
      rw [hfill] at hlen
      simp only [List.length_nil] at hlen
      omega
    · refine ⟨hft, fun _ => ⟨rfl, ?_⟩⟩
      show rest.length + b.fill.limit + 1 = 0 + b.limit
      rw [hfb] at hfill
      rw [hfill] at hlen
      simp only [List.length_cons] at hlen
      rw [hfl, hlim]
      omega
  · exact ⟨h, fun _ => ⟨rfl, by simp only [List.length_cons]; omega⟩⟩

theorem Body.Discard_tracks (F U : List Byte) (n : Nat) :
    ∀ b : Body, b.Tracks F U → n ≤ b.buffered.length + b.limit →
      (b.Discard n).1 = true ∧ (b.Discard n).2.Tracks F U ∧
        (b.Discard n).2.buffered.length + (b.Discard n).2.limit + n
          = b.buffered.length + b.limit := by
  induction n with
  | zero => intro b h _; exact ⟨rfl, h, rfl⟩
  | succ n ih =>
    intro b h hn
    obtain ⟨ht, hs⟩ := Body.ReadByte_tracks F U b h
    obtain ⟨hsome, hcount⟩ := hs (by omega)
    unfold Body.Discard
    rcases hrb : b.ReadByte with ⟨_ | c, b1⟩ <;> rw [hrb] at ht hsome hcount
      <;> dsimp only at ht hsome hcount ⊢
    · simp at hsome
    · obtain ⟨h1, h2, h3⟩ := ih b1 ht (by omega)
      exact ⟨h1, h2, by omega⟩

/-- Reading `body` to its end leaves nothing under the limit. -/
theorem Body.ReadAll_tracks (F U : List Byte) (b : Body) (h : b.Tracks F U) :
    b.ReadAll.2.Tracks F U ∧ b.ReadAll.2.limit = 0 := by
  unfold Body.ReadAll
  dsimp only
  have h0 : ({ b with buffered := [] } : Body).Tracks F U := h
  obtain ⟨k1, hk1, _, _, hlim1, _, _, _, _, hall1, _⟩ :=
    Body.rdRead_desc b.limit { b with buffered := [] } h0.1
  have h1 := Body.rdRead_tracks F U b.limit _ h0
  obtain ⟨k2, hk2, _, _, hlim2, _, _, _, _, _, hall2⟩ :=
    Body.rdRead_desc ({ b with buffered := [] }.rdRead b.limit).2.limit _ h1.1
  have h2 := Body.rdRead_tracks F U ({ b with buffered := [] }.rdRead b.limit).2.limit _ h1
  refine ⟨h2, ?_⟩
  rw [hlim2]
  have hlim1' : ({ b with buffered := [] }.rdRead b.limit).2.limit = b.limit - k1 := hlim1
  rcases hall1 (Nat.le_refl _) with hm | hk
  · have := hall2 hm (Nat.le_refl _)
    rw [← this]
    exact Nat.sub_self _
  · have hk : k1 = b.limit := hk
    rw [hlim1', hk, Nat.sub_self]
    exact Nat.zero_sub _

theorem Body.chunkReadFull_desc (n : Nat) (b : Body) :
    (b.chunkReadFull n).1 = b.under.take n ∧ (b.chunkReadFull n).2.mr.crc = b.mr.crc ∧
      (b.chunkReadFull n).2.mr.iccp = b.mr.iccp ∧ (b.chunkReadFull n).2.mr.exif = b.mr.exif ∧
      (b.chunkReadFull n).2.mr.xmp = b.mr.xmp := by
  unfold Body.chunkReadFull Body.under
  dsimp only
  split
  · rename_i hv
    refine ⟨?_, rfl, rfl, rfl, rfl⟩
    have hn : n - (b.mem.take n).length = n - b.mem.length := by
      rw [List.length_take]; omega
    rw [List.take_append_eq_append_take, hn]
  · rename_i hv
    refine ⟨?_, rfl, rfl, rfl, rfl⟩
    simp [hv]

/-- The checksum test on a chunk that was read to its end: the stored bytes are
compared with the CRC-32 of code and data. -/
theorem verifyChecksum_tracks (F U : List Byte) (stored tail : List Byte) (b : Body)
    (h : b.Tracks F U) (hl : b.limit = 0) (hU : U = stored ++ tail) (hs : stored.length = 4) :
    (verifyChecksum b).1 = .ok (be32 stored == crc32 F) ∧
      (verifyChecksum b).2.mr.iccp = b.mr.iccp ∧ (verifyChecksum b).2.mr.exif = b.mr.exif ∧
      (verifyChecksum b).2.mr.xmp = b.mr.xmp := by
  obtain ⟨_, hdrop, pulled, hF, hcrc⟩ := h
  rw [hl, List.drop_zero] at hdrop
  rw [hl, List.take_zero, List.append_nil] at hF
  obtain ⟨h1, h2, h3, h4, h5⟩ := Body.chunkReadFull_desc 4 b
  have ht : (b.chunkReadFull 4).1 = stored := by
    rw [h1, hdrop, hU, List.take_left' hs]
  unfold verifyChecksum
  dsimp only
  rw [ht, hs, if_neg (by omega), if_neg (by omega)]
  refine ⟨?_, h3, h4, h5⟩
  show Except.ok (be32 stored == (b.chunkReadFull 4).2.mr.crc) = _
  rw [h2, hcrc, ← hF]
  rfl

theorem Chunk.encode_drop4 (c : Chunk) : c.encode.drop 4 = c.fourcc ++ c.data ++ c.crc := by
  unfold Chunk.encode
  rw [List.append_assoc, List.append_assoc, List.drop_left' (putBe32_length _),
    List.append_assoc]

/-- The reader `prepareChunkReader` builds for a chunk whose header lies in `read`:
`chunk` delivers the code, the data and the stored checksum of the chunk. -/
theorem prepareChunkReader_desc (mr : MetaReader) (pos : Nat) (read : List Byte) (c : Chunk)
    (rest : List Byte) (hc : c.wellFormed) (hpos : pos + 8 ≤ read.length)
    (hstream : read.drop pos ++ mr.inp = c.encode ++ rest)
    (hream : mr.reaming = (read.length : Int) - (pos : Int) - ((c.data.length : Int) + 12)) :
    ∃ body0 tail, prepareChunkReader mr pos c.data.length read = some body0 ∧
      body0.mr = { mr with crc := 0 } ∧ body0.buffered = [] ∧
      body0.limit = c.data.length + 4 ∧
      body0.under = c.fourcc ++ c.data ++ c.crc ++ tail := by
  have hm1 : (c.data.length + 4) % 4294967296 = c.data.length + 4 :=
    Nat.mod_eq_of_lt (by have := hc.2.2; omega)
  have hm2 : (c.data.length + 8 + 4) % 4294967296 = c.data.length + 12 :=
    Nat.mod_eq_of_lt (by have := hc.2.2; omega)
  have hlen := Chunk.encode_length c hc
  have hdl : (read.drop pos).length = read.length - pos := List.length_drop _ _
  unfold prepareChunkReader
  dsimp only
  by_cases hneg : mr.reaming < 0
  · rw [if_pos hneg, if_pos (by omega)]
    refine ⟨_, rest, rfl, rfl, rfl, hm1, ?_⟩
    unfold Body.under
    dsimp only
    have h1 : read.drop (pos + 4) ++ mr.inp = (read.drop pos ++ mr.inp).drop 4 := by
      rw [List.drop_append_of_le_length (by omega), List.drop_drop]
    have h2 : (c.encode ++ rest).drop 4 = c.encode.drop 4 ++ rest :=
      List.drop_append_of_le_length (by omega)
    rw [if_pos rfl, h1, hstream, h2, Chunk.encode_drop4]
  · rw [if_neg hneg, hm2, if_pos (by omega)]
    refine ⟨_, [], rfl, rfl, rfl, hm1, ?_⟩
    unfold Body.under
    dsimp only
    have htake : (read.drop pos).take (c.data.length + 12) = c.encode := by
      have h1 : (read.drop pos ++ mr.inp).take (c.data.length + 12) = c.encode := by
        rw [hstream, ← hlen]
        exact List.take_left' rfl
      rwa [List.take_append_of_le_length (by omega)] at h1
    have : (read.take (pos + (c.data.length + 12))).drop (pos + 4) = c.encode.drop 4 := by
      rw [← htake, List.take_drop, ← List.drop_drop]
    rw [this, Chunk.encode_drop4]
    simp

theorem Body.fill_avail (F U : List Byte) (b : Body) (h : b.Tracks F U) (hb : b.buffered = []) :
    b.fill.avail = b.avail ∧ (b.fill.buffered = [] → b.avail = []) := by
  obtain ⟨k, hk, h1, hu, hlim, _, _, hlen, hpos, _, _⟩ := Body.rdRead_desc 4096 b h.1
  have e1 : b.fill.avail
      = (b.rdRead 4096).1 ++ (b.rdRead 4096).2.under.take (b.rdRead 4096).2.limit := rfl
  have e2 : b.avail = b.buffered ++ b.under.take b.limit := rfl
  have e3 : b.fill.buffered = (b.rdRead 4096).1 := rfl
  constructor
  · rw [e1, e2, h1, hu, hlim, hb, List.nil_append]
    conv_rhs => rw [show b.limit = k + (b.limit - k) by omega]
    rw [List.take_add]
  · intro hf
    rw [e3] at hf
    rw [hf] at hlen
    simp only [List.length_nil] at hlen
    have hl0 : b.limit = 0 := by
      by_contra hne
      have := hpos (by omega) (by omega)
      omega
    rw [e2, hb, hl0]
    rfl

theorem Body.ReadByte_avail (F U : List Byte) (b : Body) (h : b.Tracks F U) :
    b.ReadByte.1 = b.avail.head? ∧ b.ReadByte.2.avail = b.avail.tail := by
  have e2 : b.avail = b.buffered ++ b.under.take b.limit := rfl
  unfold Body.ReadByte
  rcases hb : b.buffered with _ | ⟨c, rest⟩ <;> dsimp only
  · obtain ⟨hfa, hfe⟩ := Body.fill_avail F U b h hb
    have e1 : b.fill.avail = b.fill.buffered ++ b.fill.under.take b.fill.limit := rfl
    rcases hf : b.fill.buffered with _ | ⟨c, rest⟩ <;> dsimp only
    · rw [hfa, hfe hf]
      exact ⟨rfl, rfl⟩
    · rw [← hfa, e1, hf]
      exact ⟨rfl, rfl⟩
  · rw [e2, hb]
    exact ⟨rfl, rfl⟩

theorem Body.ReadByte_sim (F U F' U' : List Byte) (b b' : Body) (h : Body.Sim F U F' U' b b') :
    b.ReadByte.1 = b'.ReadByte.1 ∧ Body.Sim F U F' U' b.ReadByte.2 b'.ReadByte.2 := by
  obtain ⟨h1, h2, h3⟩ := h
  obtain ⟨a1, a2⟩ := Body.ReadByte_avail F U b h1
  obtain ⟨c1, c2⟩ := Body.ReadByte_avail F' U' b' h2
  exact ⟨by rw [a1, c1, h3], (Body.ReadByte_tracks F U b h1).1, (Body.ReadByte_tracks F' U' b' h2).1,
    by rw [a2, c2, h3]⟩

theorem Body.Discard_avail (F U : List Byte) (n : Nat) :
    ∀ b : Body, b.Tracks F U →
      (b.Discard n).2.Tracks F U ∧ (b.Discard n).2.avail = b.avail.drop n := by
  induction n with
  | zero => intro b h; exact ⟨h, rfl⟩
  | succ n ih =>
    intro b h
    obtain ⟨a1, a2⟩ := Body.ReadByte_avail F U b h
    have ht := (Body.ReadByte_tracks F U b h).1
    unfold Body.Discard
    rcases hrb : b.ReadByte with ⟨_ | c, b1⟩ <;> rw [hrb] at a1 a2 ht <;> dsimp only at a1 a2 ht ⊢
    · refine ⟨ht, ?_⟩
      rw [a2]
      rcases hav : b.avail with _ | ⟨x, t⟩
      · rfl
      · rw [hav] at a1; simp at a1
    · obtain ⟨i1, i2⟩ := ih b1 ht
      refine ⟨i1, ?_⟩
      rw [i2, a2]
      cases b.avail <;> simp

theorem Body.Discard_sim (F U F' U' : List Byte) (n : Nat) (b b' : Body)
    (h : Body.Sim F U F' U' b b') :
    Body.Sim F U F' U' (b.Discard n).2 (b'.Discard n).2 := by
  obtain ⟨h1, h2, h3⟩ := h
  obtain ⟨a1, a2⟩ := Body.Discard_avail F U n b h1
  obtain ⟨c1, c2⟩ := Body.Discard_avail F' U' n b' h2
  exact ⟨a1, c1, by rw [a2, c2, h3]⟩

theorem Body.ReadAll_avail (F U : List Byte) (b : Body) (h : b.Tracks F U) :
    b.ReadAll.1 = b.avail ∧ b.ReadAll.2.avail = [] := by
  obtain ⟨_, hl0⟩ := Body.ReadAll_tracks F U b h
  have e2 : b.avail = b.buffered ++ b.under.take b.limit := rfl
  have e3 : b.ReadAll.2.avail = b.ReadAll.2.buffered ++ b.ReadAll.2.under.take b.ReadAll.2.limit :=
    rfl
  rw [e3, hl0]
  unfold Body.ReadAll at hl0 ⊢
  dsimp only at hl0 ⊢
  have h0 : ({ b with buffered := [] } : Body).Tracks F U := h
  obtain ⟨k1, hk1, hv1, hu1, hlim1, _, hb1, _, _, _, _⟩ :=
    Body.rdRead_desc b.limit { b with buffered := [] } h0.1
  have h1 := Body.rdRead_tracks F U b.limit _ h0
  obtain ⟨k2, hk2, hv2, _, hlim2, _, hb2, _, _, _, _⟩ :=
    Body.rdRead_desc ({ b with buffered := [] }.rdRead b.limit).2.limit _ h1.1
  have hu0 : ({ b with buffered := [] } : Body).under = b.under := rfl
  have hl1 : ({ b with buffered := [] } : Body).limit = b.limit := rfl
  rw [hu0] at hv1 hu1
  rw [hl1] at hk1 hlim1
  rw [hlim2, hlim1] at hl0
  rw [hlim1] at hk2
  constructor
  · rw [hv1, hv2, hu1, e2, List.append_assoc]
    congr 1
    conv_rhs => rw [show b.limit = k1 + k2 by omega]
    rw [List.take_add]
  · rw [hb2, hb1]
    rfl

theorem Body.ReadAll_sim (F U F' U' : List Byte) (b b' : Body) (h : Body.Sim F U F' U' b b') :
    b.ReadAll.1 = b'.ReadAll.1 ∧ Body.Sim F U F' U' b.ReadAll.2 b'.ReadAll.2 := by
  obtain ⟨h1, h2, h3⟩ := h
  obtain ⟨a1, a2⟩ := Body.ReadAll_avail F U b h1
  obtain ⟨c1, c2⟩ := Body.ReadAll_avail F' U' b' h2
  exact ⟨by rw [a1, c1, h3], (Body.ReadAll_tracks F U b h1).1, (Body.ReadAll_tracks F' U' b' h2).1,
    by rw [a2, c2]⟩

theorem Body.zlibReadAll_sim (flate : List Byte → Option (List Byte) × Nat)
    (F U F' U' : List Byte) (b b' : Body) (h : Body.Sim F U F' U' b b') :
    (b.zlibReadAll flate).1 = (b'.zlibReadAll flate).1 ∧
      Body.Sim F U F' U' (b.zlibReadAll flate).2 (b'.zlibReadAll flate).2 := by
  have ha := h.2.2
  unfold Body.zlibReadAll
  rw [ha]
  rcases b'.avail with _ | ⟨x, _ | ⟨y, t⟩⟩ <;> dsimp only
  · exact ⟨rfl, h⟩
  · exact ⟨rfl, Body.Discard_sim F U F' U' 1 b b' h⟩
  · split
    · have hs := Body.Discard_sim F U F' U' (flate (x :: y :: t)).2 b b' h
      rcases (flate (x :: y :: t)).1 with _ | v <;> exact ⟨rfl, hs⟩
    · exact ⟨rfl, Body.Discard_sim F U F' U' 2 b b' h⟩

theorem readCStrLoop_sim (F U F' U' : List Byte) (k : Nat) :
    ∀ (b b' : Body) (str : List Byte), Body.Sim F U F' U' b b' →
      (readCStrLoop k b str).1 = (readCStrLoop k b' str).1 ∧
        Body.Sim F U F' U' (readCStrLoop k b str).2 (readCStrLoop k b' str).2 := by
  induction k with
  | zero => intro b b' str h; exact ⟨rfl, h⟩
  | succ k ih =>
    intro b b' str h
    obtain ⟨h1, h2⟩ := Body.ReadByte_sim F U F' U' b b' h
    unfold readCStrLoop
    obtain ⟨r, b1, hr⟩ : ∃ r b1, b.ReadByte = (r, b1) := ⟨_, _, rfl⟩
    obtain ⟨r', b1', hr'⟩ : ∃ r b1, b'.ReadByte = (r, b1) := ⟨_, _, rfl⟩
    rw [hr, hr'] at h1 h2 ⊢
    dsimp only at h1 h2
    subst h1
    cases r with
    | none => exact ⟨rfl, h2⟩
    | some c =>
      dsimp only
      split
      · exact ⟨rfl, h2⟩
      · exact ih b1 b1' _ h2

theorem readCStr_sim (F U F' U' : List Byte) (b b' : Body) (lim : Int)
    (h : Body.Sim F U F' U' b b') :
    (readCStr b lim).1 = (readCStr b' lim).1 ∧
      Body.Sim F U F' U' (readCStr b lim).2 (readCStr b' lim).2 :=
  readCStrLoop_sim F U F' U' _ b b' [] h

theorem readMethod_sim (F U F' U' : List Byte) (com : Byte) (b b' : Body)
    (h : Body.Sim F U F' U' b b') :
    (readMethod com b).1 = (readMethod com b').1 ∧
      Body.Sim F U F' U' (readMethod com b).2 (readMethod com b').2 := by
  unfold readMethod
  split
  · obtain ⟨h1, h2⟩ := Body.ReadByte_sim F U F' U' b b' h
    obtain ⟨r, b1, hr⟩ : ∃ r b1, b.ReadByte = (r, b1) := ⟨_, _, rfl⟩
    obtain ⟨r', b1', hr'⟩ : ∃ r b1, b'.ReadByte = (r, b1) := ⟨_, _, rfl⟩
    rw [hr, hr'] at h1 h2 ⊢
    dsimp only at h1 h2
    subst h1
    cases r with
    | none => exact ⟨rfl, h2⟩
    | some m =>
      dsimp only
      split <;> exact ⟨rfl, h2⟩
  · exact ⟨rfl, h⟩

theorem parseZTXt_sim (flate : List Byte → Option (List Byte) × Nat)
    (F U F' U' : List Byte) (b b' : Body) (h : Body.Sim F U F' U' b b') :
    (parseZTXt flate b).1 = (parseZTXt flate b').1 ∧
      Body.Sim F U F' U' (parseZTXt flate b).2 (parseZTXt flate b').2 := by
  unfold parseZTXt
  obtain ⟨h1, h2⟩ := readCStr_sim F U F' U' b b' 79 h
  obtain ⟨r, b1, hr⟩ : ∃ r b1, readCStr b 79 = (r, b1) := ⟨_, _, rfl⟩
  obtain ⟨r', b1', hr'⟩ : ∃ r b1, readCStr b' 79 = (r, b1) := ⟨_, _, rfl⟩
  rw [hr, hr'] at h1 h2 ⊢
  dsimp only at h1 h2
  subst h1
  cases r with
  | none => exact ⟨rfl, h2⟩
  | some key =>
    dsimp only
    obtain ⟨h3, h4⟩ := Body.ReadByte_sim F U F' U' b1 b1' h2
    obtain ⟨m, b2, hm⟩ : ∃ r b2, b1.ReadByte = (r, b2) := ⟨_, _, rfl⟩
    obtain ⟨m', b2', hm'⟩ : ∃ r b2, b1'.ReadByte = (r, b2) := ⟨_, _, rfl⟩
    rw [hm, hm'] at h3 h4 ⊢
    dsimp only at h3 h4
    subst h3
    cases m with
    | none => exact ⟨rfl, h4⟩
    | some m =>
      dsimp only
      split
      · exact ⟨rfl, h4⟩
      · obtain ⟨h5, h6⟩ := Body.zlibReadAll_sim flate F U F' U' b2 b2' h4
        obtain ⟨v, b3, hv⟩ : ∃ r b3, b2.zlibReadAll flate = (r, b3) := ⟨_, _, rfl⟩
        obtain ⟨v', b3', hv'⟩ : ∃ r b3, b2'.zlibReadAll flate = (r, b3) := ⟨_, _, rfl⟩
        rw [hv, hv'] at h5 h6 ⊢
        dsimp only at h5 h6
        subst h5
        cases v with
        | error e => exact ⟨rfl, h6⟩
        | ok value => exact ⟨rfl, h6⟩

theorem parseITXt_sim (flate : List Byte → Option (List Byte) × Nat)
    (F U F' U' : List Byte) (b b' : Body) (h : Body.Sim F U F' U' b b') :
    (parseITXt flate b).1 = (parseITXt flate b').1 ∧
      Body.Sim F U F' U' (parseITXt flate b).2 (parseITXt flate b').2 := by
  unfold parseITXt
  obtain ⟨h1, h2⟩ := readCStr_sim F U F' U' b b' 79 h
  obtain ⟨r, b1, hr⟩ : ∃ r b1, readCStr b 79 = (r, b1) := ⟨_, _, rfl⟩
  obtain ⟨r', b1', hr'⟩ : ∃ r b1, readCStr b' 79 = (r, b1) := ⟨_, _, rfl⟩
  rw [hr, hr'] at h1 h2 ⊢
  dsimp only at h1 h2
  subst h1
  cases r with
  | none => exact ⟨rfl, h2⟩
  | some key =>
    dsimp only
    obtain ⟨h3, h4⟩ := Body.ReadByte_sim F U F' U' b1 b1' h2
    obtain ⟨m, b2, hm⟩ : ∃ r b2, b1.ReadByte = (r, b2) := ⟨_, _, rfl⟩
    obtain ⟨m', b2', hm'⟩ : ∃ r b2, b1'.ReadByte = (r, b2) := ⟨_, _, rfl⟩
    rw [hm, hm'] at h3 h4 ⊢
    dsimp only at h3 h4
    subst h3
    cases m with
    | none => exact ⟨rfl, h4⟩
    | some com =>
      dsimp only
      obtain ⟨h5, h6⟩ := readMethod_sim F U F' U' com b2 b2' h4
      obtain ⟨e, b3, he⟩ : ∃ r b3, readMethod com b2 = (r, b3) := ⟨_, _, rfl⟩
      obtain ⟨e', b3', he'⟩ : ∃ r b3, readMethod com b2' = (r, b3) := ⟨_, _, rfl⟩
      rw [he, he'] at h5 h6 ⊢
      dsimp only at h5 h6
      subst h5
      cases e with
      | some e => exact ⟨rfl, h6⟩
      | none =>
        dsimp only
        obtain ⟨h7, h8⟩ := readCStr_sim F U F' U' b3 b3' (-1) h6
        obtain ⟨l, b4, hl⟩ : ∃ r b4, readCStr b3 (-1) = (r, b4) := ⟨_, _, rfl⟩
        obtain ⟨l', b4', hl'⟩ : ∃ r b4, readCStr b3' (-1) = (r, b4) := ⟨_, _, rfl⟩
        rw [hl, hl'] at h7 h8 ⊢
        dsimp only at h7 h8
        subst h7
        cases l with
        | none => exact ⟨rfl, h8⟩
        | some languageTag =>
          dsimp only
          obtain ⟨h9, h10⟩ := readCStr_sim F U F' U' b4 b4' (-1) h8
          obtain ⟨t, b5, ht⟩ : ∃ r b5, readCStr b4 (-1) = (r, b5) := ⟨_, _, rfl⟩
          obtain ⟨t', b5', ht'⟩ : ∃ r b5, readCStr b4' (-1) = (r, b5) := ⟨_, _, rfl⟩
          rw [ht, ht'] at h9 h10 ⊢
          dsimp only at h9 h10
          subst h9
          cases t with
          | none => exact ⟨rfl, h10⟩
          | some translatedKeyword =>
            dsimp only
            split
            · obtain ⟨h11, h12⟩ := Body.zlibReadAll_sim flate F U F' U' b5 b5' h10
              obtain ⟨v, b6, hv⟩ : ∃ r b6, b5.zlibReadAll flate = (r, b6) := ⟨_, _, rfl⟩
              obtain ⟨v', b6', hv'⟩ : ∃ r b6, b5'.zlibReadAll flate = (r, b6) := ⟨_, _, rfl⟩
              rw [hv, hv'] at h11 h12 ⊢
              dsimp only at h11 h12
              subst h11
              cases v with
              | error e => exact ⟨rfl, h12⟩
              | ok text => exact ⟨rfl, h12⟩
            · obtain ⟨h11, h12⟩ := Body.ReadAll_sim F U F' U' b5 b5' h10
              dsimp only
              rw [h11]
              exact ⟨rfl, h12⟩

theorem bodyParse_sim (flate : List Byte → Option (List Byte) × Nat) (k : Kind)
    (F U F' U' : List Byte) (b b' : Body) (h : Body.Sim F U F' U' b b') :
    (bodyParse flate k b).1 = (bodyParse flate k b').1 ∧
      Body.Sim F U F' U' (bodyParse flate k b).2 (bodyParse flate k b').2 := by
  cases k with
  | iCCP =>
    unfold bodyParse
    dsimp only
    obtain ⟨h1, h2⟩ := parseZTXt_sim flate F U F' U' b b' h
    obtain ⟨r, b1, hr⟩ : ∃ r b1, parseZTXt flate b = (r, b1) := ⟨_, _, rfl⟩
    obtain ⟨r', b1', hr'⟩ : ∃ r b1, parseZTXt flate b' = (r, b1) := ⟨_, _, rfl⟩
    rw [hr, hr'] at h1 h2 ⊢
    dsimp only at h1 h2
    subst h1
    cases r with
    | error e => exact ⟨rfl, h2⟩
    | ok kv => exact ⟨rfl, h2⟩
  | eXIf =>
    unfold bodyParse
    dsimp only
    obtain ⟨h1, h2⟩ := Body.ReadAll_sim F U F' U' b b' h
    rw [h1]
    exact ⟨rfl, h2⟩
  | iTXt =>
    unfold bodyParse
    dsimp only
    obtain ⟨h1, h2⟩ := parseITXt_sim flate F U F' U' b b' h
    obtain ⟨r, b1, hr⟩ : ∃ r b1, parseITXt flate b = (r, b1) := ⟨_, _, rfl⟩
    obtain ⟨r', b1', hr'⟩ : ∃ r b1, parseITXt flate b' = (r, b1) := ⟨_, _, rfl⟩
    rw [hr, hr'] at h1 h2 ⊢
    dsimp only at h1 h2
    subst h1
    cases r with
    | error e => exact ⟨rfl, h2⟩
    | ok c =>
      dsimp only
      split <;> exact ⟨rfl, h2⟩

theorem classify_codeKind (mr : MetaReader) (f : List Byte) (k : Kind)
    (h : classify mr f = some k) : codeKind f = some k := by
  unfold classify at h
  unfold codeKind
  split at h
  · rename_i h1
    rw [if_pos h1.1]
    exact h
  · split at h
    · rename_i h1 h2
      have hne : ¬ f = fourccICCP := by
        rw [h2.1]; decide
      rw [if_neg hne, if_pos h2.1]
      exact h
    · split at h
      · rename_i h1 h2 h3
        have hne : ¬ f = fourccICCP := by
          rw [h3]; decide
        have hne2 : ¬ f = fourccEXIF := by
          rw [h3]; decide
        rw [if_neg hne, if_neg hne2, if_pos h3]
        exact h
      · simp at h

theorem Chunk.body_tracks (c : Chunk) : c.body.Tracks c.data [] ∧ c.body.avail = c.data := by
  refine ⟨⟨?_, ?_, [], ?_, rfl⟩, ?_⟩
  · show c.data.length ≤ (c.data ++ []).length
    simp
  · show (c.data ++ []).drop c.data.length = []
    simp
  · show c.data = [] ++ (c.data ++ []).take c.data.length
    simp
  · show [] ++ (c.data ++ []).take c.data.length = c.data
    simp

/-- A recognised chunk that parses, with its header in `read`: `parseChunk` accepts it
wherever `read` ends. -/
theorem parseRecognised_valid (flate : List Byte → Option (List Byte) × Nat) (k : Kind)
    (mr : MetaReader) (pos : Nat) (read : List Byte) (c : Chunk) (rest : List Byte)
    (hc : c.wellFormed) (hpos : pos + 8 ≤ read.length)
    (hstream : read.drop pos ++ mr.inp = c.encode ++ rest)
    (hream : mr.reaming = (read.length : Int) - (pos : Int) - ((c.data.length : Int) + 12))
    (hk : codeKind c.fourcc = some k) (hp : c.parses flate = true) :
    (parseRecognised flate k mr pos c.data.length read).1 = none := by
  obtain ⟨body0, tail, hb0, hmr0, hbuf0, hlim0, hund0⟩ :=
    prepareChunkReader_desc mr pos read c rest hc hpos hstream hream
  have hfl : (c.fourcc ++ c.data).length = c.data.length + 4 := by
    rw [List.length_append, hc.1]; omega
  have htr0 : body0.Tracks (c.fourcc ++ c.data) (c.crc ++ tail) := by
    refine ⟨?_, ?_, [], ?_, ?_⟩
    · rw [hund0, hlim0]
      simp only [List.length_append, hc.1]
      omega
    · rw [hund0, hlim0, List.append_assoc, ← hfl, List.drop_left]
    · rw [hund0, hlim0, List.append_assoc, ← hfl, List.take_left]
      rfl
    · rw [hmr0]
      rfl
  have hav0 : body0.avail = c.fourcc ++ c.data := by
    show body0.buffered ++ body0.under.take body0.limit = _
    rw [hbuf0, hund0, hlim0, List.append_assoc, ← hfl, List.take_left]
    rfl
  obtain ⟨hd1, hd2, _⟩ := Body.Discard_tracks _ _ 4 body0 htr0 (by rw [hlim0]; omega)
  have hav1 : (body0.Discard 4).2.avail = c.data := by
    rw [(Body.Discard_avail _ _ 4 body0 htr0).2, hav0, ← hc.1, List.drop_left]
  obtain ⟨hbt, hba⟩ := Chunk.body_tracks c
  unfold Chunk.parses at hp
  rw [hk] at hp
  simp only [Bool.and_eq_true, beq_iff_eq, List.isEmpty_iff] at hp
  obtain ⟨⟨hcrc, hok⟩, hemp⟩ := hp
  unfold parseRecognised
  rw [hb0]
  dsimp only
  obtain ⟨ok, b1, hr1⟩ : ∃ ok b1, body0.Discard 4 = (ok, b1) := ⟨_, _, rfl⟩
  rw [hr1] at hd1 hd2 hav1 ⊢
  dsimp only at hd1 hd2 hav1
  subst hd1
  dsimp only
  obtain ⟨hs1, hs2, hs3, hs4⟩ := bodyParse_sim flate k _ _ _ _ b1 c.body
    ⟨hd2, hbt, hav1.trans hba.symm⟩
  rw [hemp] at hs4
  obtain ⟨r, b2, hr2⟩ : ∃ r b2, bodyParse flate k b1 = (r, b2) := ⟨_, _, rfl⟩
  rw [hr2] at hs1 hs2 hs4 ⊢
  dsimp only at hs1 hs2 hs4
  rw [← hs1] at hok
  cases r with
  | error e => simp [Except.isOk, Except.toBool] at hok
  | ok tagData =>
    dsimp only
    have hl2 : b2.limit = 0 := by
      have e2 : b2.avail = b2.buffered ++ b2.under.take b2.limit := rfl
      rw [e2] at hs4
      have h0 := congrArg List.length hs4
      simp only [List.length_append, List.length_take, List.length_nil] at h0
      have := hs2.1
      omega
    obtain ⟨hv, -⟩ := verifyChecksum_tracks _ _ c.crc tail b2 hs2 hl2 rfl hc.2.1
    rw [hcrc] at hv
    simp only [beq_self_eq_true] at hv
    obtain ⟨r3, b3, hr3⟩ : ∃ r3 b3, verifyChecksum b2 = (r3, b3) := ⟨_, _, rfl⟩
    rw [hr3] at hv ⊢
    dsimp only at hv
    subst hv
    dsimp only
    split <;> rfl

theorem parseChunkLoop_exit (flate : List Byte → Option (List Byte) × Nat) (cs : List Chunk)
    (fuel : Nat) (mr : MetaReader) (pos : Nat) (read : List Byte)
    (h0 : mr.reaming ≤ 0) (htmp : (mr.tmp.length : Int) ≤ -mr.reaming) :
    LoopPost flate cs mr (parseChunkLoop flate (fuel + 1) mr pos read) := by
  unfold parseChunkLoop
  rw [if_pos h0]
  refine ⟨fun e h => by simp at h, rfl, fun _ => ⟨?_, htmp, [], cs, rfl, ?_⟩, fun _ => rfl⟩
  · show 0 ≤ -mr.reaming
    omega
  · show -mr.reaming + mr.reaming = ((encodeChunks []).length : Int)
    simp [encodeChunks]

theorem parseChunkLoop_spec (flate : List Byte → Option (List Byte) × Nat) (cs : List Chunk) :
    ∀ (fuel : Nat) (mr : MetaReader) (pos : Nat) (read : List Byte),
      (∀ c ∈ cs, c.wellFormed) →
      (read ++ (mr.tmp ++ mr.inp)).drop pos = encodeChunks cs →
      mr.reaming + (pos : Int) = (read.length : Int) →
      (0 < mr.reaming → mr.tmp = []) →
      (mr.reaming ≤ 0 → (mr.tmp.length : Int) ≤ -mr.reaming) →
      mr.reaming < (fuel : Int) → 0 < fuel →
      (∀ s ∈ metaHeaderStarts 0 cs, ¬ ((s : Int) < mr.reaming ∧ mr.reaming < (s : Int) + 8)) →
      LoopPost flate cs mr (parseChunkLoop flate fuel mr pos read) := by
  induction cs with
  | nil =>
    intro fuel mr pos read _ hstream hream _ hneg _ hfuel _
    obtain ⟨fuel, rfl⟩ : ∃ f, fuel = f + 1 := ⟨fuel - 1, by omega⟩
    have h0 : mr.reaming ≤ 0 := by
      have := congrArg List.length hstream
      simp only [List.length_drop, List.length_append, encodeChunks, List.length_nil] at this
      omega
    exact parseChunkLoop_exit flate [] fuel mr pos read h0 (hneg h0)
  | cons c cs ih =>
    intro fuel mr pos read hwf hstream hream hpos hneg hfl hfuel hsplit
    obtain ⟨fuel, rfl⟩ : ∃ f, fuel = f + 1 := ⟨fuel - 1, by omega⟩
    by_cases h0 : mr.reaming ≤ 0
    · exact parseChunkLoop_exit flate _ fuel mr pos read h0 (hneg h0)
    · have hc := hwf c (List.mem_cons_self _ _)
      have hwf' : ∀ c' ∈ cs, c'.wellFormed := fun c' h => hwf c' (List.mem_cons_of_mem _ h)
      have htmp : mr.tmp = [] := hpos (by omega)
      have hclen := Chunk.encode_length c hc
      have hple : pos ≤ read.length := by omega
      have hst : read.drop pos ++ mr.inp = c.encode ++ encodeChunks cs := by
        rw [← encodeChunks, ← hstream, htmp, List.nil_append, List.drop_append_of_le_length hple]
      obtain ⟨mr1, hrh, hr1, hs1, hge1, hlt1⟩ :=
        readHeader_spec mr pos read c (encodeChunks cs) hc htmp hst hream (by omega)
      have hdl : be32 ((putBe32 c.data.length ++ c.fourcc).take 4) = c.data.length := by
        rw [List.take_append_of_le_length (by simp [putBe32_length]),
          List.take_of_length_le (by simp [putBe32_length])]
        exact be32_putBe32 _ (by have := hc.2.2; omega)
      have hfc : (putBe32 c.data.length ++ c.fourcc).drop 4 = c.fourcc := by
        rw [List.drop_append_of_le_length (by simp [putBe32_length]),
          List.drop_of_length_le (by simp [putBe32_length])]
        rfl
      have hdelta : (c.data.length + 8 + 4) % 4294967296 = c.data.length + 12 :=
        Nat.mod_eq_of_lt (by have := hc.2.2; omega)
      -- the stream after this chunk
      have hnext : ∀ (t i : List Byte), t ++ i = mr.inp →
          (read ++ (t ++ i)).drop (pos + (c.data.length + 12)) = encodeChunks cs := by
        intro t i hti
        rw [hti, ← List.drop_drop, List.drop_append_of_le_length hple, hst, ← hclen,
          List.drop_left]
      have hsplit' : ∀ s ∈ metaHeaderStarts 0 cs,
          ¬ ((s : Int) < mr.reaming - ((c.data.length + 12 : Nat) : Int) ∧
            mr.reaming - ((c.data.length + 12 : Nat) : Int) < (s : Int) + 8) := by
        intro s hs
        have := metaHeaderStarts_shift (c.data.length + 12) cs 0 s hs
        have hmem : s + (c.data.length + 12) ∈ metaHeaderStarts 0 (c :: cs) := by
          unfold metaHeaderStarts
          apply List.mem_append_right
          rw [hclen]
          simpa using this
        have := hsplit _ hmem
        push_cast at this ⊢
        omega
      -- the conclusion for the whole list, from that for the rest
      have lift : ∀ (mrn : MetaReader) (r : Option Err × MetaReader),
          mrn.tmp ++ mrn.inp = mr.inp →
          mrn.reaming = mr.reaming - ((c.data.length + 12 : Nat) : Int) →
          LoopPost flate cs mrn r → LoopPost flate (c :: cs) mr r := by
        intro mrn r hsn hrn hp
        refine ⟨hp.1, ?_, ?_, ?_⟩
        · rw [hp.2.1, hsn, htmp]; rfl
        · intro hnone
          obtain ⟨h1, h2, pre, post, hpp, hsum⟩ := hp.2.2.1 hnone
          refine ⟨h1, h2, c :: pre, post, by rw [hpp]; rfl, ?_⟩
          simp only [encodeChunks, List.length_append, hclen]
          push_cast at hsum hrn ⊢
          omega
        · intro hm
          exact hp.2.2.2 (fun c' h => hm c' (List.mem_cons_of_mem _ h))
      unfold parseChunkLoop
      rw [if_neg h0, hrh]
      dsimp only
      rw [hdl, hfc, hdelta]
      rcases hcl : classify { mr1 with reaming := mr1.reaming - ((c.data.length + 12 : Nat) : Int) }
        c.fourcc with _ | k <;> dsimp only
      · rw [if_neg (by omega)]
        refine lift { mr1 with reaming := mr1.reaming - ((c.data.length + 12 : Nat) : Int) } _
          hs1 (by rw [hr1]) ?_
        · refine ih fuel _ _ read hwf' (hnext _ _ hs1) ?_ ?_ ?_ ?_ ?_ ?_
          · show mr1.reaming - _ + _ = _
            push_cast; omega
          · intro h
            have h : 0 < mr1.reaming - ((c.data.length + 12 : Nat) : Int) := h
            have := hge1 (by push_cast at h; omega)
            show mr1.tmp = []
            rw [this]; exact htmp
          · intro h
            have h : mr1.reaming - ((c.data.length + 12 : Nat) : Int) ≤ 0 := h
            show (mr1.tmp.length : Int) ≤ -(mr1.reaming - _)
            by_cases h8 : 8 ≤ mr.reaming
            · rw [hge1 h8, htmp]
              simp only [List.length_nil]
              push_cast at h ⊢; omega
            · have := hlt1 (by omega)
              push_cast; omega
          · show mr1.reaming - _ < _
            push_cast at hfl ⊢; omega
          · push_cast at hfl; omega
          · rw [hr1]; exact hsplit'
      · have hmeta := classify_some _ _ _ hcl
        have h8 : 8 ≤ mr.reaming := by
          have hmem : 0 ∈ metaHeaderStarts 0 (c :: cs) := by
            unfold metaHeaderStarts
            simp [hmeta]
          have := hsplit 0 hmem
          push_cast at this
          omega
        have hmr1 := hge1 h8
        subst hmr1
        have hspec := parseRecognised_spec flate k
          { mr1 with reaming := mr1.reaming - ((c.data.length + 12 : Nat) : Int) }
          pos c.data.length read htmp (by omega) hc.2.2
          (by show mr1.reaming - _ = _; push_cast; omega)
        rcases hpr : parseRecognised flate k
          { mr1 with reaming := mr1.reaming - ((c.data.length + 12 : Nat) : Int) }
          pos c.data.length read with ⟨_ | e, mr3⟩ <;> rw [hpr] at hspec <;> dsimp only at hspec ⊢
        · obtain ⟨_, hr3, hs3, hfix3, hb3⟩ := hspec
          refine lift mr3 _ hs3 hr3 ?_
          · refine ih fuel _ _ read hwf' (hnext _ _ hs3) ?_ ?_ ?_ ?_ ?_ ?_
            · rw [hr3]; push_cast; omega
            · intro h
              rw [hr3] at h
              exact (hfix3 (by omega)).1
            · intro h
              rw [hr3] at h ⊢
              by_cases hz : mr1.reaming - ((c.data.length + 12 : Nat) : Int) < 0
              · exact hb3 rfl hz
              · rw [(hfix3 (by omega)).1]
                simp only [List.length_nil]
                omega
            · rw [hr3]; push_cast at hfl ⊢; omega
            · push_cast at hfl; omega
            · rw [hr3]; exact hsplit'
        · obtain ⟨hf3, hr3, hs3, _, _⟩ := hspec
          refine ⟨fun e' h => ?_, ?_, fun h => by simp at h, fun hm => ?_⟩
          · exact hf3 e' h
          · show mr3.tmp ++ mr3.inp = _
            rw [hs3, htmp]; rfl
          · have hv := parseRecognised_valid flate k
              { mr1 with reaming := mr1.reaming - ((c.data.length + 12 : Nat) : Int) }
              pos read c (encodeChunks cs) hc (by omega) hst
              (by show mr1.reaming - _ = _; push_cast; omega)
              (classify_codeKind _ _ _ hcl) (hm c (List.mem_cons_self _ _) hmeta)
            rw [hpr] at hv
            simp at hv

theorem encodeChunks_append (a b : List Chunk) :
    encodeChunks (a ++ b) = encodeChunks a ++ encodeChunks b := by
  induction a with
  | nil => rfl
  | cons c a ih => simp [encodeChunks, ih]

theorem metaHeaderStarts_append (a b : List Chunk) :
    ∀ off s, s ∈ metaHeaderStarts (off + (encodeChunks a).length) b →
      s ∈ metaHeaderStarts off (a ++ b) := by
  induction a with
  | nil => intro off s h; simpa [encodeChunks] using h
  | cons c a ih =>
    intro off s h
    show s ∈ metaHeaderStarts off (c :: (a ++ b))
    unfold metaHeaderStarts
    apply List.mem_append_right
    apply ih
    simp only [encodeChunks, List.length_append] at h
    rwa [Nat.add_assoc]

theorem pngMagic_length : pngMagic.length = 8 := rfl

/-- One `Read` of a reader that is in step with the stream. -/
theorem Read_spec (flate : List Byte → Option (List Byte) × Nat) (cs : List Chunk) (d : Nat)
    (mr : MetaReader) (n : Nat) (hwf : ∀ c ∈ cs, c.wellFormed) (hinv : Synced cs d mr)
    (hsplit : ∀ s ∈ metaHeaderStarts 8 cs, ¬ (s < d + n ∧ d + n < s + 8)) :
    (Read flate mr n).data = ((pngStream cs).drop d).take n ∧
    (∀ e, (Read flate mr n).err = some e → e.isFault = false) ∧
    ((Read flate mr n).err = none →
      (Read flate mr n).data.length = n ∧ Synced cs (d + n) (Read flate mr n).mr) ∧
    ((∀ c ∈ cs, isMetaCode c.fourcc = true → c.parses flate = true) →
      (Read flate mr n).err = none ∨
        ((Read flate mr n).err = some .eof ∧ (Read flate mr n).data.length < n)) := by
  obtain ⟨hstream, hre0, htl, pre, post, hcs, hbound⟩ := hinv
  have hXn : mr.tmp.drop n ++ mr.inp.drop (n - mr.tmp.length) = (pngStream cs).drop (d + n) := by
    rw [← List.drop_append_eq_append_drop, hstream, List.drop_drop]
  have hplen : ((mr.tmp ++ mr.inp).take n).length ≤ n := by
    rw [List.length_take]; omega
  unfold Read
  dsimp only
  by_cases hge : 0 ≤ mr.reaming - (((mr.tmp ++ mr.inp).take n).length : Int)
  · rw [if_pos hge]
    refine ⟨by rw [hstream], ?_, ?_, ?_⟩
    · intro e h
      dsimp only at h
      split at h
      · injection h with h; subst h; rfl
      · simp at h
    · intro h
      dsimp only at h ⊢
      have hfull : ((mr.tmp ++ mr.inp).take n).length = n := by
        by_contra hne
        rw [if_pos (by omega)] at h
        simp at h
      refine ⟨hfull, hXn, hge, ?_, pre, post, hcs, ?_⟩
      · show ((mr.tmp.drop n).length : Int)
          ≤ mr.reaming - (((mr.tmp ++ mr.inp).take n).length : Int)
        rw [List.length_drop, hfull]
        omega
      · show ((d + n : Nat) : Int) + (mr.reaming - _) = _
        rw [hfull]; push_cast; omega
    · intro _
      dsimp only
      by_cases hlt : ((mr.tmp ++ mr.inp).take n).length < n
      · right; rw [if_pos hlt]; exact ⟨rfl, hlt⟩
      · left; rw [if_neg hlt]
  · rw [if_neg hge]
    -- the bytes of `p` after the chunk boundary
    have hR : 0 < -(mr.reaming - (((mr.tmp ++ mr.inp).take n).length : Int)) := by omega
    have hle : -(mr.reaming - (((mr.tmp ++ mr.inp).take n).length : Int)) ≤
        (((mr.tmp ++ mr.inp).take n).length : Int) := by omega
    rw [if_pos hle]
    have htn : mr.tmp.drop n = [] := by
      apply List.drop_of_length_le
      omega
    have hinp : mr.inp.drop (n - mr.tmp.length) = (pngStream cs).drop (d + n) := by
      rw [← hXn, htn]; rfl
    have hk : ((mr.tmp ++ mr.inp).take n).length
        - (-(mr.reaming - (((mr.tmp ++ mr.inp).take n).length : Int))).toNat = mr.reaming.toNat := by
      omega
    have hpost : (pngStream cs).drop (d + mr.reaming.toNat) = encodeChunks post := by
      have hdn : d + mr.reaming.toNat = pngMagic.length + (encodeChunks pre).length := by
        rw [pngMagic_length]; omega
      rw [hdn, pngStream, hcs, encodeChunks_append, ← List.append_assoc,
        ← List.length_append, List.drop_left]
    have hloop := parseChunkLoop_spec flate post
      ((-(mr.reaming - (((mr.tmp ++ mr.inp).take n).length : Int))).toNat
        + (mr.inp.drop (n - mr.tmp.length)).length + 1)
      { inp := mr.inp.drop (n - mr.tmp.length),
        reaming := -(mr.reaming - (((mr.tmp ++ mr.inp).take n).length : Int)),
        tmp := [], crc := mr.crc, iccp := mr.iccp, exif := mr.exif, xmp := mr.xmp }
      0 (((mr.tmp ++ mr.inp).take n).drop mr.reaming.toNat)
      (fun c h => hwf c (by rw [hcs]; exact List.mem_append_right _ h))
      (by
        dsimp only
        have h1 : (mr.tmp ++ mr.inp).drop n = (pngStream cs).drop (d + n) := by
          rw [hstream, List.drop_drop]
        have h2 : (mr.tmp ++ mr.inp).drop mr.reaming.toNat
            = (pngStream cs).drop (d + mr.reaming.toNat) := by
          rw [hstream, List.drop_drop]
        rw [List.drop_zero, List.nil_append, hinp, ← hpost, ← h1, ← h2,
          ← List.drop_append_of_le_length (by omega), List.take_append_drop])
      (by
        dsimp only
        rw [List.length_drop]
        push_cast
        omega)
      (fun _ => rfl)
      (fun h => by dsimp only at h; omega)
      (by dsimp only; omega)
      (by omega)
      (by
        intro s hs
        dsimp only
        have hb := metaHeaderStarts_bound post
          (fun c h => hwf c (by rw [hcs]; exact List.mem_append_right _ h)) 0 s hs
        have hmem : s + (8 + (encodeChunks pre).length) ∈ metaHeaderStarts 8 cs := by
          rw [hcs]
          apply metaHeaderStarts_append
          have := metaHeaderStarts_shift (8 + (encodeChunks pre).length) post 0 s hs
          simpa using this
        have hsp := hsplit _ hmem
        have hpl : ((mr.tmp ++ mr.inp).take n).length = min n ((pngStream cs).length - d) := by
          rw [hstream, List.length_take, List.length_drop]
        have htot : (pngStream cs).length = 8 + (encodeChunks pre).length
            + (encodeChunks post).length := by
          rw [pngStream, hcs, encodeChunks_append, List.length_append, List.length_append,
            pngMagic_length]
          omega
        omega)
    unfold parseChunk
    dsimp only
    rw [hk]
    generalize parseChunkLoop flate _ _ 0 _ = r at hloop ⊢
    obtain ⟨hf, hs, hok, hnm⟩ := hloop
    dsimp only at hs hok
    refine ⟨by rw [hstream], ?_, ?_, ?_⟩
    · intro e h
      split at h
      · exact hf e h
      · split at h
        · injection h with h; subst h; rfl
        · simp at h
    · intro h
      have hnone : r.1 = none := by
        rcases hr : r.1 with _ | e
        · rfl
        · rw [hr] at h; simp at h
      rw [hnone] at h
      simp only [Option.isSome_none, Bool.false_eq_true, if_false] at h
      have hfull : ((mr.tmp ++ mr.inp).take n).length = n := by
        by_contra hne
        rw [if_pos (by omega)] at h
        simp at h
      obtain ⟨h1, h2, pre2, post2, hpp, hsum⟩ := hok hnone
      refine ⟨hfull, ?_, h1, h2, pre ++ pre2, post2, by rw [hcs, hpp, List.append_assoc], ?_⟩
      · rw [hs, List.nil_append, hinp]
      · rw [encodeChunks_append, List.length_append]
        push_cast
        omega
    · intro hm
      have hnone := hnm (fun c h => hm c (by rw [hcs]; exact List.mem_append_right _ h))
      rw [hnone]
      simp only [Option.isSome_none, Bool.false_eq_true, if_false]
      by_cases hlt : ((mr.tmp ++ mr.inp).take n).length < n
      · right; rw [if_pos hlt]; exact ⟨rfl, hlt⟩
      · left; rw [if_neg hlt]

theorem readEnds_mem_shift (sizes : List Nat) :
    ∀ (d n e : Nat), e ∈ readEnds (d + n) sizes → e ∈ readEnds d (n :: sizes) := by
  intro d n e h
  unfold readEnds
  exact List.mem_cons_of_mem _ h

/-- A run of `Read` calls from a reader that is in step with the stream. -/
theorem consume_spec (flate : List Byte → Option (List Byte) × Nat) (cs : List Chunk)
    (hwf : ∀ c ∈ cs, c.wellFormed) :
    ∀ (sizes : List Nat) (d : Nat) (mr : MetaReader), Synced cs d mr →
      (∀ s ∈ metaHeaderStarts 8 cs, ∀ e ∈ readEnds d sizes, ¬ (s < e ∧ e < s + 8)) →
      (consume flate sizes mr).1 <+: (pngStream cs).drop d ∧
      (∀ e, (consume flate sizes mr).2.1 = some e → e.isFault = false) ∧
      ((consume flate sizes mr).2.1 = none →
        (consume flate sizes mr).1 = ((pngStream cs).drop d).take sizes.sum) ∧
      ((∀ c ∈ cs, isMetaCode c.fourcc = true → c.parses flate = true) →
        (consume flate sizes mr).1 = ((pngStream cs).drop d).take sizes.sum ∧
          ((consume flate sizes mr).2.1 = none ∨ (consume flate sizes mr).2.1 = some .eof)) := by
  intro sizes
  induction sizes with
  | nil =>
    intro d mr _ _
    exact ⟨List.nil_prefix, fun e h => by simp [consume] at h, fun _ => by simp [consume],
      fun _ => ⟨by simp [consume], Or.inl rfl⟩⟩
  | cons n sizes ih =>
    intro d mr hinv hsplit
    obtain ⟨hdata, hfault, hok, hnm⟩ := Read_spec flate cs d mr n hwf hinv
      (fun s hs => hsplit s hs (d + n) (by unfold readEnds; exact List.mem_cons_self _ _))
    unfold consume
    dsimp only
    rcases herr : (Read flate mr n).err with _ | e <;> dsimp only
    · obtain ⟨hlen, hsync⟩ := hok herr
      obtain ⟨hp, hf, hn, hm⟩ := ih (d + n) (Read flate mr n).mr hsync
        (fun s hs e he => hsplit s hs e (readEnds_mem_shift sizes d n e he))
      have hcat : ∀ k, ((pngStream cs).drop d).take n ++ (((pngStream cs).drop (d + n)).take k)
          = ((pngStream cs).drop d).take (n + k) := by
        intro k
        rw [← List.drop_drop, List.take_add]
      refine ⟨?_, hf, ?_, ?_⟩
      · rw [hdata]
        conv_rhs => rw [← List.take_append_drop n ((pngStream cs).drop d)]
        rw [List.drop_drop]
        exact (List.prefix_append_right_inj _).mpr hp
      · intro h
        rw [hdata, hn h, List.sum_cons]
        exact hcat _
      · intro h
        obtain ⟨h1, h2⟩ := hm h
        refine ⟨?_, h2⟩
        rw [hdata, h1, List.sum_cons]
        exact hcat _
    · refine ⟨by rw [hdata]; exact List.take_prefix _ _, ?_, fun h => by simp at h, ?_⟩
      · intro e' h
        injection h with h
        subst h
        exact hfault _ herr
      · intro h
        rcases hnm h with h1 | ⟨h1, h2⟩
        · rw [herr] at h1; simp at h1
        · rw [herr] at h1
          refine ⟨?_, Or.inr h1⟩
          rw [hdata] at h2 ⊢
          rw [List.length_take] at h2
          rw [List.take_of_length_le (by omega), List.take_of_length_le]
          rw [List.sum_cons]
          omega

/-- C1, amended: pass-through for every stream made of the signature and well-formed
chunks, and every sequence of buffer sizes in which no buffer ends strictly
inside the eight header bytes of an `iCCP`, `eXIf` or `iTXt` chunk. The bytes handed
out up to the first `Read` that returns an error are a prefix of the stream, in
order; with no error they are the first `sizes.sum` bytes of the stream; no call
up to and including that one panics or loops for ever; and a stream whose `iCCP`,
`eXIf` and `iTXt` chunks all parse (the stored checksum is right, the body parser
returns a value and has read the data to the last byte), in particular a stream
without such chunks, is handed out in full: the bytes handed out are the first
`sizes.sum` bytes of the stream, and the only error is `io.EOF` at its end. -/
theorem passthrough_of_unsplit_headers (flate : List Byte → Option (List Byte) × Nat)
    (cs : List Chunk) (sizes : List Nat)
    (hwf : ∀ c ∈ cs, c.wellFormed) (hsplit : headersUnsplit cs sizes) :
    ∃ o, outcome flate (pngStream cs) sizes = some o ∧
      o.delivered <+: pngStream cs ∧
      (o.err = none → o.delivered = (pngStream cs).take sizes.sum) ∧
      (∀ e, o.err = some e → e.isFault = false) ∧
      ((∀ c ∈ cs, isMetaCode c.fourcc = true → c.parses flate = true) →
        o.delivered = (pngStream cs).take sizes.sum ∧ (o.err = none ∨ o.err = some .eof)) := by
  have hnew : NewMetaReader (pngStream cs) = .ok
      { inp := encodeChunks cs, tmp := pngMagic, crc := 0, reaming := 8,
        iccp := [], exif := [], xmp := [] } := by
    unfold NewMetaReader pngStream
    have h8 : (pngMagic ++ encodeChunks cs).take 8 = pngMagic :=
      List.take_left' pngMagic_length
    have hd : (pngMagic ++ encodeChunks cs).drop 8 = encodeChunks cs :=
      List.drop_left' pngMagic_length
    simp only [h8, hd]
    rfl
  have hsync : Synced cs 0
      { inp := encodeChunks cs, tmp := pngMagic, crc := 0, reaming := 8,
        iccp := [], exif := [], xmp := [] } := by
    refine ⟨rfl, ?_, ?_, [], cs, rfl, rfl⟩
    · show (0 : Int) ≤ 8
      omega
    · show ((pngMagic.length : Nat) : Int) ≤ 8
      rw [pngMagic_length]
      omega
  obtain ⟨hp, hf, hn, hm⟩ := consume_spec flate cs hwf sizes 0 _ hsync hsplit
  unfold outcome
  rw [hnew]
  exact ⟨_, rfl, hp, hn, hf, hm⟩

/-- C1, witness: the stream of `smallPng`, whose `eXIf` chunk parses, and the stream of
`iccPng`, whose `iCCP` chunk parses with the decoder `tableFlate`, each read with the
buffer sizes of a decoder (signature, then header, data and checksum of each chunk
in turn), are handed out in full. -/
theorem passthrough_of_unsplit_headers_witness :
    (∀ c ∈ smallPng, isMetaCode c.fourcc = true → c.parses noFlate = true) ∧
    (∃ o, outcome noFlate (pngStream smallPng) [8, 8, 13, 4, 8, 8, 4, 8, 4] = some o ∧
      o.delivered = pngStream smallPng ∧ (o.err = none ∨ o.err = some .eof)) ∧
    (∀ c ∈ iccPng, isMetaCode c.fourcc = true → c.parses tableFlate = true) ∧
    (∃ o, outcome tableFlate (pngStream iccPng) [8, 8, 13, 4, 8, 16, 4, 8, 4] = some o ∧
      o.delivered = pngStream iccPng ∧ (o.err = none ∨ o.err = some .eof)) := by
  have p1 : ∀ c ∈ smallPng, isMetaCode c.fourcc = true → c.parses noFlate = true := by decide!
  have p2 : ∀ c ∈ iccPng, isMetaCode c.fourcc = true → c.parses tableFlate = true := by decide!
  obtain ⟨o, h1, -, -, -, h5⟩ :=
    passthrough_of_unsplit_headers noFlate smallPng [8, 8, 13, 4, 8, 8, 4, 8, 4]
      (by decide!) (by decide!)
  obtain ⟨o2, g1, -, -, -, g5⟩ :=
    passthrough_of_unsplit_headers tableFlate iccPng [8, 8, 13, 4, 8, 16, 4, 8, 4]
      (by decide!) (by decide!)
  have e1 : (pngStream smallPng).take [8, 8, 13, 4, 8, 8, 4, 8, 4].sum = pngStream smallPng := by
    decide!
  have e2 : (pngStream iccPng).take [8, 8, 13, 4, 8, 16, 4, 8, 4].sum = pngStream iccPng := by
    decide!
  have hd := h5 p1
  have gd := g5 p2
  rw [e1] at hd
  rw [e2] at gd
  exact ⟨p1, ⟨o, h1, hd⟩, p2, ⟨o2, g1, gd⟩⟩

/-! ### Checksum rejection -/

/-- An `eXIf` chunk whose stored checksum is not the CRC-32 of its code and data, with
its header in `read`: the chunk is read to its end, the checksum test fails,
and no tag changes. -/
theorem parseRecognised_exif_bad (flate : List Byte → Option (List Byte) × Nat)
    (mr : MetaReader) (pos : Nat) (read : List Byte) (c : Chunk) (rest : List Byte)
    (hc : c.wellFormed) (hpos : pos + 8 ≤ read.length)
    (hstream : read.drop pos ++ mr.inp = c.encode ++ rest)
    (hream : mr.reaming = (read.length : Int) - (pos : Int) - ((c.data.length : Int) + 12))
    (hbad : be32 c.crc ≠ crc32 (c.fourcc ++ c.data)) :
    (parseRecognised flate .eXIf mr pos c.data.length read).1 = some .formatChecksum ∧
      (parseRecognised flate .eXIf mr pos c.data.length read).2.iccp = mr.iccp ∧
      (parseRecognised flate .eXIf mr pos c.data.length read).2.exif = mr.exif ∧
      (parseRecognised flate .eXIf mr pos c.data.length read).2.xmp = mr.xmp := by
  obtain ⟨body0, tail, hb0, hmr0, hbuf0, hlim0, hund0⟩ :=
    prepareChunkReader_desc mr pos read c rest hc hpos hstream hream
  have hfl : (c.fourcc ++ c.data).length = c.data.length + 4 := by
    rw [List.length_append, hc.1]; omega
  have htr0 : body0.Tracks (c.fourcc ++ c.data) (c.crc ++ tail) := by
    refine ⟨?_, ?_, [], ?_, ?_⟩
    · rw [hund0, hlim0]
      simp only [List.length_append, hc.1]
      omega
    · rw [hund0, hlim0, List.append_assoc, ← hfl, List.drop_left]
    · rw [hund0, hlim0, List.append_assoc, ← hfl, List.take_left]
      rfl
    · rw [hmr0]
      rfl
  obtain ⟨hd1, hd2, _⟩ := Body.Discard_tracks _ _ 4 body0 htr0 (by rw [hlim0]; omega)
  have hev1 := Body.Discard_evolves 4 body0
  unfold parseRecognised
  rw [hb0]
  dsimp only
  rcases hr1 : body0.Discard 4 with ⟨ok, b1⟩
  rw [hr1] at hd1 hd2 hev1
  dsimp only at hd1 hd2 hev1
  subst hd1
  dsimp only
  have hbp : bodyParse flate .eXIf b1 = (.ok b1.ReadAll.1, b1.ReadAll.2) := rfl
  rw [hbp]
  dsimp only
  obtain ⟨ht2, hl2⟩ := Body.ReadAll_tracks _ _ b1 hd2
  have hev2 := hev1.trans (Body.ReadAll_evolves b1)
  obtain ⟨hv, hvi, hve, hvx⟩ := verifyChecksum_tracks _ _ c.crc tail b1.ReadAll.2 ht2 hl2 rfl hc.2.1
  have hfalse : (be32 c.crc == crc32 (c.fourcc ++ c.data)) = false := by
    simpa using hbad
  rw [hfalse] at hv
  rcases hr3 : verifyChecksum b1.ReadAll.2 with ⟨r, b3⟩
  rw [hr3] at hv hvi hve hvx
  dsimp only at hv hvi hve hvx
  subst hv
  dsimp only
  refine ⟨rfl, ?_, ?_, ?_⟩
  · rw [hvi, hev2.iccp, hmr0]
  · rw [hve, hev2.exif, hmr0]
  · rw [hvx, hev2.xmp, hmr0]

theorem classify_none (mr : MetaReader) (f : List Byte) (h : isMetaCode f = false) :
    classify mr f = none := by
  unfold isMetaCode at h
  simp only [Bool.or_eq_false_iff, beq_eq_false_iff_ne, ne_eq] at h
  unfold classify
  rw [if_neg (fun hh => h.1.1 hh.1), if_neg (fun hh => h.1.2 hh.1), if_neg h.2]

theorem classify_exif (mr : MetaReader) (h : mr.exif = []) :
    classify mr fourccEXIF = some .eXIf := by
  unfold classify
  rw [if_neg (fun hh => absurd hh.1 (by decide)), if_pos ⟨rfl, h⟩]

/-- The loop of `parseChunk` on chunks that are not recognised followed by an `eXIf`
chunk `c` with a wrong stored checksum: when the header of `c` lies in `read` the
loop ends with the format error, otherwise it succeeds at a chunk boundary before
`c`; no tag changes. -/
theorem parseChunkLoop_bad (flate : List Byte → Option (List Byte) × Nat) (c : Chunk)
    (post : List Chunk) (hcw : c.wellFormed) (hfc : c.fourcc = fourccEXIF)
    (hbad : be32 c.crc ≠ crc32 (c.fourcc ++ c.data)) :
    ∀ (pre : List Chunk) (fuel : Nat) (mr : MetaReader) (pos : Nat) (read : List Byte),
      (∀ x ∈ pre, x.wellFormed ∧ isMetaCode x.fourcc = false) →
      (read ++ (mr.tmp ++ mr.inp)).drop pos = encodeChunks (pre ++ c :: post) →
      mr.reaming + (pos : Int) = (read.length : Int) →
      (0 < mr.reaming → mr.tmp = []) →
      mr.reaming < (fuel : Int) → 0 < fuel → mr.exif = [] →
      ¬ (((encodeChunks pre).length : Int) < mr.reaming ∧
          mr.reaming < ((encodeChunks pre).length : Int) + 8) →
      (parseChunkLoop flate fuel mr pos read).2.iccp = mr.iccp ∧
      (parseChunkLoop flate fuel mr pos read).2.exif = mr.exif ∧
      (parseChunkLoop flate fuel mr pos read).2.xmp = mr.xmp ∧
      (((encodeChunks pre).length : Int) < mr.reaming →
        (parseChunkLoop flate fuel mr pos read).1 = some .formatChecksum) ∧
      (mr.reaming ≤ ((encodeChunks pre).length : Int) →
        (parseChunkLoop flate fuel mr pos read).1 = none ∧
        ∃ pa pb, pre = pa ++ pb ∧
          (parseChunkLoop flate fuel mr pos read).2.reaming + mr.reaming
            = ((encodeChunks pa).length : Int)) := by
  intro pre
  induction pre with
  | nil =>
    intro fuel mr pos read _ hstream hream hpos hfl hfuel hex hsplit
    obtain ⟨fuel, rfl⟩ : ∃ f, fuel = f + 1 := ⟨fuel - 1, by omega⟩
    simp only [encodeChunks, List.length_nil, Nat.cast_zero, zero_add] at hsplit ⊢
    unfold parseChunkLoop
    by_cases h0 : mr.reaming ≤ 0
    · rw [if_pos h0]
      refine ⟨rfl, rfl, rfl, fun h => absurd h (by omega), fun _ => ⟨rfl, [], [], rfl, ?_⟩⟩
      show -mr.reaming + mr.reaming = _
      simp [encodeChunks]
    · rw [if_neg h0]
      have htmp : mr.tmp = [] := hpos (by omega)
      have h8 : 8 ≤ mr.reaming := by omega
      have hst : read.drop pos ++ mr.inp = c.encode ++ encodeChunks post := by
        rw [← encodeChunks, ← List.nil_append (c :: post), ← hstream, htmp, List.nil_append,
          List.drop_append_of_le_length (by omega)]
      obtain ⟨mr1, hrh, _, _, hge1, _⟩ :=
        readHeader_spec mr pos read c (encodeChunks post) hcw htmp hst hream (by omega)
      have hmr1 := hge1 h8
      subst hmr1
      have hdl : be32 ((putBe32 c.data.length ++ c.fourcc).take 4) = c.data.length := by
        rw [List.take_append_of_le_length (by simp [putBe32_length]),
          List.take_of_length_le (by simp [putBe32_length])]
        exact be32_putBe32 _ (by have := hcw.2.2; omega)
      have hfour : (putBe32 c.data.length ++ c.fourcc).drop 4 = c.fourcc := by
        rw [List.drop_append_of_le_length (by simp [putBe32_length]),
          List.drop_of_length_le (by simp [putBe32_length])]
        rfl
      have hdelta : (c.data.length + 8 + 4) % 4294967296 = c.data.length + 12 :=
        Nat.mod_eq_of_lt (by have := hcw.2.2; omega)
      rw [hrh]
      dsimp only
      have hcl : ∀ r, classify { mr1 with reaming := r } fourccEXIF = some .eXIf :=
        fun r => classify_exif _ hex
      rw [hdl, hfour, hdelta, hfc, hcl]
      dsimp only
      obtain ⟨he, hi, hx, hm⟩ := parseRecognised_exif_bad flate
        { mr1 with reaming := mr1.reaming - ((c.data.length + 12 : Nat) : Int) }
        pos read c (encodeChunks post) hcw (by omega) hst
        (by show mr1.reaming - _ = _; push_cast; omega) hbad
      rcases hpr : parseRecognised flate .eXIf
        { mr1 with reaming := mr1.reaming - ((c.data.length + 12 : Nat) : Int) }
        pos c.data.length read with ⟨e, mr3⟩
      rw [hpr] at he hi hx hm
      dsimp only at he hi hx hm
      subst he
      dsimp only
      exact ⟨hi, hx, hm, fun _ => rfl, fun h => absurd h (by omega)⟩
  | cons x pre ih =>
    intro fuel mr pos read hpre hstream hream hpos hfl hfuel hex hsplit
    obtain ⟨fuel, rfl⟩ : ∃ f, fuel = f + 1 := ⟨fuel - 1, by omega⟩
    have hx := (hpre x (List.mem_cons_self _ _)).1
    have hxm := (hpre x (List.mem_cons_self _ _)).2
    have hxlen := Chunk.encode_length x hx
    simp only [encodeChunks, List.length_append, hxlen] at hsplit ⊢
    unfold parseChunkLoop
    by_cases h0 : mr.reaming ≤ 0
    · rw [if_pos h0]
      refine ⟨rfl, rfl, rfl, fun h => absurd h (by push_cast at h; omega),
        fun _ => ⟨rfl, [], x :: pre, rfl, ?_⟩⟩
      show -mr.reaming + mr.reaming = _
      simp [encodeChunks]
    · rw [if_neg h0]
      have htmp : mr.tmp = [] := hpos (by omega)
      have hple : pos ≤ read.length := by omega
      have hst : read.drop pos ++ mr.inp = x.encode ++ encodeChunks (pre ++ c :: post) := by
        rw [← encodeChunks, ← List.cons_append, ← hstream, htmp, List.nil_append,
          List.drop_append_of_le_length hple]
      obtain ⟨mr1, hrh, hr1, hs1, hge1, hlt1⟩ :=
        readHeader_spec mr pos read x _ hx htmp hst hream (by omega)
      have hdl : be32 ((putBe32 x.data.length ++ x.fourcc).take 4) = x.data.length := by
        rw [List.take_append_of_le_length (by simp [putBe32_length]),
          List.take_of_length_le (by simp [putBe32_length])]
        exact be32_putBe32 _ (by have := hx.2.2; omega)
      have hfour : (putBe32 x.data.length ++ x.fourcc).drop 4 = x.fourcc := by
        rw [List.drop_append_of_le_length (by simp [putBe32_length]),
          List.drop_of_length_le (by simp [putBe32_length])]
        rfl
      have hdelta : (x.data.length + 8 + 4) % 4294967296 = x.data.length + 12 :=
        Nat.mod_eq_of_lt (by have := hx.2.2; omega)
      rw [hrh]
      dsimp only
      rw [hdl, hfour, hdelta, classify_none _ _ hxm]
      dsimp only
      rw [if_neg (by omega)]
      have hex1 : mr1.exif = [] := by
        by_cases h8 : 8 ≤ mr.reaming
        · rw [hge1 h8]; exact hex
        · have hrd : readHeader mr pos read = (.ok (putBe32 x.data.length ++ x.fourcc), mr1) := hrh
          unfold readHeader at hrd
          rw [if_pos (by omega), if_pos hple] at hrd
          dsimp only at hrd
          split at hrd
          · simp at hrd
          · split at hrd
            · simp at hrd
            · injection hrd with _ hmr
              rw [← hmr]
              exact hex
      have hicx : mr1.iccp = mr.iccp ∧ mr1.xmp = mr.xmp := by
        by_cases h8 : 8 ≤ mr.reaming
        · rw [hge1 h8]; exact ⟨rfl, rfl⟩
        · have hrd : readHeader mr pos read = (.ok (putBe32 x.data.length ++ x.fourcc), mr1) := hrh
          unfold readHeader at hrd
          rw [if_pos (by omega), if_pos hple] at hrd
          dsimp only at hrd
          split at hrd
          · simp at hrd
          · split at hrd
            · simp at hrd
            · injection hrd with _ hmr
              rw [← hmr]
              exact ⟨rfl, rfl⟩
      obtain ⟨hi, hxf, hxm2, hreach, hnot⟩ := ih fuel
        { mr1 with reaming := mr1.reaming - ((x.data.length + 12 : Nat) : Int) }
        (pos + (x.data.length + 12)) read
        (fun y hy => hpre y (List.mem_cons_of_mem _ hy))
        (by
          show (read ++ (mr1.tmp ++ mr1.inp)).drop _ = _
          rw [hs1, ← List.drop_drop, List.drop_append_of_le_length hple, hst, ← hxlen,
            List.drop_left])
        (by show mr1.reaming - _ + _ = _; push_cast; omega)
        (by
          intro h
          have h : 0 < mr1.reaming - ((x.data.length + 12 : Nat) : Int) := h
          show mr1.tmp = []
          rw [hge1 (by push_cast at h; omega)]
          exact htmp)
        (by show mr1.reaming - _ < _; push_cast at hfl ⊢; omega)
        (by push_cast at hfl; omega)
        hex1
        (by
          show ¬ (_ < mr1.reaming - _ ∧ mr1.reaming - _ < _)
          push_cast at hsplit ⊢
          omega)
      dsimp only at hi hxf hxm2 hreach hnot
      refine ⟨hi.trans hicx.1, hxf.trans (hex1.trans hex.symm), hxm2.trans hicx.2, ?_, ?_⟩
      · intro h
        apply hreach
        show _ < mr1.reaming - _
        push_cast at h ⊢
        omega
      · intro h
        obtain ⟨hn, pa, pb, hpp, hsum⟩ := hnot (by show mr1.reaming - _ ≤ _; push_cast at h ⊢; omega)
        refine ⟨hn, x :: pa, pb, by rw [hpp]; rfl, ?_⟩
        simp only [encodeChunks, List.length_append, hxlen]
        have hsum' : (parseChunkLoop flate fuel
            { mr1 with reaming := mr1.reaming - ((x.data.length + 12 : Nat) : Int) }
            (pos + (x.data.length + 12)) read).2.reaming
            + (mr1.reaming - ((x.data.length + 12 : Nat) : Int))
              = ((encodeChunks pa).length : Int) := hsum
        push_cast at hsum' ⊢
        omega

/-- One `Read` of a reader in step with a stream whose first recognised chunk is an
`eXIf` chunk `c` with a wrong stored checksum: a buffer that ends after the start
of `c` makes the call return the format error, an earlier one is filled without
error; no tag is stored. -/
theorem Read_bad (flate : List Byte → Option (List Byte) × Nat) (pre post : List Chunk)
    (c : Chunk) (d : Nat) (mr : MetaReader) (n : Nat)
    (hwf : ∀ x ∈ pre ++ c :: post, x.wellFormed)
    (hpre : ∀ x ∈ pre, isMetaCode x.fourcc = false) (hfc : c.fourcc = fourccEXIF)
    (hbad : be32 c.crc ≠ crc32 (c.fourcc ++ c.data))
    (hinv : Synced (pre ++ c :: post) d mr) (hah : Ahead pre d mr)
    (hsplit : ¬ (8 + (encodeChunks pre).length < d + n ∧
      d + n < 8 + (encodeChunks pre).length + 8)) :
    (8 + (encodeChunks pre).length < d + n →
      (Read flate mr n).err = some .formatChecksum ∧
        (Read flate mr n).mr.iccp = [] ∧ (Read flate mr n).mr.exif = [] ∧
        (Read flate mr n).mr.xmp = []) ∧
    (d + n ≤ 8 + (encodeChunks pre).length →
      (Read flate mr n).err = none ∧ Ahead pre (d + n) (Read flate mr n).mr) := by
  obtain ⟨hstream, hre0, htl, -⟩ := hinv
  obtain ⟨hic, hex, hxm, p1, p2, hpp, hbound⟩ := hah
  have hcw : c.wellFormed := hwf c (List.mem_append_right _ (List.mem_cons_self _ _))
  have hclen := Chunk.encode_length c hcw
  have hprelen : (encodeChunks pre).length = (encodeChunks p1).length + (encodeChunks p2).length := by
    rw [hpp, encodeChunks_append, List.length_append]
  have htot : (pngStream (pre ++ c :: post)).length
      = 8 + (encodeChunks pre).length + (c.data.length + 12) + (encodeChunks post).length := by
    rw [pngStream, encodeChunks_append, List.length_append, List.length_append, pngMagic_length,
      encodeChunks, List.length_append, hclen]
    omega
  have hpl : ((mr.tmp ++ mr.inp).take n).length
      = min n ((pngStream (pre ++ c :: post)).length - d) := by
    rw [hstream, List.length_take, List.length_drop]
  have hXn : mr.tmp.drop n ++ mr.inp.drop (n - mr.tmp.length)
      = (pngStream (pre ++ c :: post)).drop (d + n) := by
    rw [← List.drop_append_eq_append_drop, hstream, List.drop_drop]
  unfold Read
  dsimp only
  by_cases hge : 0 ≤ mr.reaming - (((mr.tmp ++ mr.inp).take n).length : Int)
  · rw [if_pos hge]
    dsimp only
    refine ⟨fun h => absurd h (by omega), fun h => ⟨?_, hic, hex, hxm, p1, p2, hpp, ?_⟩⟩
    · rw [if_neg (by omega)]
    · show ((d + n : Nat) : Int) + (mr.reaming - _) = _
      have : ((mr.tmp ++ mr.inp).take n).length = n := by omega
      rw [this]; push_cast; omega
  · rw [if_neg hge]
    have hR : 0 < -(mr.reaming - (((mr.tmp ++ mr.inp).take n).length : Int)) := by omega
    have hle : -(mr.reaming - (((mr.tmp ++ mr.inp).take n).length : Int)) ≤
        (((mr.tmp ++ mr.inp).take n).length : Int) := by omega
    rw [if_pos hle]
    have htn : mr.tmp.drop n = [] := by
      apply List.drop_of_length_le
      omega
    have hinp : mr.inp.drop (n - mr.tmp.length) = (pngStream (pre ++ c :: post)).drop (d + n) := by
      rw [← hXn, htn]; rfl
    have hk : ((mr.tmp ++ mr.inp).take n).length
        - (-(mr.reaming - (((mr.tmp ++ mr.inp).take n).length : Int))).toNat = mr.reaming.toNat := by
      omega
    have hpost : (pngStream (pre ++ c :: post)).drop (d + mr.reaming.toNat)
        = encodeChunks (p2 ++ c :: post) := by
      have hdn : d + mr.reaming.toNat = pngMagic.length + (encodeChunks p1).length := by
        rw [pngMagic_length]; omega
      rw [hdn, pngStream, hpp, List.append_assoc, encodeChunks_append, ← List.append_assoc,
        ← List.length_append, List.drop_left]
    have hA : 8 + (encodeChunks pre).length < d + n → ((encodeChunks p2).length : Int)
        < -(mr.reaming - (((mr.tmp ++ mr.inp).take n).length : Int)) := by omega
    have hB : d + n ≤ 8 + (encodeChunks pre).length →
        -(mr.reaming - (((mr.tmp ++ mr.inp).take n).length : Int))
          ≤ ((encodeChunks p2).length : Int) := by omega
    have hC : d + n ≤ 8 + (encodeChunks pre).length →
        ¬ ((mr.tmp ++ mr.inp).take n).length < n := by omega
    have hloop := parseChunkLoop_bad flate c post hcw hfc hbad p2
      ((-(mr.reaming - (((mr.tmp ++ mr.inp).take n).length : Int))).toNat
        + (mr.inp.drop (n - mr.tmp.length)).length + 1)
      { inp := mr.inp.drop (n - mr.tmp.length),
        reaming := -(mr.reaming - (((mr.tmp ++ mr.inp).take n).length : Int)),
        tmp := [], crc := mr.crc, iccp := mr.iccp, exif := mr.exif, xmp := mr.xmp }
      0 (((mr.tmp ++ mr.inp).take n).drop mr.reaming.toNat)
      (fun x h => ⟨hwf x (by rw [hpp]; simp [h]), hpre x (by rw [hpp]; simp [h])⟩)
      (by
        dsimp only
        have h1 : (mr.tmp ++ mr.inp).drop n = (pngStream (pre ++ c :: post)).drop (d + n) := by
          rw [hstream, List.drop_drop]
        have h2 : (mr.tmp ++ mr.inp).drop mr.reaming.toNat
            = (pngStream (pre ++ c :: post)).drop (d + mr.reaming.toNat) := by
          rw [hstream, List.drop_drop]
        rw [List.drop_zero, List.nil_append, hinp, ← hpost, ← h1, ← h2,
          ← List.drop_append_of_le_length (by omega), List.take_append_drop])
      (by
        dsimp only
        rw [List.length_drop]
        push_cast
        omega)
      (fun _ => rfl)
      (by dsimp only; omega)
      (by omega)
      hex
      (by dsimp only; omega)
    unfold parseChunk
    dsimp only
    rw [hk]
    generalize parseChunkLoop flate _ _ 0 _ = r at hloop ⊢
    obtain ⟨hi, hx, hm, hreach, hnot⟩ := hloop
    dsimp only at hi hx hm hreach hnot
    refine ⟨fun h => ?_, fun h => ?_⟩
    · have he := hreach (hA h)
      rw [he]
      exact ⟨rfl, hi.trans hic, hx.trans hex, hm.trans hxm⟩
    · obtain ⟨hn, pa, pb, hsp, hsum⟩ := hnot (hB h)
      clear hreach hnot
      rw [hn]
      simp only [Option.isSome_none, Bool.false_eq_true, if_false]
      refine ⟨by rw [if_neg (hC h)], hi.trans hic, hx.trans hex, hm.trans hxm,
        p1 ++ pa, pb, by rw [hpp, hsp, List.append_assoc], ?_⟩
      rw [encodeChunks_append, List.length_append]
      push_cast
      omega

/-! ### CRC-32 tells a changed byte -/

theorem crcShift_lt (c : Nat) (h : c < 4294967296) : crcShift c < 4294967296 := by
  unfold crcShift
  split
  · exact Nat.xor_lt_two_pow (n := 32) (by omega) (by decide)
  · omega

theorem crcShift_inj (a b : Nat) (ha : a < 4294967296) (hb : b < 4294967296)
    (h : crcShift a = crcShift b) : a = b := by
  have hbit : ∀ x, x < 4294967296 → (x / 2 ^^^ crcPoly).testBit 31 = true := by
    intro x hx
    rw [Nat.testBit_xor, Nat.testBit_lt_two_pow (by omega : x / 2 < 2 ^ 31)]
    decide
  have hlow : ∀ x, x < 4294967296 → (x / 2).testBit 31 = false :=
    fun x hx => Nat.testBit_lt_two_pow (by omega : x / 2 < 2 ^ 31)
  unfold crcShift at h
  by_cases h1 : a % 2 = 1 <;> by_cases h2 : b % 2 = 1
  · rw [if_pos h1, if_pos h2] at h
    have := Nat.xor_left_injective h
    omega
  · rw [if_pos h1, if_neg h2] at h
    have := hbit a ha
    rw [h, hlow b hb] at this
    cases this
  · rw [if_neg h1, if_pos h2] at h
    have := hbit b hb
    rw [← h, hlow a ha] at this
    cases this
  · rw [if_neg h1, if_neg h2] at h
    omega

theorem crcShift8_lt (c : Nat) (h : c < 4294967296) :
    crcShift (crcShift (crcShift (crcShift (crcShift (crcShift (crcShift (crcShift c)))))))
      < 4294967296 := by
  repeat apply crcShift_lt
  exact h

theorem crcShift8_inj (a b : Nat) (ha : a < 4294967296) (hb : b < 4294967296)
    (h : crcShift (crcShift (crcShift (crcShift (crcShift (crcShift (crcShift (crcShift a)))))))
      = crcShift (crcShift (crcShift (crcShift (crcShift (crcShift (crcShift (crcShift b)))))))) :
    a = b := by
  have l := crcShift_lt
  have i := crcShift_inj
  exact i _ _ ha hb (i _ _ (l _ ha) (l _ hb) (i _ _ (l _ (l _ ha)) (l _ (l _ hb))
    (i _ _ (l _ (l _ (l _ ha))) (l _ (l _ (l _ hb)))
    (i _ _ (l _ (l _ (l _ (l _ ha)))) (l _ (l _ (l _ (l _ hb))))
    (i _ _ (l _ (l _ (l _ (l _ (l _ ha))))) (l _ (l _ (l _ (l _ (l _ hb)))))
    (i _ _ (l _ (l _ (l _ (l _ (l _ (l _ ha)))))) (l _ (l _ (l _ (l _ (l _ (l _ hb))))))
    (i _ _ (l _ (l _ (l _ (l _ (l _ (l _ (l _ ha))))))) (l _ (l _ (l _ (l _ (l _ (l _ (l _ hb)))))))
      h)))))))

theorem xor_byte_lt (c b : Nat) (h : c < 4294967296) : c ^^^ (b % 256) < 4294967296 :=
  Nat.xor_lt_two_pow (n := 32) h (by omega)

theorem crcByte_lt (c : Nat) (b : Byte) (h : c < 4294967296) : crcByte c b < 4294967296 :=
  crcShift8_lt _ (xor_byte_lt c b h)

theorem crcFeed_lt (bs : List Byte) : ∀ c, c < 4294967296 → crcFeed c bs < 4294967296 := by
  induction bs with
  | nil => intro c h; exact h
  | cons b bs ih => intro c h; exact ih _ (crcByte_lt c b h)

theorem crcFeed_inj (bs : List Byte) : ∀ a b, a < 4294967296 → b < 4294967296 →
    crcFeed a bs = crcFeed b bs → a = b := by
  induction bs with
  | nil => intro a b _ _ h; exact h
  | cons x bs ih =>
    intro a b ha hb h
    have h1 := ih _ _ (crcByte_lt a x ha) (crcByte_lt b x hb) h
    have h2 := crcShift8_inj _ _ (xor_byte_lt a x ha) (xor_byte_lt b x hb) h1
    exact Nat.xor_left_injective h2

theorem crc32_lt (bs : List Byte) : crc32 bs < 4294967296 :=
  Nat.xor_lt_two_pow (n := 32) (crcFeed_lt bs _ (by decide)) (by decide)

/-- CRC-32 tells two byte strings apart that differ in one byte. -/
theorem crc32_byte_change (a b : List Byte) (x y : Byte) (h : x % 256 ≠ y % 256) :
    crc32 (a ++ x :: b) ≠ crc32 (a ++ y :: b) := by
  intro heq
  unfold crc32 crcWrite at heq
  have h1 := Nat.xor_left_injective heq
  unfold crcFeed at h1
  rw [List.foldl_append, List.foldl_append, List.foldl_cons, List.foldl_cons] at h1
  have hs : List.foldl crcByte (0 ^^^ 4294967295) a < 4294967296 :=
    crcFeed_lt a _ (by decide)
  have h2 := crcFeed_inj b _ _ (crcByte_lt _ x hs) (crcByte_lt _ y hs) h1
  have h3 := crcShift8_inj _ _ (xor_byte_lt _ x hs) (xor_byte_lt _ y hs) h2
  exact h (Nat.xor_right_injective h3)

theorem metaHeaderStarts_mem_exif (pre post : List Chunk) (c : Chunk)
    (hfc : c.fourcc = fourccEXIF) :
    8 + (encodeChunks pre).length ∈ metaHeaderStarts 8 (pre ++ c :: post) := by
  apply metaHeaderStarts_append
  unfold metaHeaderStarts
  rw [hfc]
  exact List.mem_append_left _ (List.mem_cons_self _ _)

/-- A run of `Read` calls that goes past the start of an `eXIf` chunk with a wrong
stored checksum, the first recognised chunk of the stream. -/
theorem consume_bad (flate : List Byte → Option (List Byte) × Nat) (pre post : List Chunk)
    (c : Chunk) (hwf : ∀ x ∈ pre ++ c :: post, x.wellFormed)
    (hpre : ∀ x ∈ pre, isMetaCode x.fourcc = false) (hfc : c.fourcc = fourccEXIF)
    (hbad : be32 c.crc ≠ crc32 (c.fourcc ++ c.data)) :
    ∀ (sizes : List Nat) (d : Nat) (mr : MetaReader),
      Synced (pre ++ c :: post) d mr → Ahead pre d mr →
      (∀ s ∈ metaHeaderStarts 8 (pre ++ c :: post), ∀ e ∈ readEnds d sizes,
        ¬ (s < e ∧ e < s + 8)) →
      8 + (encodeChunks pre).length < d + sizes.sum →
      (consume flate sizes mr).2.1 = some .formatChecksum ∧
      (consume flate sizes mr).2.2.iccp = [] ∧ (consume flate sizes mr).2.2.exif = [] ∧
      (consume flate sizes mr).2.2.xmp = [] ∧
      8 + (encodeChunks pre).length + 8 ≤ d + (consume flate sizes mr).1.length := by
  have hcw : c.wellFormed := hwf c (List.mem_append_right _ (List.mem_cons_self _ _))
  have hclen := Chunk.encode_length c hcw
  have htot : (pngStream (pre ++ c :: post)).length
      = 8 + (encodeChunks pre).length + (c.data.length + 12) + (encodeChunks post).length := by
    rw [pngStream, encodeChunks_append, List.length_append, List.length_append, pngMagic_length,
      encodeChunks, List.length_append, hclen]
    omega
  intro sizes
  induction sizes with
  | nil =>
    intro d mr hinv hah _ hreach
    obtain ⟨-, hre0, -, -⟩ := hinv
    obtain ⟨-, -, -, p1, p2, hpp, hbound⟩ := hah
    have : (encodeChunks pre).length = (encodeChunks p1).length + (encodeChunks p2).length := by
      rw [hpp, encodeChunks_append, List.length_append]
    simp only [List.sum_nil] at hreach
    omega
  | cons n sizes ih =>
    intro d mr hinv hah hsplit hreach
    have hs := hsplit _ (metaHeaderStarts_mem_exif pre post c hfc) (d + n)
      (by unfold readEnds; exact List.mem_cons_self _ _)
    obtain ⟨hdata, -, hok, -⟩ := Read_spec flate (pre ++ c :: post) d mr n hwf hinv
      (fun s hs => hsplit s hs (d + n) (by unfold readEnds; exact List.mem_cons_self _ _))
    obtain ⟨hr1, hr2⟩ := Read_bad flate pre post c d mr n hwf hpre hfc hbad hinv hah hs
    unfold consume
    dsimp only
    by_cases hr : 8 + (encodeChunks pre).length < d + n
    · obtain ⟨he, hi, hx, hm⟩ := hr1 hr
      rw [he]
      dsimp only
      refine ⟨rfl, hi, hx, hm, ?_⟩
      rw [hdata, List.length_take, List.length_drop]
      omega
    · obtain ⟨he, hah2⟩ := hr2 (by omega)
      obtain ⟨hlen, hsync⟩ := hok he
      rw [he]
      dsimp only
      obtain ⟨h1, h2, h3, h4, h5⟩ := ih (d + n) (Read flate mr n).mr hsync hah2
        (fun s hs e he => hsplit s hs e (readEnds_mem_shift sizes d n e he))
        (by rw [List.sum_cons] at hreach; omega)
      refine ⟨h1, h2, h3, h4, ?_⟩
      rw [List.length_append, hlen]
      omega

theorem NewMetaReader_pngStream (cs : List Chunk) :
    NewMetaReader (pngStream cs) = .ok
      { inp := encodeChunks cs, tmp := pngMagic, crc := 0, reaming := 8,
        iccp := [], exif := [], xmp := [] } := by
  unfold NewMetaReader pngStream
  have h8 : (pngMagic ++ encodeChunks cs).take 8 = pngMagic :=
    List.take_left' pngMagic_length
  have hd : (pngMagic ++ encodeChunks cs).drop 8 = encodeChunks cs :=
    List.drop_left' pngMagic_length
  simp only [h8, hd]
  rfl

theorem Synced_start (cs : List Chunk) :
    Synced cs 0
      { inp := encodeChunks cs, tmp := pngMagic, crc := 0, reaming := 8,
        iccp := [], exif := [], xmp := [] } := by
  refine ⟨rfl, ?_, ?_, [], cs, rfl, rfl⟩
  · show (0 : Int) ≤ 8
    omega
  · show ((pngMagic.length : Nat) : Int) ≤ 8
    rw [pngMagic_length]
    omega

/-- C5, amended: checksum rejection for `eXIf`. The stream is the signature followed by
well-formed chunks; the first recognised chunk is an `eXIf` chunk `c` whose stored
checksum is wrong: its four trailing bytes differ from the CRC-32 of code and
data, or they are the right checksum of data that differ from the data of `c`
in one byte. The buffers do not split the header of a recognised chunk and go
past the start of `c`. Then the run ends with the PNG format error of the
checksum test, returned by a `Read` call whose buffer holds the header of `c`;
the bytes handed out are a prefix of the stream; and no tag is stored. -/
theorem exif_checksum_rejected (flate : List Byte → Option (List Byte) × Nat)
    (pre post : List Chunk) (c : Chunk) (sizes : List Nat)
    (hwf : ∀ x ∈ pre ++ c :: post, x.wellFormed)
    (hpre : ∀ x ∈ pre, isMetaCode x.fourcc = false) (hfc : c.fourcc = fourccEXIF)
    (hbad : be32 c.crc ≠ crc32 (c.fourcc ++ c.data) ∨
      ∃ a b x y, x % 256 ≠ y % 256 ∧ c.data = a ++ y :: b ∧
        c.crc = putBe32 (crc32 (c.fourcc ++ (a ++ x :: b))))
    (hsplit : headersUnsplit (pre ++ c :: post) sizes)
    (hreach : 8 + (encodeChunks pre).length < sizes.sum) :
    ∃ o, outcome flate (pngStream (pre ++ c :: post)) sizes = some o ∧
      o.err = some .formatChecksum ∧ Err.isFormat .formatChecksum = true ∧
      o.iccp = [] ∧ o.exif = [] ∧ o.xmp = [] ∧
      o.delivered <+: pngStream (pre ++ c :: post) ∧
      8 + (encodeChunks pre).length + 8 ≤ o.delivered.length := by
  have hne : be32 c.crc ≠ crc32 (c.fourcc ++ c.data) := by
    rcases hbad with h | ⟨a, b, x, y, hxy, hd, hc⟩
    · exact h
    · rw [hc, hd, be32_putBe32 _ (crc32_lt _), ← List.append_assoc, ← List.append_assoc]
      exact crc32_byte_change _ _ _ _ hxy
  have hah : Ahead pre 0
      { inp := encodeChunks (pre ++ c :: post), tmp := pngMagic, crc := 0, reaming := 8,
        iccp := [], exif := [], xmp := [] } :=
    ⟨rfl, rfl, rfl, [], pre, rfl, rfl⟩
  obtain ⟨h1, h2, h3, h4, h5⟩ := consume_bad flate pre post c hwf hpre hfc hne sizes 0 _
    (Synced_start _) hah hsplit (by omega)
  obtain ⟨hp, -⟩ := consume_spec flate (pre ++ c :: post) hwf sizes 0 _ (Synced_start _) hsplit
  unfold outcome
  rw [NewMetaReader_pngStream]
  refine ⟨_, rfl, h1, rfl, h2, h3, h4, hp, ?_⟩
  dsimp only
  omega

/-- C5, witness: `smallPng` with its `eXIf` chunk replaced by `flippedExif`, read with the
buffer sizes of a decoder. -/
theorem exif_checksum_rejected_witness :
    ∃ o, outcome noFlate (pngStream (smallPng.take 1 ++ flippedExif :: smallPng.drop 2))
        [8, 8, 13, 4, 8, 8, 4, 8, 4] = some o ∧
      o.err = some .formatChecksum ∧ Err.isFormat .formatChecksum = true ∧
      o.iccp = [] ∧ o.exif = [] ∧ o.xmp = [] ∧
      o.delivered <+: pngStream (smallPng.take 1 ++ flippedExif :: smallPng.drop 2) ∧
      8 + (encodeChunks (smallPng.take 1)).length + 8 ≤ o.delivered.length :=
  exif_checksum_rejected noFlate (smallPng.take 1) (smallPng.drop 2) flippedExif
    [8, 8, 13, 4, 8, 8, 4, 8, 4] (by decide!) (by decide!) rfl
    (Or.inr ⟨[69], [105, 102, 0, 0, 73, 73], 120, 121, by decide, rfl, by decide!⟩)
    (by decide!) (by decide!)

/-! ### Closing an endpoint twice -/

/-- A second `ZipInput.Close` after a successful one returns no error and changes
nothing. -/
theorem ZipInput.Close_idempotent (zi : ZipInput) (f1 f2 : Bool)
    (h : (zi.Close f1).1 = false) :
    (zi.Close f1).2.Close f2 = (false, (zi.Close f1).2) := by
  rcases zi with ⟨z, e, p, i⟩
  cases z <;> cases f1 <;> simp [ZipInput.Close, FileHandle.Close] at h ⊢

/-- A second `FileOutput.Close` after a successful one returns no error, makes no call
and changes nothing. -/
theorem FileOutput.second_Close (fo : FileOutput) (a b c a2 b2 c2 : Bool)
    (h : (fo.Close a b c).1 = false) :
    (fo.Close a b c).2.1.Close a2 b2 c2 = (false, (fo.Close a b c).2.1, []) := by
  rcases fo with ⟨f, p, i⟩
  cases f <;> cases i <;> cases a <;> cases b <;> cases c <;>
    simp [FileOutput.Close, FileHandle.Close] at h ⊢

/-- Every `UnRef` lowers the counter by one. -/
theorem SafeZipWriter.UnRef_ref (zw : SafeZipWriter) (c d : Bool) :
    (zw.UnRef c d).2.ref = wrapInt32 (zw.ref - 1) := by
  unfold SafeZipWriter.UnRef
  dsimp only
  split
  · rfl
  · split
    · rfl
    · split <;> rfl

/-- Every `ZipOutput.Close` takes one reference from the shared writer, whatever
happened before. -/
theorem ZipOutput.Close_ref (zo : ZipOutput) (ar : Archive) (n : Nat) (a b c d : Bool) :
    (zo.Close ar n a b c d).2.2.zw.ref = wrapInt32 (ar.zw.ref - 1) := by
  have key : ∀ w : Bool × ZipOutput × Archive, w.2.2.zw = ar.zw →
      (if (w.2.2.zw.UnRef c d).1 then
          ((true, w.2.1, { w.2.2 with zw := (w.2.2.zw.UnRef c d).2 }) : Bool × ZipOutput × Archive)
        else (w.1, w.2.1, { w.2.2 with zw := (w.2.2.zw.UnRef c d).2 })).2.2.zw.ref
        = wrapInt32 (ar.zw.ref - 1) := by
    intro w hw
    split <;> (dsimp only; rw [SafeZipWriter.UnRef_ref, hw])
  unfold ZipOutput.Close
  refine key _ ?_
  rcases zo.fh with _ | name <;> dsimp only
  split
  · rfl
  · split <;> rfl

/-- C11, the code at the failing input: `entryOut`, whose header lies at address 7, is
closed twice on an archive that two jobs share. The first `Close` writes the entry
and leaves one reference. The second `Close` of the same output, whatever the
outcome of the I/O calls, returns an error (`CreateHeader` refuses the header of
the last entry), writes no entry, and takes the last reference, so the archive
writer and the backing file are closed before the other job has written;
whatever fails in either call, two calls take two references. A `FileInput`
closed twice returns an error the second time. -/
theorem close_twice_unrefs_twice :
    entryOut.Close sharedByTwo 7 false false false false
        = (false, ⟨some [97], [], [122, 124, 97], 1⟩,
            ⟨⟨1, 0, 0⟩, [([97], [1, 2, 3])], some 7⟩) ∧
      (∀ e f g h,
        (ZipOutput.Close ⟨some [97], [], [122, 124, 97], 1⟩
            ⟨⟨1, 0, 0⟩, [([97], [1, 2, 3])], some 7⟩ 7 e f g h).1 = true ∧
          (ZipOutput.Close ⟨some [97], [], [122, 124, 97], 1⟩
            ⟨⟨1, 0, 0⟩, [([97], [1, 2, 3])], some 7⟩ 7 e f g h).2.2.entries
            = [([97], [1, 2, 3])] ∧
          (ZipOutput.Close ⟨some [97], [], [122, 124, 97], 1⟩
            ⟨⟨1, 0, 0⟩, [([97], [1, 2, 3])], some 7⟩ 7 e f g h).2.2.zw.ref = 0 ∧
          0 < (ZipOutput.Close ⟨some [97], [], [122, 124, 97], 1⟩
            ⟨⟨1, 0, 0⟩, [([97], [1, 2, 3])], some 7⟩ 7 e f g h).2.2.zw.writerCloses) ∧
      ZipOutput.Close ⟨some [97], [], [122, 124, 97], 1⟩
          ⟨⟨1, 0, 0⟩, [([97], [1, 2, 3])], some 7⟩ 7 false false false false
        = (true, ⟨some [97], [], [122, 124, 97], 1⟩,
            ⟨⟨0, 1, 1⟩, [([97], [1, 2, 3])], some 7⟩) ∧
      (∀ a b c d e f g h,
        ((entryOut.Close sharedByTwo 7 a b c d).2.1.Close
          (entryOut.Close sharedByTwo 7 a b c d).2.2 7 e f g h).2.2.zw.ref = 0) ∧
      FileInput.Close ⟨.opened, [97], none⟩ false = (false, ⟨.closed, [97], none⟩) ∧
      FileInput.Close ⟨.closed, [97], none⟩ false = (true, ⟨.closed, [97], none⟩) := by
  refine ⟨by decide, by decide, by decide, ?_, by decide, by decide⟩
  intro a b c d e f g h
  rw [ZipOutput.Close_ref, ZipOutput.Close_ref]
  decide

/-! ### Entry names -/

theorem le_two (a b : Nat) : le [a, b] = a % 256 + 256 * (b % 256) := by
  simp [le]

theorem ExtraRecord.encode_size (r : ExtraRecord) : r.encode.length = 4 + r.data.length := by
  simp [ExtraRecord.encode]; omega

theorem encodeRecords_length_ge (rs : List ExtraRecord) :
    rs.length ≤ (encodeRecords rs).length := by
  induction rs with
  | nil => simp [encodeRecords]
  | cons r rs ih =>
    simp only [encodeRecords, List.length_append, List.length_cons, ExtraRecord.encode_size]
    omega

/-- The loop of `DetectZipUTF8Path` from the start of a record of a well-formed extra
field. -/
theorem detectLoop_records (name : List Byte) (flag : Bool) (tail : List Byte) :
    ∀ (rs : List ExtraRecord) (pre : List Byte) (fuel : Nat),
      (∀ r ∈ rs, r.wellFormed) → rs.length < fuel →
      detectLoop ⟨name, flag, ⟨pre ++ encodeRecords rs ++ tail,
          pre.length + (encodeRecords rs).length⟩⟩ fuel pre.length
        = some (match rs.find? (ExtraRecord.isUnicodePathFor name) with
                | some r => (r.data.drop 5, false)
                | none => (name, true)) := by
  intro rs
  induction rs with
  | nil =>
    intro pre fuel _ hf
    obtain ⟨fuel, rfl⟩ : ∃ f, fuel = f + 1 := ⟨fuel - 1, by simp at hf; omega⟩
    simp [detectLoop, encodeRecords]
  | cons r rs ih =>
    intro pre fuel hwf hf
    obtain ⟨fuel, rfl⟩ : ∃ f, fuel = f + 1 := ⟨fuel - 1, by simp at hf; omega⟩
    obtain ⟨ht, hs, h5⟩ := hwf r (List.mem_cons_self _ _)
    have harr : pre ++ encodeRecords (r :: rs) ++ tail
        = pre ++ ([r.tag % 256, r.tag / 256 % 256, r.data.length % 256,
            r.data.length / 256 % 256] ++ (r.data ++ (encodeRecords rs ++ tail))) := by
      simp [encodeRecords, ExtraRecord.encode]
    have hlen : (encodeRecords (r :: rs)).length = 4 + r.data.length + (encodeRecords rs).length := by
      simp [encodeRecords, ExtraRecord.encode_size]
    have hnext := ih (pre ++ r.encode) fuel (fun x hx => hwf x (List.mem_cons_of_mem _ hx))
      (by simp at hf; omega)
    have hnext' : detectLoop ⟨name, flag, ⟨pre ++ encodeRecords (r :: rs) ++ tail,
          pre.length + (4 + r.data.length + (encodeRecords rs).length)⟩⟩ fuel
          (pre.length + 2 + 2 + r.data.length)
        = some (match rs.find? (ExtraRecord.isUnicodePathFor name) with
                | some r => (r.data.drop 5, false)
                | none => (name, true)) := by
      rw [← hnext]
      congr 2
      · congr 1
        · simp [encodeRecords, List.append_assoc]
        · simp [encodeRecords, ExtraRecord.encode_size]; omega
      · simp [ExtraRecord.encode_size]; omega
    unfold detectLoop
    rw [hlen]
    dsimp only
    rw [if_pos (by omega)]
    have hal : (pre ++ encodeRecords (r :: rs) ++ tail).length
        = pre.length + (4 + r.data.length + (encodeRecords rs).length) + tail.length := by
      rw [List.length_append, List.length_append, hlen]
    have hd0 : (pre ++ encodeRecords (r :: rs) ++ tail).drop pre.length
        = [r.tag % 256, r.tag / 256 % 256, r.data.length % 256, r.data.length / 256 % 256]
            ++ (r.data ++ (encodeRecords rs ++ tail)) := by
      rw [harr, List.drop_left]
    have hd2 : (pre ++ encodeRecords (r :: rs) ++ tail).drop (pre.length + 2)
        = [r.data.length % 256, r.data.length / 256 % 256]
            ++ (r.data ++ (encodeRecords rs ++ tail)) := by
      rw [← List.drop_drop, hd0]; rfl
    have hd4 : (pre ++ encodeRecords (r :: rs) ++ tail).drop (pre.length + 2 + 2)
        = r.data ++ (encodeRecords rs ++ tail) := by
      rw [← List.drop_drop, hd2]; rfl
    have htag : le [r.tag % 256, r.tag / 256 % 256] = r.tag := by
      rw [le_two]; omega
    have hsize : le [r.data.length % 256, r.data.length / 256 % 256] = r.data.length := by
      rw [le_two]; omega
    simp only [Slice.slice, Slice.bytes, Slice.sliceFrom, hal]
    rw [if_pos (by omega)]
    dsimp only
    rw [if_pos (by omega)]
    dsimp only
    rw [hd0, hd2]
    simp only [show pre.length + 2 - pre.length = 2 by omega,
      show pre.length + 2 + 2 - (pre.length + 2) = 2 by omega]
    have t1 : List.take 2 ([r.tag % 256, r.tag / 256 % 256, r.data.length % 256,
        r.data.length / 256 % 256] ++ (r.data ++ (encodeRecords rs ++ tail)))
        = [r.tag % 256, r.tag / 256 % 256] := rfl
    have t2 : List.take 2 ([r.data.length % 256, r.data.length / 256 % 256]
        ++ (r.data ++ (encodeRecords rs ++ tail)))
        = [r.data.length % 256, r.data.length / 256 % 256] := rfl
    rw [t1, t2, htag, hsize]
    by_cases htg : r.tag = 0x7075
    · rw [if_pos htg]
      have h5' := h5 htg
      rw [if_pos (by omega)]
      dsimp only
      rw [hd4]
      rw [if_pos (by simp; omega)]
      dsimp only
      have hcrcbytes : List.take (5 - 1) (List.drop 1 (r.data ++ (encodeRecords rs ++ tail)))
          = (r.data.drop 1).take 4 := by
        rw [List.drop_append_of_le_length (by omega), List.take_append_of_le_length]
        rw [List.length_drop]; omega
      rw [hcrcbytes]
      by_cases hcrc : le ((r.data.drop 1).take 4) = crc32 name
      · rw [if_pos hcrc]
        rw [if_pos (by simp; omega)]
        dsimp only
        have hb : ExtraRecord.isUnicodePathFor name r = true := by
          unfold ExtraRecord.isUnicodePathFor
          rw [htg, hcrc]
          simp
        have hfind : (r :: rs).find? (ExtraRecord.isUnicodePathFor name) = some r := by
          rw [List.find?_cons, hb]
        rw [hfind]
        dsimp only
        congr 2
        rw [show pre.length + 2 + 2 + r.data.length - (pre.length + 2 + 2) = r.data.length by omega,
          List.drop_append_of_le_length (by omega), List.take_append_of_le_length
            (by rw [List.length_drop]),
          List.take_of_length_le (by rw [List.length_drop])]
      · rw [if_neg hcrc, hnext']
        have hb : ExtraRecord.isUnicodePathFor name r = false := by
          unfold ExtraRecord.isUnicodePathFor
          rw [Bool.and_eq_false_iff]
          right
          exact beq_eq_false_iff_ne.mpr hcrc
        have hfind : (r :: rs).find? (ExtraRecord.isUnicodePathFor name)
            = rs.find? (ExtraRecord.isUnicodePathFor name) := by
          rw [List.find?_cons, hb]
        rw [hfind]
    · rw [if_neg htg, hnext']
      have hb : ExtraRecord.isUnicodePathFor name r = false := by
        unfold ExtraRecord.isUnicodePathFor
        rw [Bool.and_eq_false_iff]
        left
        exact beq_eq_false_iff_ne.mpr htg
      have hfind : (r :: rs).find? (ExtraRecord.isUnicodePathFor name)
          = rs.find? (ExtraRecord.isUnicodePathFor name) := by
        rw [List.find?_cons, hb]
      rw [hfind]

/-- C12: for a header whose extra field is made of well-formed records (possibly
followed by spare capacity `tail` of the slice), `DetectZipUTF8Path` returns the raw
name and `false` when the header is not flagged non-UTF-8; otherwise the name of
the first Info-ZIP Unicode Path record whose `NameCRC32` is the CRC-32 of the raw
name, and `false`; otherwise the raw name and `true`. -/
theorem detect_follows_first_valid_record (name : List Byte) (nonUTF8 : Bool)
    (rs : List ExtraRecord) (tail : List Byte) (hwf : ∀ r ∈ rs, r.wellFormed) :
    DetectZipUTF8Path ⟨name, nonUTF8, ⟨encodeRecords rs ++ tail, (encodeRecords rs).length⟩⟩
      = some (detectByRecords name nonUTF8 rs) := by
  unfold DetectZipUTF8Path detectByRecords
  cases nonUTF8
  · rfl
  · have h := detectLoop_records name true tail rs [] ((encodeRecords rs).length + 1) hwf
      (Nat.lt_succ_of_le (encodeRecords_length_ge rs))
    simp only [List.nil_append, List.length_nil, Nat.zero_add] at h
    simpa using h

/-- C12, witness: the raw name `[0xC4]`, flagged non-UTF-8, with the records `upRecords`;
the name comes from the third record, the first whose checksum is right. -/
theorem detect_follows_first_valid_record_witness :
    DetectZipUTF8Path ⟨[196], true, ⟨encodeRecords upRecords ++ [7, 7],
        (encodeRecords upRecords).length⟩⟩ = some (detectByRecords [196] true upRecords) ∧
      detectByRecords [196] true upRecords = ([195, 132], false) :=
  ⟨detect_follows_first_valid_record [196] true upRecords [7, 7] (by decide!), by decide!⟩

/-! ### Nested ZIP paths -/

theorem lastIndexSep_none (p : Path) : lastIndexSep p = -1 ↔ (124 : Byte) ∉ p := by
  unfold lastIndexSep
  rcases h : p.reverse.indexOf? 124 with _ | i
  · simp only [true_iff]
    unfold List.indexOf? at h
    rw [List.findIdx?_eq_none_iff] at h
    intro hm
    have := h 124 (List.mem_reverse.mpr hm)
    simp at this
  · have hi : i < p.reverse.length := by
      unfold List.indexOf? at h
      exact (List.findIdx?_eq_some_iff_findIdx_eq.mp h).1
    rw [List.length_reverse] at hi
    dsimp only
    constructor
    · intro h1; omega
    · intro hn
      exfalso
      unfold List.indexOf? at h
      have := List.findIdx?_eq_some_iff_getElem.mp h
      obtain ⟨hlt, hb, -⟩ := this
      apply hn
      have hmem : p.reverse[i] ∈ p.reverse := List.getElem_mem _
      rw [List.mem_reverse] at hmem
      have : p.reverse[i] = 124 := by simpa using hb
      rwa [this] at hmem

theorem lastIndexSep_append (A E : Path) (hE : (124 : Byte) ∉ E) :
    lastIndexSep (A ++ NestSeparator ++ E) = A.length := by
  unfold lastIndexSep NestSeparator
  have hrev : (A ++ [124] ++ E).reverse = E.reverse ++ 124 :: A.reverse := by simp
  have hidx : (E.reverse ++ 124 :: A.reverse).indexOf? (124 : Byte) = some E.length := by
    unfold List.indexOf?
    rw [List.findIdx?_eq_some_iff_getElem]
    refine ⟨by simp, ?_, ?_⟩
    · rw [List.getElem_append_right (by simp)]
      simp
    · intro j hj
      have hj2 : j < E.reverse.length := by simpa using hj
      rw [List.getElem_append_left hj2]
      intro hb
      apply hE
      have hmem : E.reverse[j] ∈ E.reverse := List.getElem_mem _
      rw [List.mem_reverse] at hmem
      have : E.reverse[j] = 124 := by simpa using hb
      rwa [this] at hmem
  rw [hrev, hidx]
  simp
  omega

/-- C13, counterexample: the endpoints built from the archive path `z` and the entry
name `x|y` address the archive `z|x` and the entry `y`; in an environment where the
archive `z` holds an entry `x`, `Open` fails on the archive that does not exist. -/
theorem entry_name_with_separator_splits_late :
    (NewZipInput ([122] ++ NestSeparator ++ [120, 124, 121])).map
        (fun zi => (zi.archivePath, zi.entryName, (zi.Open twoEntryEnv false).1))
      = some ([122, 124, 120], [121], true) ∧
    (NewZipOutput ([122] ++ NestSeparator ++ [120, 124, 121])).map
        (fun zo => (zo.Open none).fh) = some (some [121]) := by
  decide

/-- C13, amended: `NewZipInput` and `NewZipOutput` fail exactly on the paths without `|`;
and for every archive path `A` and every entry name `E` without `|`, the endpoints
built from `A|E` address archive `A` and entry `E`: `ZipInput.Open` opens the archive
`A`, fails when it cannot be opened or holds no entry named `E`, and otherwise
selects the entry named `E`; `ZipOutput.Open` makes a header named `E`. -/
theorem nested_path_addresses (env : Env) (A E : Path) (hE : (124 : Byte) ∉ E) :
    (∀ p, (NewZipInput p = none ↔ (124 : Byte) ∉ p) ∧
      (NewZipOutput p = none ↔ (124 : Byte) ∉ p)) ∧
    (∃ zi, NewZipInput (A ++ NestSeparator ++ E) = some zi ∧
      zi.archivePath = A ∧ zi.entryName = E ∧
      (env.openZip A = none → ∀ f, (zi.Open env f).1 = true) ∧
      (∀ files, env.openZip A = some files →
        ((∀ e ∈ files, e.header.Name ≠ E) → ∀ f, (zi.Open env f).1 = true) ∧
        ((∃ e ∈ files, e.header.Name = E) →
          ∀ f, (zi.Open env f).1 = f ∧ (zi.Open env f).2.entry = some E))) ∧
    (∃ zo, NewZipOutput (A ++ NestSeparator ++ E) = some zo ∧
      ∀ info, (zo.Open info).fh = some E) := by
  have hidx := lastIndexSep_append A E hE
  have hne : lastIndexSep (A ++ NestSeparator ++ E) ≠ -1 := by rw [hidx]; omega
  have htake : (A ++ NestSeparator ++ E).take A.length = A := by
    rw [List.append_assoc, List.take_left]
  have hdrop : (A ++ NestSeparator ++ E).drop (A.length + 1) = E := by
    have : (A ++ NestSeparator).length = A.length + 1 := by simp [NestSeparator]
    rw [← this, List.drop_left]
  refine ⟨fun p => ?_, ?_, ?_⟩
  · unfold NewZipInput NewZipOutput
    constructor
    · rw [← lastIndexSep_none]
      by_cases h : lastIndexSep p = -1
      · simp [h]
      · simp [h]
    · rw [← lastIndexSep_none]
      by_cases h : lastIndexSep p = -1
      · simp [h]
      · simp [h]
  · refine ⟨_, by unfold NewZipInput; rw [if_neg hne], ?_, ?_, ?_, ?_⟩
    · show (A ++ NestSeparator ++ E).take (lastIndexSep (A ++ NestSeparator ++ E)).toNat = A
      rw [hidx]
      exact htake
    · show (A ++ NestSeparator ++ E).drop (lastIndexSep (A ++ NestSeparator ++ E) + 1).toNat = E
      rw [hidx]
      exact hdrop
    · intro hnone f
      unfold ZipInput.Open ZipInput.archivePath
      dsimp only
      rw [hidx, show ((A.length : Int)).toNat = A.length from rfl, htake, hnone]
    · intro files hfiles
      have hopen : ∀ f, (ZipInput.Open env ((⟨.nil, none, A ++ NestSeparator ++ E, lastIndexSep (A ++ NestSeparator ++ E)⟩ : ZipInput)) f).1
            = (match files.find? (fun e => E == e.header.Name) with
               | some _ => f
               | none => true) ∧
          (ZipInput.Open env ((⟨.nil, none, A ++ NestSeparator ++ E, lastIndexSep (A ++ NestSeparator ++ E)⟩ : ZipInput)) f).2.entry
            = (files.find? (fun e => E == e.header.Name)).map (fun e => e.header.Name) := by
        intro f
        unfold ZipInput.Open ZipInput.archivePath ZipInput.entryName
        dsimp only
        rw [hidx, show ((A.length : Int)).toNat = A.length from rfl,
          show ((A.length : Int) + 1).toNat = A.length + 1 from rfl, htake, hdrop, hfiles]
        dsimp only
        rcases hfind : files.find? (fun e => E == e.header.Name) with _ | e2 <;> simp [hfind]
      constructor
      · intro hall f
        have : files.find? (fun e => E == e.header.Name) = none := by
          rw [List.find?_eq_none]
          intro e he
          simpa using (hall e he).symm
        rw [(hopen f).1, this]
      · rintro ⟨e, he, hname⟩ f
        rw [(hopen f).1, (hopen f).2]
        rcases hfind : files.find? (fun e => E == e.header.Name) with _ | e2
        · rw [List.find?_eq_none] at hfind
          have := hfind e he
          simp [hname] at this
        · have := List.find?_some hfind
          have h2 : E = e2.header.Name := by simpa using this
          rw [hfind, Option.map_some', ← h2]
          exact ⟨rfl, rfl⟩
  · refine ⟨_, by unfold NewZipOutput; rw [if_neg hne], fun info => ?_⟩
    unfold ZipOutput.Open
    dsimp only
    rw [hidx, show ((A.length : Int) + 1).toNat = A.length + 1 from rfl, hdrop]

/-- C13, witness: archive path `z`, entry name `x`. -/
theorem nested_path_addresses_witness :
    (124 : Byte) ∉ [(120 : Byte)] ∧
      ∃ zi, NewZipInput ([122] ++ NestSeparator ++ [120]) = some zi ∧
        zi.archivePath = [122] ∧ zi.entryName = [120] :=
  ⟨by decide, (nested_path_addresses twoEntryEnv [122] [120] (by decide)).2.1.imp
    (fun _ h => ⟨h.1, h.2.1, h.2.2.1⟩)⟩

/-! ### The lifecycle of a job -/

/-- C14: whatever fails, `Job.do` closes the input once and the output once; when
`in.Open` fails it calls neither `out.Open` nor the codec; and `job.Err` is the first
failure in the order input-open, output-open, codec, input-close, output-close, so
it is nil exactly when none of the five fails. -/
theorem job_do_lifecycle (job : Job) (o : Outcomes) :
    (job.do o).ops.count .inClose = 1 ∧ (job.do o).ops.count .outClose = 1 ∧
      (o.inOpen ≠ none →
        .convert ∉ (job.do o).ops ∧ ∀ b, .outOpen b ∉ (job.do o).ops) ∧
      (job.do o).Err = firstError [o.inOpen, o.outOpen, o.codec, o.inClose, o.outClose] ∧
      ((job.do o).Err = none ↔
        o.inOpen = none ∧ o.outOpen = none ∧ o.codec = none ∧ o.inClose = none ∧
          o.outClose = none) := by
  rcases o with ⟨a, b, c, d, w, e, f⟩
  rcases job with ⟨i, u, k, m⟩
  cases a <;> cases b <;> cases c <;> cases d <;> cases e <;> cases f <;> cases m <;>
    simp [Job.do, closeBoth, firstError, List.count_cons, List.count_nil]

/-! ### The monitor -/

theorem LoopState.run_exit (cs : List Choice) :
    ∀ s : LoopState, (s.run cs).2 = true → (s.run cs).1.mayExit = true := by
  induction cs with
  | nil => intro s h; simp [LoopState.run] at h
  | cons c cs ih =>
    intro s h
    unfold LoopState.run at h ⊢
    dsimp only at h ⊢
    by_cases hc : (s.step c).2 = true
    · rw [if_pos hc] at h ⊢
      cases c with
      | default => exact hc
      | tick1s => simp [LoopState.step] at hc
      | tick30s => simp [LoopState.step] at hc
      | msg m => cases m <;> simp [LoopState.step] at hc
    · rw [if_neg hc] at h ⊢
      exact ih _ h

theorem LoopState.run_ticks (s : LoopState) (cs : List Choice)
    (hcs : ∀ c ∈ cs, c = .tick1s ∨ c = .tick30s ∨ c = .default) (hs : s.mayExit = false) :
    s.run cs = (s, false) := by
  induction cs with
  | nil => rfl
  | cons c cs ih =>
    unfold LoopState.run
    have hstep : s.step c = (s, false) := by
      rcases hcs c (List.mem_cons_self _ _) with h | h | h <;> subst h
      · rfl
      · rfl
      · simp [LoopState.step, hs]
    rw [hstep]
    simp only [Bool.false_eq_true, if_false]
    exact ih (fun c hc => hcs c (List.mem_cons_of_mem _ hc))

/-- C15, counterexample: one job is finished and `transfer.done` and the scanner result
(one job, no error) are received before the `scanner.new-job` message of that job.
In the state reached the four conditions of the claim hold, and the loop is not
left, however often the tickers fire and the `default` branch is tried. -/
theorem monitor_waits_for_new_job_events :
    (LoopState.init.run
        [.msg (.transferJobDone doneJob), .msg .transferDone, .msg (.scannerDone (some ⟨1, 0⟩))]).1
      = ⟨⟨⟨1, 0⟩, ⟨0, 0⟩, 0, 0, ⟨0, 1⟩, 0⟩, true, some ⟨1, 0⟩⟩ ∧
    LoopState.fourConditions ⟨⟨⟨1, 0⟩, ⟨0, 0⟩, 0, 0, ⟨0, 1⟩, 0⟩, true, some ⟨1, 0⟩⟩ ∧
    ∀ cs : List Choice, (∀ c ∈ cs, c = .tick1s ∨ c = .tick30s ∨ c = .default) →
      (LoopState.run ⟨⟨⟨1, 0⟩, ⟨0, 0⟩, 0, 0, ⟨0, 1⟩, 0⟩, true, some ⟨1, 0⟩⟩ cs).2 = false := by
  refine ⟨by decide, ⟨rfl, ⟨1, 0⟩, rfl, rfl, rfl⟩, fun cs hcs => ?_⟩
  rw [LoopState.run_ticks _ cs hcs (by decide)]

/-- C15, amended: absent cancellation the loop is left only through the `default`
branch, in a state where `transfer.done` was received, the scanner result was
received, the counts of new-job messages and of finished jobs both equal the
scanner's job count and the count of scanner errors equals the scanner's error
count; and in every state where these five conditions hold the `default` branch
leaves the loop. -/
theorem monitor_exit_condition :
    (∀ (s : LoopState) (cs : List Choice), (s.run cs).2 = true →
      (s.run cs).1.transferDone = true ∧ ∃ sc, (s.run cs).1.sc = some sc ∧
        (s.run cs).1.mo.jobCount.v = sc.jobCount ∧ (s.run cs).1.mo.jobCount.t = sc.jobCount ∧
        (s.run cs).1.mo.scannerErr = sc.errCount) ∧
    (∀ (s : LoopState) (sc : ScannerResult), s.transferDone = true → s.sc = some sc →
      s.mo.jobCount.v = sc.jobCount → s.mo.jobCount.t = sc.jobCount →
      s.mo.scannerErr = sc.errCount → (s.step .default).2 = true) ∧
    (∀ (s : LoopState) (c : Choice), (s.step c).2 = true → c = .default) := by
  refine ⟨fun s cs h => ?_, fun s sc h1 h2 h3 h4 h5 => ?_, fun s c h => ?_⟩
  · have hm := LoopState.run_exit cs s h
    generalize (s.run cs).1 = r at hm
    unfold LoopState.mayExit at hm
    rcases hsc : r.sc with _ | sc
    · rw [hsc] at hm; simp at hm
    · rw [hsc] at hm
      simp only [Bool.and_eq_true, beq_iff_eq] at hm
      exact ⟨hm.1.1.1, sc, rfl, hm.1.1.2, hm.1.2, hm.2⟩
  · show s.mayExit = true
    unfold LoopState.mayExit
    rw [h2]
    simp [h1, h3, h4, h5]
  · cases c with
    | default => rfl
    | tick1s => simp [LoopState.step] at h
    | tick30s => simp [LoopState.step] at h
    | msg m => cases m <;> simp [LoopState.step] at h

/-- C15, witness: the messages of one job arrive, then `transfer.done` and the scanner
result; the next `default` branch leaves the loop. -/
theorem monitor_exit_condition_witness :
    (LoopState.init.run
        [.msg (.scannerNewJob doneJob), .msg (.transferJobDone doneJob), .msg .transferDone,
          .msg (.scannerDone (some ⟨1, 0⟩)), .default]).2 = true ∧
      (LoopState.step ⟨⟨⟨1, 1⟩, ⟨0, 0⟩, 0, 0, ⟨1, 1⟩, 0⟩, true, some ⟨1, 0⟩⟩ .default).2 = true :=
  ⟨by decide, monitor_exit_condition.2.1 _ ⟨1, 0⟩ rfl rfl rfl rfl rfl⟩

/-! ### Image comparison -/

/-- C17, the code at the failing input: the left pixel of `twoPixels` as a sub-image, the
image `onePixel` and the left pixel of `twoPixelsB` as a sub-image have the same
bounds and the same colour at their only point. Compared with `onePixel`, the
first sub-image makes `IsImageEqual` panic (index out of range), and the two
sub-images are found different; the same pixels behind another image type are
found equal. -/
theorem nrgba_fast_path_reads_outside_bounds :
    (twoPixels.SubImage ⟨0, 0, 1, 1⟩).Rect = onePixel.Rect ∧
      (twoPixelsB.SubImage ⟨0, 0, 1, 1⟩).Rect = onePixel.Rect ∧
      (twoPixels.SubImage ⟨0, 0, 1, 1⟩).At 0 0 = onePixel.At 0 0 ∧
      (twoPixelsB.SubImage ⟨0, 0, 1, 1⟩).At 0 0 = onePixel.At 0 0 ∧
      IsImageEqual (.nrgba (twoPixels.SubImage ⟨0, 0, 1, 1⟩)) (.nrgba onePixel) = none ∧
      IsImageEqual (.nrgba onePixel) (.nrgba (twoPixels.SubImage ⟨0, 0, 1, 1⟩)) = some true ∧
      IsImageEqual (.nrgba (twoPixels.SubImage ⟨0, 0, 1, 1⟩))
        (.nrgba (twoPixelsB.SubImage ⟨0, 0, 1, 1⟩)) = some false ∧
      IsImageEqual (.nrgba (twoPixels.SubImage ⟨0, 0, 1, 1⟩))
        (.other ⟨0, 0, 1, 1⟩ (fun _ _ => ⟨1, 2, 3, 4⟩)) = some true := by
  decide

/-! ### Metadata splicing -/

theorem spliceStep_eq (lib : WebPLib) (meta : MetaChunks) (st : List Byte × List Warning)
    (cc key : List Byte) (hkey : trimRightSpaces (cc.take 4) = key) :
    spliceStep lib meta st cc
      = (spliceTag lib meta st.1 cc key, st.2 ++ spliceWarning lib meta st.1 cc key) := by
  unfold spliceStep spliceTag spliceWarning
  rw [hkey]
  rcases meta.Get key with _ | chunk
  · simp
  · dsimp only
    rcases lib.setMetadata st.1 cc chunk with e | b <;> simp

/-- C16: when `imagex.Decode` and the encoder succeed and the lossless check does not
panic, `Convert` passes to `out.Write` the encoder output folded through `SetMetadata` for
`ICCP`, `EXIF`, `XMP` in that order, with the chunks stored under the keys `ICCP`,
`EXIF`, `XMP`, absent chunks skipped and failed calls leaving the buffer as it was;
the warnings are those of the check followed by one for every failing
`SetMetadata`; and with `CopyMeta` off or an empty source the bytes are the encoder
output. -/
theorem convert_splices_metadata (lib : WebPLib) (lossless copyMeta checkImage : Bool)
    (input : List Byte) (img : Image) (meta : MetaChunks) (enc : List Byte)
    (ws : List Warning) (hdec : lib.decode input = .ok (img, meta))
    (henc : lib.encodeSlice img = .ok enc)
    (hchk : losslessCheck lib lossless checkImage img enc = some ws) :
    ∃ r, WebPConvert lib lossless copyMeta checkImage input = some r ∧
      (copyMeta = true → meta.Empty = false →
        r.written = some (splicedByClaim lib meta enc) ∧
        r.warnings = ws ++ spliceWarning lib meta enc webpICCP [73, 67, 67, 80]
          ++ spliceWarning lib meta (spliceTag lib meta enc webpICCP [73, 67, 67, 80])
              webpEXIF [69, 88, 73, 70]
          ++ spliceWarning lib meta
              (spliceTag lib meta (spliceTag lib meta enc webpICCP [73, 67, 67, 80])
                webpEXIF [69, 88, 73, 70]) webpXMP [88, 77, 80]) ∧
      (copyMeta = false ∨ meta.Empty = true → r.written = some enc ∧ r.warnings = ws) ∧
      (∀ (buf : List Byte) (w : List Warning) (cc chunk : List Byte) (e : ErrorVal),
        meta.Get (trimRightSpaces (cc.take 4)) = some chunk →
        lib.setMetadata buf cc chunk = .error e →
        spliceStep lib meta (buf, w) cc = (buf, w ++ [.setFailed cc e])) := by
  have hstep : ∀ (buf : List Byte) (w : List Warning) (cc chunk : List Byte) (e : ErrorVal),
      meta.Get (trimRightSpaces (cc.take 4)) = some chunk →
      lib.setMetadata buf cc chunk = .error e →
      spliceStep lib meta (buf, w) cc = (buf, w ++ [.setFailed cc e]) := by
    intro buf w cc chunk e h1 h2
    unfold spliceStep
    rw [h1]
    dsimp only
    rw [h2]
  have hfold : [webpICCP, webpEXIF, webpXMP].foldl (spliceStep lib meta) (enc, ws)
      = (splicedByClaim lib meta enc,
          ws ++ spliceWarning lib meta enc webpICCP [73, 67, 67, 80]
          ++ spliceWarning lib meta (spliceTag lib meta enc webpICCP [73, 67, 67, 80])
              webpEXIF [69, 88, 73, 70]
          ++ spliceWarning lib meta
              (spliceTag lib meta (spliceTag lib meta enc webpICCP [73, 67, 67, 80])
                webpEXIF [69, 88, 73, 70]) webpXMP [88, 77, 80]) := by
    simp only [List.foldl_cons, List.foldl_nil]
    rw [spliceStep_eq lib meta _ webpICCP [73, 67, 67, 80] (by decide),
      spliceStep_eq lib meta _ webpEXIF [69, 88, 73, 70] (by decide),
      spliceStep_eq lib meta _ webpXMP [88, 77, 80] (by decide)]
    rfl
  unfold WebPConvert
  rw [hdec]
  dsimp only
  rw [henc]
  dsimp only
  rw [hchk]
  dsimp only
  by_cases hc : (copyMeta && !meta.Empty) = true
  · rw [if_pos hc, hfold]
    have hc1 : copyMeta = true ∧ meta.Empty = false := by
      simpa using hc
    rcases lib.write (splicedByClaim lib meta enc) with _ | e
    · exact ⟨_, rfl, fun _ _ => ⟨rfl, rfl⟩,
        fun h => by rcases h with h | h <;> simp [hc1.1, hc1.2] at h, hstep⟩
    · exact ⟨_, rfl, fun _ _ => ⟨rfl, rfl⟩,
        fun h => by rcases h with h | h <;> simp [hc1.1, hc1.2] at h, hstep⟩
  · rw [if_neg hc]
    have hc1 : ¬ (copyMeta = true ∧ meta.Empty = false) := by
      simpa using hc
    rcases lib.write enc with _ | e
    · exact ⟨_, rfl, fun h1 h2 => absurd ⟨h1, h2⟩ hc1, fun _ => ⟨rfl, rfl⟩, hstep⟩
    · exact ⟨_, rfl, fun h1 h2 => absurd ⟨h1, h2⟩ hc1, fun _ => ⟨rfl, rfl⟩, hstep⟩

/-- C16, witness: with `appendLib` the ICC profile is spliced in, the failing `EXIF` call
leaves the buffer and adds one warning, and the absent `XMP` chunk is skipped. -/
theorem convert_splices_metadata_witness :
    ∃ r, WebPConvert appendLib false true false [] = some r ∧ r.written = some [0, 1] ∧
      r.warnings = [.setFailed webpEXIF 5] :=
  (convert_splices_metadata appendLib false true false [] (.nrgba onePixel) _ [0] []
    rfl rfl rfl).imp (fun _ h => ⟨h.1, (h.2.1 rfl rfl).1, (h.2.1 rfl rfl).2⟩)

/-! ### Glob matching: the bounds on the iterations are never reached -/

theorem decodeMulti_pos (s0 sz lo hi : Nat) (rest : List Byte) :
    1 ≤ (decodeMulti s0 sz lo hi rest).2 := by
  unfold decodeMulti
  repeat' split
  all_goals simp

theorem decodeRune_pos (c : Byte) (rest : List Byte) : 1 ≤ (decodeRune (c :: rest)).2 := by
  unfold decodeRune
  dsimp only
  split
  · exact Nat.le_refl 1
  · split
    · exact Nat.le_refl 1
    · exact decodeMulti_pos _ _ _ _ _

theorem getEsc_error (chunk : List Byte) (e : MatchErr) (h : getEsc chunk = .error e) :
    e = .badPattern := by
  unfold getEsc at h
  rcases chunk with _ | ⟨c, rest⟩
  · injection h with h; exact h.symm
  · dsimp only at h
    split_ifs at h <;> (injection h with h; exact h.symm)

theorem getEsc_length (chunk : List Byte) (r : Nat) (c1 : List Byte)
    (h : getEsc chunk = .ok (r, c1)) : c1.length < chunk.length := by
  unfold getEsc at h
  rcases chunk with _ | ⟨c, rest⟩
  · simp at h
  · dsimp only at h
    split_ifs at h with h1 h2 h3 h4
    · injection h with h
      injection h with _ h
      subst h
      rw [List.length_drop, List.length_cons]
      omega
    · injection h with h
      injection h with _ h
      subst h
      have := decodeRune_pos c rest
      rw [List.length_drop, List.length_cons]
      omega

theorem classLoop_spec : ∀ (fuel r : Nat) (chunk : List Byte) (found : Bool) (nrange : Nat),
    chunk.length < fuel →
    classLoop fuel r chunk found nrange ≠ .error .fuel ∧
      ∀ f c2, classLoop fuel r chunk found nrange = .ok (f, c2) → c2.length < chunk.length := by
  intro fuel
  induction fuel with
  | zero => intro r chunk found nrange h; omega
  | succ fuel ih =>
    intro r chunk found nrange hlen
    unfold classLoop
    by_cases hb : chunk.head? = some 93 ∧ 0 < nrange
    · rw [if_pos hb]
      refine ⟨by simp, fun f c2 h => ?_⟩
      injection h with h
      injection h with _ h
      subst h
      rcases chunk with _ | ⟨c, rest⟩
      · simp at hb
      · simp
    · rw [if_neg hb]
      rcases hg : getEsc chunk with e | ⟨lo, chunk1⟩
      · dsimp only
        have he : e = .badPattern := getEsc_error _ _ hg
        subst he
        exact ⟨by simp, fun f c2 h => by simp at h⟩
      · dsimp only
        have h1 := getEsc_length chunk lo chunk1 hg
        by_cases hd : chunk1.head? = some 45
        · rw [if_pos hd]
          rcases hg2 : getEsc chunk1.tail with e | ⟨hi, chunk2⟩
          · dsimp only
            have he : e = .badPattern := getEsc_error _ _ hg2
            subst he
            exact ⟨by simp, fun f c2 h => by simp at h⟩
          · dsimp only
            have h2 := getEsc_length _ hi chunk2 hg2
            have h3 : chunk1.tail.length ≤ chunk1.length := by simp
            obtain ⟨i1, i2⟩ := ih r chunk2 (found || (decide (lo ≤ r) && decide (r ≤ hi)))
              (nrange + 1) (by omega)
            exact ⟨i1, fun f c2 h => by have := i2 f c2 h; omega⟩
        · rw [if_neg hd]
          obtain ⟨i1, i2⟩ := ih r chunk1 (found || (decide (lo ≤ r) && decide (r ≤ lo)))
            (nrange + 1) (by omega)
          exact ⟨i1, fun f c2 h => by have := i2 f c2 h; omega⟩

theorem matchChunkLoop_fuel : ∀ (fuel : Nat) (chunk s : List Byte) (failed : Bool),
    chunk.length < fuel → matchChunkLoop fuel chunk s failed ≠ .error .fuel := by
  intro fuel
  induction fuel with
  | zero => intro chunk s failed h; omega
  | succ fuel ih =>
    intro chunk s failed hlen
    unfold matchChunkLoop
    rcases chunk with _ | ⟨c, rest⟩
    · dsimp only
      split <;> simp
    · dsimp only
      have hrest : rest.length < fuel := by simpa using hlen
      by_cases h91 : c = 91
      · rw [if_pos h91]
        have htl : (if decide (rest.head? = some 94) = true then rest.tail else rest).length
            < fuel := by
          split
          · have : rest.tail.length ≤ rest.length := by simp
            omega
          · exact hrest
        obtain ⟨c1, c2⟩ := classLoop_spec fuel
          (if (failed || s.isEmpty) = true then 0 else (decodeRune s).1)
          (if decide (rest.head? = some 94) = true then rest.tail else rest) false 0 htl
        rcases hcl : classLoop fuel
          (if (failed || s.isEmpty) = true then 0 else (decodeRune s).1)
          (if decide (rest.head? = some 94) = true then rest.tail else rest) false 0
          with e | ⟨found, chunk2⟩
        · dsimp only
          intro h
          injection h with h
          rw [h] at hcl
          exact c1 hcl
        · dsimp only
          exact ih _ _ _ (by have := c2 found chunk2 hcl; omega)
      · rw [if_neg h91]
        by_cases h63 : c = 63
        · rw [if_pos h63]
          exact ih _ _ _ hrest
        · rw [if_neg h63]
          by_cases hbs : c = 92 ∧ rest = []
          · rw [if_pos hbs]
            simp
          · rw [if_neg hbs]
            apply ih
            split
            · have : rest.tail.length ≤ rest.length := by simp
              omega
            · simpa using hrest

theorem matchChunk_fuel (chunk s : List Byte) : matchChunk chunk s ≠ .error .fuel :=
  matchChunkLoop_fuel _ chunk s false (Nat.lt_succ_self _)

theorem scanLen_le (p : List Byte) (inr : Bool) : scanLen p inr ≤ p.length := by
  induction p, inr using scanLen.induct <;> simp_all [scanLen] <;> (try split) <;> omega

theorem scanLen_pos (c : Byte) (rest : List Byte) (hc : c ≠ 42) :
    1 ≤ scanLen (c :: rest) false := by
  rcases rest with _ | ⟨d, rest⟩
  · simp [scanLen, hc]
  · unfold scanLen
    split_ifs <;> omega

theorem dropWhile_star_head (p : List Byte) :
    (p.dropWhile (fun c => c == 42)).head? ≠ some 42 := by
  induction p with
  | nil => simp
  | cons c p ih =>
    rw [List.dropWhile_cons]
    split
    · exact ih
    · rename_i h
      simpa using h

theorem dropWhile_star_nil (p : List Byte) :
    p.dropWhile (fun c => c == 42) = [] ↔ p.all (fun c => c == 42) = true := by
  induction p with
  | nil => simp
  | cons c p ih =>
    rw [List.dropWhile_cons]
    by_cases h : (c == 42) = true
    · simp only [h, if_true, List.all_cons, Bool.true_and]
      exact ih
    · simp [h]

/-- The chunk `scanChunk` returns is empty exactly for a pattern made of `*` only. -/
theorem scanChunk_chunk_nil (p : List Byte) :
    (scanChunk p).2.1 = [] ↔ p.all (fun c => c == 42) = true := by
  unfold scanChunk
  dsimp only
  rw [← dropWhile_star_nil]
  constructor
  · intro h
    rcases hq : p.dropWhile (fun c => c == 42) with _ | ⟨c, rest⟩
    · rfl
    · exfalso
      rw [hq] at h
      have hc : c ≠ 42 := by
        have := dropWhile_star_head p
        rw [hq] at this
        simpa using this
      have := scanLen_pos c rest hc
      rw [List.take_eq_nil_iff] at h
      rcases h with h | h
      · omega
      · simp at h
  · intro h
    rw [h]
    rfl

theorem scanChunk_rest_lt (p : List Byte) (hp : p ≠ []) :
    (scanChunk p).2.2.length < p.length := by
  unfold scanChunk
  dsimp only
  rw [List.length_drop]
  rcases p with _ | ⟨c, rest⟩
  · exact absurd rfl hp
  · by_cases hc : c = 42
    · have : ((c :: rest).dropWhile (fun c => c == 42)).length ≤ rest.length := by
        rw [List.dropWhile_cons, if_pos (by simp [hc])]
        exact (List.dropWhile_sublist _).length_le
      simp only [List.length_cons]
      omega
    · have hd : (c :: rest).dropWhile (fun c => c == 42) = c :: rest := by
        rw [List.dropWhile_cons, if_neg (by simp [hc])]
      rw [hd]
      have := scanLen_pos c rest hc
      simp only [List.length_cons]
      omega

theorem validateRest_spec : ∀ (fuel : Nat) (p : List Byte), p.length < fuel →
    validateRest fuel p ≠ .error .fuel ∧ ∀ b, validateRest fuel p = .ok b → b = false := by
  intro fuel
  induction fuel with
  | zero => intro p h; omega
  | succ fuel ih =>
    intro p hlen
    unfold validateRest
    by_cases hp : p = []
    · rw [if_pos hp]
      exact ⟨by simp, fun b h => by injection h with h; exact h.symm⟩
    · rw [if_neg hp]
      dsimp only
      have hlt := scanChunk_rest_lt p hp
      rcases hm : matchChunk (scanChunk p).2.1 [] with e | r
      · dsimp only
        refine ⟨fun h => ?_, fun b h => by simp at h⟩
        injection h with h
        rw [h] at hm
        exact matchChunk_fuel _ _ hm
      · dsimp only
        exact ih _ (by omega)

theorem starSearch_fuel (chunk rest : List Byte) :
    ∀ name, starSearch chunk rest name ≠ .error .fuel := by
  intro name
  induction name with
  | nil => simp [starSearch]
  | cons c tail ih =>
    unfold starSearch
    split
    · simp
    · rcases hm : matchChunk chunk tail with e | ⟨t, b⟩
      · dsimp only
        intro h
        injection h with h
        rw [h] at hm
        exact matchChunk_fuel _ _ hm
      · cases b
        · exact ih
        · dsimp only
          split
          · exact ih
          · simp

theorem matchLoop_fuel : ∀ (fuel : Nat) (p name : List Byte), p.length < fuel →
    matchLoop fuel p name ≠ .error .fuel := by
  intro fuel
  induction fuel with
  | zero => intro p name h; omega
  | succ fuel ih =>
    intro p name hlen
    unfold matchLoop
    by_cases hp : p = []
    · rw [if_pos hp]; simp
    · rw [if_neg hp]
      dsimp only
      have hlt := scanChunk_rest_lt p hp
      split
      · simp
      · rcases hm : matchChunk (scanChunk p).2.1 name with e | ⟨t, b⟩
        · dsimp only
          intro h
          injection h with h
          rw [h] at hm
          exact matchChunk_fuel _ _ hm
        · dsimp only
          split
          · exact ih _ _ (by omega)
          · split
            · rcases hs : starSearch (scanChunk p).2.1 (scanChunk p).2.2 name with e | r
              · dsimp only
                intro h
                injection h with h
                rw [h] at hs
                exact starSearch_fuel _ _ _ hs
              · rcases r with _ | t1
                · dsimp only
                  exact (validateRest_spec _ _ (Nat.lt_succ_self _)).1
                · dsimp only
                  exact ih _ _ (by omega)
            · exact (validateRest_spec _ _ (Nat.lt_succ_self _)).1

/-- The model of `path.Match` never reaches its bound on the iterations. -/
theorem pathMatch_fuel (p name : List Byte) : pathMatch p name ≠ .error .fuel :=
  matchLoop_fuel _ p name (Nat.lt_succ_self _)

/-- The model of `path.Match` on cases of the kind the library documents: stars, character
classes, `?`, escapes, and malformed patterns (`none`). In order: `*.zip` on `.zip` and
on `.cbz`; `a*b*c` on `aXXbYYc` and on `aXXbYYcd`; `[a-c]x` and `[^a-c]x` on `bx`; `a?b` on
`a/b` and on `a☺b`; the escaped star of `a\*b` on `a*b`; `*x` on `xxx`; then the malformed
patterns `[`, `a[`, `[a-b-c]` and a lone backslash. -/
theorem pathMatch_examples :
      (pathMatch [42, 46, 122, 105, 112] [46, 122, 105, 112]).toOption = some true ∧
      (pathMatch [42, 46, 122, 105, 112] [46, 99, 98, 122]).toOption = some false ∧
      (pathMatch [97, 42, 98, 42, 99] [97, 88, 88, 98, 89, 89, 99]).toOption = some true ∧
      (pathMatch [97, 42, 98, 42, 99] [97, 88, 88, 98, 89, 89, 99, 100]).toOption = some false ∧
      (pathMatch [91, 97, 45, 99, 93, 120] [98, 120]).toOption = some true ∧
      (pathMatch [91, 94, 97, 45, 99, 93, 120] [98, 120]).toOption = some false ∧
      (pathMatch [97, 63, 98] [97, 47, 98]).toOption = some false ∧
      (pathMatch [97, 63, 98] [97, 226, 152, 186, 98]).toOption = some true ∧
      (pathMatch [97, 92, 42, 98] [97, 42, 98]).toOption = some true ∧
      (pathMatch [42, 120] [120, 120, 120]).toOption = some true ∧
      (pathMatch [91] [97]).toOption = none ∧
      (pathMatch [97, 91] [120]).toOption = none ∧
      (pathMatch [91, 97, 45, 98, 45, 99, 93] [97]).toOption = none ∧
      (pathMatch [92] [97]).toOption = none := by
  decide!

/-! ### The matcher on paths without extension -/

theorem matchChunkLoop_failed : ∀ (fuel : Nat) (chunk s t : List Byte) (failed b : Bool),
    failed = true ∨ (s = [] ∧ chunk ≠ []) →
    matchChunkLoop fuel chunk s failed = .ok (t, b) → b = false := by
  intro fuel
  induction fuel with
  | zero => intro chunk s t failed b _ h; simp [matchChunkLoop] at h
  | succ fuel ih =>
    intro chunk s t failed b hf h
    unfold matchChunkLoop at h
    rcases chunk with _ | ⟨c, rest⟩
    · rcases hf with hf | hf
      · subst hf
        simp only [if_true] at h
        injection h with h
        injection h with _ h
        exact h.symm
      · exact absurd rfl hf.2
    · have hf2 : (failed || s.isEmpty) = true := by
        rcases hf with hf | hf
        · simp [hf]
        · simp [hf.1]
      dsimp only at h
      rw [hf2] at h
      simp only [Bool.true_or] at h
      by_cases h91 : c = 91
      · rw [if_pos h91] at h
        split at h
        · simp at h
        · exact ih _ _ _ _ _ (Or.inl rfl) h
      · rw [if_neg h91] at h
        by_cases h63 : c = 63
        · rw [if_pos h63] at h
          exact ih _ _ _ _ _ (Or.inl rfl) h
        · rw [if_neg h63] at h
          by_cases hbs : c = 92 ∧ rest = []
          · rw [if_pos hbs] at h
            simp at h
          · rw [if_neg hbs] at h
            exact ih _ _ _ _ _ (Or.inl rfl) h

theorem matchChunk_nil_name (chunk t : List Byte) (b : Bool) (hc : chunk ≠ [])
    (h : matchChunk chunk [] = .ok (t, b)) : b = false :=
  matchChunkLoop_failed _ chunk [] t false b (Or.inr ⟨rfl, hc⟩) h

/-- On the empty name `path.Match` reports a match exactly for the patterns made of `*`
only, the empty pattern among them. -/
theorem pathMatch_nil (p : List Byte) :
    matched (pathMatch p []) = p.all (fun c => c == 42) := by
  unfold pathMatch matchLoop
  by_cases hp : p = []
  · subst hp
    rfl
  · rw [if_neg hp]
    dsimp only
    by_cases hall : p.all (fun c => c == 42) = true
    · have hchunk := (scanChunk_chunk_nil p).mpr hall
      have hstar : (scanChunk p).1 = true := by
        rcases p with _ | ⟨c, rest⟩
        · exact absurd rfl hp
        · simp only [List.all_cons, Bool.and_eq_true, beq_iff_eq] at hall
          simp [scanChunk, hall.1]
      rw [if_pos ⟨hstar, hchunk⟩, hall]
      rfl
    · have hchunk : (scanChunk p).2.1 ≠ [] := fun h => hall ((scanChunk_chunk_nil p).mp h)
      rw [if_neg (fun h => hchunk h.2)]
      have hall' : p.all (fun c => c == 42) = false := by simpa using hall
      rw [hall']
      have hv : matched (validateRest ((scanChunk p).2.2.length + 1) (scanChunk p).2.2)
          = false := by
        rcases hr : validateRest ((scanChunk p).2.2.length + 1) (scanChunk p).2.2 with e | b
        · rfl
        · have := (validateRest_spec _ _ (Nat.lt_succ_self _)).2 b hr
          subst this
          rfl
      rcases hm : matchChunk (scanChunk p).2.1 [] with e | ⟨t, b⟩
      · rfl
      · have hb := matchChunk_nil_name _ t b hchunk hm
        subst hb
        dsimp only
        rw [if_neg (by simp)]
        split
        · simp only [starSearch]
          exact hv
        · exact hv

theorem Ext_nil (isSep : Byte → Bool) : Ext isSep [] = [] := rfl

theorem NewGlobMatcher_ok (isSep : Byte → Bool) (pattern : List Byte)
    (m : Path → Bool → Bool) (h : NewGlobMatcher isSep pattern = .ok m) :
    m = fun pathname depPlatform =>
      (splitBar pattern).any (fun s => matched (pathMatch s
        (if depPlatform then Ext isSep pathname else Ext isSlash pathname))) := by
  unfold NewGlobMatcher at h
  dsimp only at h
  split at h
  · simp at h
  · injection h with h
    exact h.symm

/-- C18, counterexample: the matcher built from `*`, the value of a bare `--copy` flag,
returns `true` on the empty path, for both values of `depPlatform`. -/
theorem star_matches_empty_path :
    globMatches isSlash [42] [] true = some true ∧
      globMatches isSlash [42] [] false = some true := by
  decide

/-- C18, amended: for every pattern string that `NewGlobMatcher` accepts, every separator
test of the platform and both values of `depPlatform`, the matcher returns on the
empty path `true` exactly when one of the bar-separated alternatives is made of
`*` characters only (the empty alternative included). -/
theorem matcher_on_empty_path (isSep : Byte → Bool) (pattern : List Byte)
    (m : Path → Bool → Bool) (h : NewGlobMatcher isSep pattern = .ok m) (depPlatform : Bool) :
    m [] depPlatform = (splitBar pattern).any (fun alt => alt.all (fun c => c == 42)) := by
  rw [NewGlobMatcher_ok isSep pattern m h]
  dsimp only
  have hn : (if depPlatform = true then Ext isSep [] else Ext isSlash []) = [] := by
    split <;> rfl
  rw [hn]
  congr 1
  funext s
  exact pathMatch_nil s

/-- C18, witness: the default convert and archive patterns; their matchers return `false`
on the empty path. -/
theorem matcher_on_empty_path_witness :
    (∃ m, NewGlobMatcher isSlash defaultConvertPattern = .ok m ∧ m [] true = false) ∧
      ∃ m, NewGlobMatcher isSlash defaultArchivePattern = .ok m ∧ m [] true = false :=
  ⟨⟨_, rfl, (matcher_on_empty_path isSlash defaultConvertPattern _ rfl true).trans (by decide)⟩,
    ⟨_, rfl, (matcher_on_empty_path isSlash defaultArchivePattern _ rfl true).trans (by decide)⟩⟩

/-- C19, counterexample: the matcher built from the empty pattern string returns `true` on
the path `README`, which has no extension. -/
theorem empty_pattern_matches_readme :
    globMatches isSlash [] readmePath true = some true ∧
      globMatches isSlash [] readmePath false = some true := by
  decide

/-- C19, amended: `NewGlobMatcher("")` succeeds, and its matcher, which holds the one empty
pattern, returns `true` exactly on the paths whose extension is empty, for both
values of `depPlatform`. -/
theorem empty_pattern_matcher (isSep : Byte → Bool) :
    ∃ m, NewGlobMatcher isSep [] = .ok m ∧
      ∀ (pathname : Path) (depPlatform : Bool),
        m pathname depPlatform
          = (if depPlatform then Ext isSep pathname else Ext isSlash pathname).isEmpty := by
  refine ⟨_, rfl, fun pathname depPlatform => ?_⟩
  simp [splitBar, pathMatch, matchLoop, matched]

/-! ### The default of the output path -/

/-- C20, the code at the failing input: `webpdeep c.zip` for a regular file `c.zip`, without
`--output`. Setup does not fail: the destination becomes `c.webp`, although the
source matches the archive pattern; the scan then walks the archive and creates
the output archive, with a writer for two entries, at `c.webp`. -/
theorem archive_source_gets_webp_dest :
    setupAndScan zipFileEnv easyEnv zipOnlyFlags = some ⟨cZip, cWebp, true, some [(cWebp, 2)]⟩ := by
  decide

/-! ### Close errors after an error -/

/-- C21, counterexample: `in.Open` fails and both `Close` calls fail; the codec fails and
`out.Close` fails. After `do` the error is the first one and the warnings hold no
close error: they are empty in the first run and the codec's warning in the
second. -/
theorem close_error_after_error_is_dropped :
    copyJob.do openAndCloseFail
        = ⟨[.inOpen, .inClose, .outClose], some 1, []⟩ ∧
      copyJob.do codecAndCloseFail
        = ⟨[.inOpen, .inInfo, .outOpen true, .convert, .inClose, .outClose], some 1, [7]⟩ := by
  decide

/-- C21, amended: when `in.Open`, `out.Open` or the codec has failed, a failure of `in.Close`
or of `out.Close` changes nothing: the job after `do` is the one of the same run with
both `Close` calls succeeding, so `Err` is the earlier error and `Warnings` holds no
close error. -/
theorem close_error_after_error_changes_nothing (job : Job) (o : Outcomes)
    (h : o.inOpen ≠ none ∨ o.outOpen ≠ none ∨ o.codec ≠ none) :
    job.do o = job.do { o with inClose := none, outClose := none } ∧
      (job.do o).Err = firstError [o.inOpen, o.outOpen, o.codec] := by
  rcases o with ⟨a, b, c, d, w, e, f⟩
  rcases job with ⟨i, u, k, m⟩
  cases a <;> cases b <;> cases c <;> cases d <;> cases e <;> cases f <;> cases m <;>
    simp [Job.do, closeBoth, firstError] at h ⊢

/-- C21, witness: the run `codecAndCloseFail`. -/
theorem close_error_after_error_changes_nothing_witness :
    copyJob.do codecAndCloseFail
        = copyJob.do { codecAndCloseFail with inClose := none, outClose := none } ∧
      (copyJob.do codecAndCloseFail).Err = some 1 :=
  close_error_after_error_changes_nothing copyJob codecAndCloseFail (by decide)

/-! ### The counters of the monitor -/

/-- What every message keeps true of the counters, with the warnings counted so far. -/
theorem Monitor.precessEvent_invariant (mo : Monitor) (m : Msg) (w : Nat)
    (h1 : mo.jobCount.v = mo.Convert.t + mo.Copy.t)
    (h2 : mo.jobCount.t + mo.scannerErr = mo.Convert.v + mo.Copy.v + mo.Errs)
    (h3 : mo.Warnings = w) :
    (mo.precessEvent m).jobCount.v = (mo.precessEvent m).Convert.t + (mo.precessEvent m).Copy.t ∧
      (mo.precessEvent m).jobCount.t + (mo.precessEvent m).scannerErr
        = (mo.precessEvent m).Convert.v + (mo.precessEvent m).Copy.v + (mo.precessEvent m).Errs ∧
      (mo.precessEvent m).Warnings = w + doneWarnings [m] := by
  cases m with
  | scannerNewJob job =>
    rcases job with ⟨c, e, ws⟩
    cases c <;> simp [Monitor.precessEvent, doneWarnings] <;> omega
  | transferJobDone job =>
    rcases job with ⟨c, e, ws⟩
    cases c <;> cases e <;> simp [Monitor.precessEvent, doneWarnings] <;> omega
  | scannerError => simp [Monitor.precessEvent, doneWarnings]; omega
  | scannerDone sc => simp [Monitor.precessEvent, doneWarnings]; omega
  | transferDone => simp [Monitor.precessEvent, doneWarnings]; omega

theorem doneWarnings_append (a b : List Msg) :
    doneWarnings (a ++ b) = doneWarnings a + doneWarnings b := by
  induction a with
  | nil => simp [doneWarnings]
  | cons m a ih =>
    cases m <;> simp [doneWarnings, ih]
    omega

theorem Monitor.foldl_invariant (msgs : List Msg) :
    ∀ (mo : Monitor) (w : Nat), mo.jobCount.v = mo.Convert.t + mo.Copy.t →
      mo.jobCount.t + mo.scannerErr = mo.Convert.v + mo.Copy.v + mo.Errs →
      mo.Warnings = w →
      (msgs.foldl Monitor.precessEvent mo).jobCount.v
          = (msgs.foldl Monitor.precessEvent mo).Convert.t
            + (msgs.foldl Monitor.precessEvent mo).Copy.t ∧
        (msgs.foldl Monitor.precessEvent mo).jobCount.t
            + (msgs.foldl Monitor.precessEvent mo).scannerErr
          = (msgs.foldl Monitor.precessEvent mo).Convert.v
            + (msgs.foldl Monitor.precessEvent mo).Copy.v
            + (msgs.foldl Monitor.precessEvent mo).Errs ∧
        (msgs.foldl Monitor.precessEvent mo).Warnings = w + doneWarnings msgs := by
  induction msgs with
  | nil => intro mo w h1 h2 h3; exact ⟨h1, h2, by simpa [doneWarnings] using h3⟩
  | cons m msgs ih =>
    intro mo w h1 h2 h3
    obtain ⟨i1, i2, i3⟩ := Monitor.precessEvent_invariant mo m w h1 h2 h3
    obtain ⟨j1, j2, j3⟩ := ih (mo.precessEvent m) (w + doneWarnings [m]) i1 i2 i3
    refine ⟨j1, j2, ?_⟩
    rw [List.foldl_cons, j3, show m :: msgs = [m] ++ msgs from rfl, doneWarnings_append]
    omega

/-- C22: from zeroed counters and after any sequence of messages, `jobCount.v` is
`Convert.t + Copy.t`, `jobCount.t` is `Convert.v + Copy.v + (Errs - scannerErr)`, `scannerErr` is
at most `Errs`, and `Warnings` is the sum of `len(job.Warnings)` over the job-done
messages; and a job-done message of a job with an error changes neither
`Convert.v` nor `Copy.v`. -/
theorem monitor_counter_invariant (msgs : List Msg) :
    (Monitor.after msgs).jobCount.v
        = (Monitor.after msgs).Convert.t + (Monitor.after msgs).Copy.t ∧
      (Monitor.after msgs).jobCount.t
        = (Monitor.after msgs).Convert.v + (Monitor.after msgs).Copy.v
          + ((Monitor.after msgs).Errs - (Monitor.after msgs).scannerErr) ∧
      (Monitor.after msgs).scannerErr ≤ (Monitor.after msgs).Errs ∧
      (Monitor.after msgs).Warnings = doneWarnings msgs ∧
      ∀ (mo : Monitor) (job : JobReport), job.Err ≠ none →
        (mo.precessEvent (.transferJobDone job)).Convert.v = mo.Convert.v ∧
        (mo.precessEvent (.transferJobDone job)).Copy.v = mo.Copy.v := by
  have hle : ∀ (msgs : List Msg) (mo : Monitor), mo.scannerErr ≤ mo.Errs →
      (msgs.foldl Monitor.precessEvent mo).scannerErr
        ≤ (msgs.foldl Monitor.precessEvent mo).Errs := by
    intro msgs
    induction msgs with
    | nil => intro mo h; exact h
    | cons m msgs ih =>
      intro mo h
      apply ih
      cases m with
      | scannerNewJob job =>
        rcases job with ⟨c, e, ws⟩
        cases c <;> simpa [Monitor.precessEvent] using h
      | transferJobDone job =>
        rcases job with ⟨c, e, ws⟩
        cases c <;> cases e <;> simp [Monitor.precessEvent] <;> omega
      | scannerError => simp [Monitor.precessEvent]; omega
      | scannerDone sc => simpa [Monitor.precessEvent] using h
      | transferDone => simpa [Monitor.precessEvent] using h
  obtain ⟨h1, h2, h3⟩ := Monitor.foldl_invariant msgs NewMonitor 0 rfl rfl rfl
  have h4 := hle msgs NewMonitor (Nat.le_refl _)
  unfold Monitor.after
  refine ⟨h1, by omega, h4, by omega, fun mo job hj => ?_⟩
  rcases job with ⟨c, e, ws⟩
  cases e with
  | none => exact absurd rfl hj
  | some e => cases c <;> simp [Monitor.precessEvent]

/-! ### Malformed extra fields -/

/-- The bound on the iterations of `detectLoop` is never what ends the loop: every
iteration moves `pos` forward, so with more than `len - pos` iterations allowed the
result is that of any larger bound. -/
theorem detectLoop_fuel_enough (fh : FileHeader) :
    ∀ (fuel1 fuel2 pos : Nat), fh.Extra.len < pos + fuel1 → fuel1 ≤ fuel2 →
      detectLoop fh fuel1 pos = detectLoop fh fuel2 pos := by
  intro fuel1
  induction fuel1 with
  | zero =>
    intro fuel2 pos h _
    rcases fuel2 with _ | f2
    · rfl
    · unfold detectLoop
      rw [if_neg (by omega)]
  | succ fuel1 ih =>
    intro fuel2 pos h hle
    obtain ⟨f2, rfl⟩ : ∃ f, fuel2 = f + 1 := ⟨fuel2 - 1, by omega⟩
    unfold detectLoop
    by_cases hp : pos < fh.Extra.len
    · rw [if_pos hp, if_pos hp]
      rcases fh.Extra.slice pos (pos + 2) with _ | t
      · rfl
      · dsimp only
        rcases fh.Extra.slice (pos + 2) (pos + 2 + 2) with _ | z
        · rfl
        · dsimp only
          have hrec := ih f2 (pos + 2 + 2 + le z.bytes) (by omega) (by omega)
          rw [hrec]
    · rw [if_neg hp, if_neg hp]

/-- The function `DetectZipUTF8Path` does not depend on the bound of its model. -/
theorem DetectZipUTF8Path_fuel (fh : FileHeader) (k : Nat) :
    detectLoop fh (fh.Extra.len + 1 + k) 0 = detectLoop fh (fh.Extra.len + 1) 0 :=
  (detectLoop_fuel_enough fh (fh.Extra.len + 1) (fh.Extra.len + 1 + k) 0 (by omega)
    (by omega)).symm

/-- C23, the code at the failing inputs: a header flagged non-UTF-8 whose extra field
has no spare capacity. One trailing byte, three trailing bytes, a Unicode Path
record whose size runs past the end of the field, and a Unicode Path record
without data each end in a slice expression out of range (`none`); a record of
another tag whose size runs past the end is skipped and the raw name returned. -/
theorem detect_panics_on_malformed_extra :
    DetectZipUTF8Path ⟨[196], true, ⟨[1], 1⟩⟩ = none ∧
      DetectZipUTF8Path ⟨[196], true, ⟨[1, 0, 0], 3⟩⟩ = none ∧
      DetectZipUTF8Path ⟨[196], true, ⟨[117, 112, 9, 0, 1, 2], 6⟩⟩ = none ∧
      DetectZipUTF8Path ⟨[196], true, ⟨[117, 112, 0, 0], 4⟩⟩ = none ∧
      DetectZipUTF8Path ⟨[196], true, ⟨[1, 0, 9, 0, 1, 2], 6⟩⟩ = some ([196], true) := by
  decide

end Webpdeep
